import Mathlib

/-!
# embedded-memhook: a verification development

Shallow embedding of the allocation-tracking tools of the repository:

* `Dump`     : `memhook_toolkit/src/memhook_dump.c` (binary log decoder, 40/48-byte records)
* `DumpV1`   : `memhook/memhook_dump.c` (binary log decoder, 40-byte records only)
* `Analyze`  : `memhook_dump/memhook_csv_analyze.c` (CSV replayer)
* `Leakhook` : `leakhook/leakhook.c` (interception layer, modelled sequentially)

Machine integers are natural numbers (or integers for `int`/`long`), with an
explicit `% 2 ^ 64` wherever the C arithmetic can wrap.  Heap allocation inside
the tools themselves (`malloc`/`realloc` of their own tables) is assumed to
succeed.
-/

set_option autoImplicit false

/-- Two to the sixty-fourth: the modulus of `uint64_t` and `size_t` arithmetic. -/
def U64 : Nat := 2 ^ 64

/-- The libc routine `qsort`, used by the tools with a three-way comparator `cmp`.
The C standard promises only a permutation of the input that is ascending for
`cmp`; it is modelled by insertion sort on the relation `cmp x y ≤ 0`. -/
def qsort {α : Type} (cmp : α → α → Int) (l : List α) : List α :=
  l.insertionSort (fun x y => cmp x y ≤ 0)

/-! ## The binary decoder `memhook_toolkit/src/memhook_dump.c` -/

namespace Dump

/-- Type `rec_v1`, the 40-byte record (the loop copies a `rec_v2` into it field by field). -/
structure rec_v1 where
  ts_ns : Nat
  tid : Nat
  op : Nat
  pad : Nat
  ptr : Nat
  arg : Nat
  retaddr : Nat
deriving DecidableEq, Repr

/-- Type `rec_v2`, the 48-byte record: `rec_v1` plus `wall_ns`. -/
structure rec_v2 where
  ts_ns : Nat
  wall_ns : Nat
  tid : Nat
  op : Nat
  pad : Nat
  ptr : Nat
  arg : Nat
  retaddr : Nat
deriving DecidableEq, Repr

/-- Routine `op_name`. -/
def op_name (op : Nat) : String :=
  match op with
  | 0 => "malloc"
  | 1 => "free"
  | 2 => "realloc"
  | 3 => "calloc"
  | _ => "?"

/-- Type `Live`, one node of the singly linked live list (the `next` pointer is the list tail). -/
structure Live where
  ptr : Nat
  size : Nat
  ts_ns : Nat
  wall_ns : Nat
  ra : Nat
  tid : Nat
deriving DecidableEq, Repr

/-- Routine `add_live`: a new node is linked in front of `live_head`. -/
def add_live (live_head : List Live) (ptr size tid ts wall ra : Nat) : List Live :=
  { ptr := ptr, size := size, tid := tid, ts_ns := ts, wall_ns := wall, ra := ra } :: live_head

/-- Routine `del_live`: unlinks the first node whose `ptr` matches; the second
component is `some size` for return value 1 and `none` for return value 0. -/
def del_live : List Live → Nat → List Live × Option Nat
  | [], _ => ([], none)
  | p :: rest, ptr =>
    if p.ptr = ptr then (rest, some p.size)
    else ((p :: (del_live rest ptr).1), (del_live rest ptr).2)

/-- Type `LeakRow`. -/
structure LeakRow where
  ptr : Nat
  size : Nat
  ts_ns : Nat
  wall_ns : Nat
  ra : Nat
  tid : Nat
deriving DecidableEq, Repr

/-- Routine `cmp_leak_desc`: size descending, then time ascending. -/
def cmp_leak_desc (x y : LeakRow) : Int :=
  if y.size > x.size then 1
  else if y.size < x.size then -1
  else if x.ts_ns < y.ts_ns then -1
  else if x.ts_ns > y.ts_ns then 1
  else 0

/-- Routine `cmp_leak_time_asc`: time ascending, then size descending. -/
def cmp_leak_time_asc (x y : LeakRow) : Int :=
  if x.ts_ns < y.ts_ns then -1
  else if x.ts_ns > y.ts_ns then 1
  else if y.size > x.size then 1
  else if y.size < x.size then -1
  else 0

/-- Type `Opts` (the paths play no part in the replay). -/
structure Opts where
  live_all : Bool
  live_top : Int
  min_size : Nat
  sort_time : Bool
deriving DecidableEq, Repr

/-- The options after `memset` and `opt.live_top = 20`. -/
def default_opts : Opts :=
  { live_all := false, live_top := 20, min_size := 0, sort_time := false }

/-- The accumulators of `main`'s record loop. -/
structure State where
  live_head : List Live
  total_malloc : Nat
  total_calloc : Nat
  total_realloc_new : Nat
  total_freed : Nat
  cnt0 : Nat
  cnt1 : Nat
  cnt2 : Nat
  cnt3 : Nat
  first_ts : Nat
  last_ts : Nat
  idx : Nat
deriving DecidableEq, Repr

/-- The accumulators before the first record. -/
def init : State :=
  { live_head := [], total_malloc := 0, total_calloc := 0, total_realloc_new := 0,
    total_freed := 0, cnt0 := 0, cnt1 := 0, cnt2 := 0, cnt3 := 0,
    first_ts := 0, last_ts := 0, idx := 0 }

/-- Statement `if(r1.op<4) cnt[r1.op]++;`. -/
def count_op (st : State) (op : Nat) : State :=
  match op with
  | 0 => { st with cnt0 := (st.cnt0 + 1) % U64 }
  | 1 => { st with cnt1 := (st.cnt1 + 1) % U64 }
  | 2 => { st with cnt2 := (st.cnt2 + 1) % U64 }
  | 3 => { st with cnt3 := (st.cnt3 + 1) % U64 }
  | _ => st

/-- The live-set part of one loop iteration (the `if(r1.op==0) ... else if(r1.op==1)` chain). -/
def apply_op (st : State) (r1 : rec_v1) (wall_ns : Nat) : State :=
  if r1.op = 0 then
    { st with live_head := add_live st.live_head r1.ptr r1.arg r1.tid r1.ts_ns wall_ns r1.retaddr,
              total_malloc := (st.total_malloc + r1.arg) % U64 }
  else if r1.op = 3 then
    { st with live_head := add_live st.live_head r1.ptr r1.arg r1.tid r1.ts_ns wall_ns r1.retaddr,
              total_calloc := (st.total_calloc + r1.arg) % U64 }
  else if r1.op = 2 then
    match del_live st.live_head r1.ptr with
    | (l, some oldsz) => { st with live_head := l, total_freed := (st.total_freed + oldsz) % U64 }
    | (_, none) =>
      { st with live_head := add_live st.live_head r1.ptr r1.arg r1.tid r1.ts_ns wall_ns r1.retaddr,
                total_realloc_new := (st.total_realloc_new + r1.arg) % U64 }
  else if r1.op = 1 then
    match del_live st.live_head r1.ptr with
    | (l, some oldsz) => { st with live_head := l, total_freed := (st.total_freed + oldsz) % U64 }
    | (_, none) => st
  else st

/-- One iteration of the record loop after the record has been read
(`first_ts`/`last_ts`, the per-op count, the live set, `idx++`). -/
def process (st : State) (r : rec_v1 × Nat) : State :=
  let st1 := { st with first_ts := if st.first_ts = 0 then r.1.ts_ns else st.first_ts,
                       last_ts := r.1.ts_ns }
  let st2 := apply_op (count_op st1 r.1.op) r.1 r.2
  { st2 with idx := st2.idx + 1 }

/-- The input file: its size in bytes and the record found at each byte
offset under either layout (what `fread` of 40 resp. 48 bytes yields there). -/
structure File where
  sz : Nat
  v1 : Nat → rec_v1
  v2 : Nat → rec_v2

/-- The version guess made from the file size before the loop. -/
def guess_v2 (sz : Nat) : Bool :=
  if sz % 48 = 0 ∧ sz / 48 > 0 then true
  else if sz % 40 = 0 ∧ sz / 40 > 0 then false
  else true

/-- Statement `nrec = is_v2 ? sz/48 : sz/40`. -/
def nrec_of (is_v2 : Bool) (sz : Nat) : Nat :=
  if is_v2 then sz / 48 else sz / 40

/-- The copy of a `rec_v2` into `r1` together with its `wall_ns`. -/
def of_v2 (r2 : rec_v2) : rec_v1 × Nat :=
  ({ ts_ns := r2.ts_ns, tid := r2.tid, op := r2.op, pad := r2.pad, ptr := r2.ptr,
     arg := r2.arg, retaddr := r2.retaddr }, r2.wall_ns)

/-- The result of the reading side of the loop: the layout finally used, the
reported record count, and the records handed to the replay, in order. -/
structure ReadResult where
  is_v2 : Bool
  nrec : Nat
  recs : List (rec_v1 × Nat)

/-- The reading side of `main`'s `while(1)` loop.  A `fread` of one record of
`R` bytes at offset `pos` yields the record iff `pos + R ≤ sz`.  `pos` is the
file offset, `idx` the number of records read so far; a failed 48-byte read at
`idx = 0` rewinds and switches to the 40-byte layout.  Every iteration but the
fallback consumes at least 40 bytes, so `sz + 2` rounds always reach the
`break`. -/
def read_loop (f : File) : Nat → Nat → Nat → Bool → Nat → List (rec_v1 × Nat) → ReadResult
  | 0, _, _, is_v2, nrec, acc => { is_v2 := is_v2, nrec := nrec, recs := acc.reverse }
  | fuel + 1, pos, idx, is_v2, nrec, acc =>
    if is_v2 then
      if pos + 48 ≤ f.sz then
        read_loop f fuel (pos + 48) (idx + 1) true nrec (of_v2 (f.v2 pos) :: acc)
      else if idx = 0 then
        read_loop f fuel 0 idx false (f.sz / 40) acc
      else { is_v2 := is_v2, nrec := nrec, recs := acc.reverse }
    else
      if pos + 40 ≤ f.sz then
        read_loop f fuel (pos + 40) (idx + 1) false nrec ((f.v1 pos, 0) :: acc)
      else { is_v2 := is_v2, nrec := nrec, recs := acc.reverse }

/-- The whole reading side: version guess, `nrec`, then the loop from offset 0. -/
def read_file (f : File) : ReadResult :=
  read_loop f (f.sz + 2) 0 0 (guess_v2 f.sz) (nrec_of (guess_v2 f.sz) f.sz) []

/-- The replay of a list of decoded records. -/
def replay (recs : List (rec_v1 × Nat)) : State :=
  recs.foldl process init

/-- The loop of `main` on a file. -/
def run (f : File) : State :=
  replay (read_file f).recs

/-- Copy of a live node into a `LeakRow`. -/
def to_row (p : Live) : LeakRow :=
  { ptr := p.ptr, size := p.size, tid := p.tid, ts_ns := p.ts_ns, wall_ns := p.wall_ns, ra := p.ra }

/-- The result of the collection loop. -/
structure Leaks where
  live_bytes : Nat
  live_blocks : Nat
  rows : List LeakRow
deriving DecidableEq, Repr

/-- The loop `for(Live* p=live_head;p;p=p->next)` that applies the `min_size`
filter; `live_bytes` is a `uint64_t`, the two counts count nodes in memory. -/
def collect (min_size : Nat) : List Live → Leaks → Leaks
  | [], acc => acc
  | p :: rest, acc =>
    if p.size < min_size then collect min_size rest acc
    else collect min_size rest
      { live_bytes := (acc.live_bytes + p.size) % U64,
        live_blocks := acc.live_blocks + 1,
        rows := acc.rows ++ [to_row p] }

/-- The collection from the initial `live_bytes=0`, `live_blocks=0`, `nrows=0`. -/
def collect_leaks (min_size : Nat) (live_head : List Live) : Leaks :=
  collect min_size live_head { live_bytes := 0, live_blocks := 0, rows := [] }

/-- The sort of the collected rows (`if(rows && nrows>1) qsort(...)`). -/
def sort_rows (opt : Opts) (rows : List LeakRow) : List LeakRow :=
  if rows.length > 1 then
    if opt.sort_time then qsort cmp_leak_time_asc rows else qsort cmp_leak_desc rows
  else rows

/-- Value `limit` of the printing block: `live_all ? nrows : (live_top>0 ? live_top : 0)`,
then capped by `nrows`. -/
def print_limit (opt : Opts) (nrows : Nat) : Nat :=
  let limit := if opt.live_all then nrows else (if opt.live_top > 0 then opt.live_top.toNat else 0)
  if limit > nrows then nrows else limit

/-- The rows printed by the `for(size_t i=0;i<limit;i++)` loop (none when `nrows = 0`). -/
def printed_rows (opt : Opts) (rows : List LeakRow) : List LeakRow :=
  if rows.length > 0 then rows.take (print_limit opt rows.length) else []

/-- The number in the line `... (%zu more, ...)`, when that line is printed. -/
def printed_more (opt : Opts) (rows : List LeakRow) : Option Nat :=
  if rows.length > 0 then
    if !opt.live_all ∧ rows.length > print_limit opt rows.length then
      some (rows.length - print_limit opt rows.length)
    else none
  else none

/-- The leak listing of `main`: collect with the filter, sort, print up to the limit. -/
def leak_listing (opt : Opts) (live_head : List Live) : List LeakRow :=
  printed_rows opt (sort_rows opt (collect_leaks opt.min_size live_head).rows)

end Dump

/-! ## The CSV replayer `memhook_dump/memhook_csv_analyze.c` -/

namespace Analyze

/-- Type `Row`, one parsed CSV line.  `idx` is a `long`, `tid` an `int`; the
two strings hold at most 63 characters, so the later `strncpy(.., 63)` copies
of them are plain copies. -/
structure Row where
  idx : Int
  ts_ns : Nat
  wall_ns : Nat
  wall_time : String
  tid : Int
  op : String
  ptr : Nat
  arg : Nat
  ra : Nat
deriving DecidableEq, Repr

/-- A row of thread `tid` at call site `ra` with the given index, operation,
address and size; the time columns are left at zero (used for sample traces). -/
def mk_row (idx : Int) (op : String) (ptr arg : Nat) (tid : Int) (ra : Nat) : Row :=
  { idx := idx, ts_ns := 0, wall_ns := 0, wall_time := "", tid := tid, op := op, ptr := ptr,
    arg := arg, ra := ra }

/-- Type `LiveEnt`, one slot of the open-addressing table. -/
structure LiveEnt where
  key_ptr : Nat
  size : Nat
  tid : Int
  ra : Nat
  ts_ns : Nat
  wall_time : String
  used : Bool
deriving DecidableEq, Repr

/-- Type `LiveMap`: the slot array `a` (indices below `cap` are the allocated
ones), the capacity and the `cnt` field. -/
structure LiveMap where
  a : Nat → LiveEnt
  cap : Nat
  cnt : Nat

/-- Routine `hmix` on a 64-bit value. -/
def hmix (x : Nat) : Nat :=
  let x1 := x ^^^ (x >>> 33)
  let x2 := (x1 * 0xff51afd7ed558ccd) % U64
  let x3 := x2 ^^^ (x2 >>> 33)
  let x4 := (x3 * 0xc4ceb9fe1a85ec53) % U64
  x4 ^^^ (x4 >>> 33)

/-- A slot as `calloc` leaves it. -/
def zero_ent : LiveEnt :=
  { key_ptr := 0, size := 0, tid := 0, ra := 0, ts_ns := 0, wall_time := "", used := false }

/-- Routine `live_init`: `cap = 1<<20`, `cnt = 0`, all slots zeroed. -/
def live_init : LiveMap :=
  { a := fun _ => zero_ent, cap := 2 ^ 20, cnt := 0 }

/-- Assignment to one slot of the array. -/
def set_slot (a : Nat → LiveEnt) (i : Nat) (e : LiveEnt) : Nat → LiveEnt :=
  fun j => if j = i then e else a j

/-- Statements `e->used=1; e->key_ptr=key;` of `live_upsert`. -/
def claim_ent (e : LiveEnt) (key : Nat) : LiveEnt :=
  { e with used := true, key_ptr := key }

/-- Statement `e->used=0;` of `live_erase`. -/
def clear_ent (e : LiveEnt) : LiveEnt :=
  { e with used := false }

/-- The `for(step...)` loop of `live_find`; the first number counts the
remaining iterations, the second is the probe index `i`.  The result is the
index of the slot returned, `none` for `NULL`. -/
def live_find_loop (m : LiveMap) (key : Nat) : Nat → Nat → Option Nat
  | 0, _ => none
  | fuel + 1, i =>
    if (m.a i).used = false then none
    else if (m.a i).key_ptr = key then some i
    else live_find_loop m key fuel ((i + 1) &&& (m.cap - 1))

/-- Routine `live_find`. -/
def live_find (m : LiveMap) (key : Nat) : Option Nat :=
  live_find_loop m key m.cap (hmix key &&& (m.cap - 1))

/-- The loop of `live_upsert`. -/
def live_upsert_loop (m : LiveMap) (key : Nat) : Nat → Nat → LiveMap × Option Nat
  | 0, _ => (m, none)
  | fuel + 1, i =>
    if (m.a i).used = false then
      ({ m with a := set_slot m.a i (claim_ent (m.a i) key),
                cnt := (m.cnt + 1) % U64 }, some i)
    else if (m.a i).key_ptr = key then (m, some i)
    else live_upsert_loop m key fuel ((i + 1) &&& (m.cap - 1))

/-- Routine `live_upsert`: the map after the call and the index of the slot
returned (`none` for `NULL`). -/
def live_upsert (m : LiveMap) (key : Nat) : LiveMap × Option Nat :=
  live_upsert_loop m key m.cap (hmix key &&& (m.cap - 1))

/-- The migration loop `while(m->a[j].used)` inside `live_erase`.  The C loop
has no bound; the first number bounds the iterations of the model, and `none`
stands for a run that either exhausts it or dereferences the `NULL` result of
`live_upsert`. -/
def live_erase_shift : Nat → LiveMap → Nat → Option LiveMap
  | 0, _, _ => none
  | fuel + 1, m, j =>
    if (m.a j).used = false then some m
    else
      match live_upsert { m with a := set_slot m.a j (clear_ent (m.a j)) }
              (m.a j).key_ptr with
      | (m2, some p) =>
        live_erase_shift fuel { m2 with a := set_slot m2.a p (m.a j) } ((j + 1) &&& (m.cap - 1))
      | (_, none) => none

/-- The iteration bound given to the migration loop.  Each migration that
moves an entry brings it nearer to its home slot and at most `cap` steps pass
between two moves, so `cap ^ 3 + cap` iterations are never exceeded. -/
def shift_fuel (m : LiveMap) : Nat := m.cap * m.cap * m.cap + m.cap

/-- The outer loop of `live_erase`.  The result is the map after the call and
`some old` (the copy written to `*out`) for return value 1, `none` for 0. -/
def live_erase_loop (m : LiveMap) (key : Nat) : Nat → Nat → Option (LiveMap × Option LiveEnt)
  | 0, _ => some (m, none)
  | fuel + 1, i =>
    if (m.a i).used = false then some (m, none)
    else if (m.a i).key_ptr = key then
      match live_erase_shift (shift_fuel m)
              { m with a := set_slot m.a i (clear_ent (m.a i)) }
              ((i + 1) &&& (m.cap - 1)) with
      | some m2 => some ({ m2 with cnt := (m2.cnt + U64 - 1) % U64 }, some (m.a i))
      | none => none
    else live_erase_loop m key fuel ((i + 1) &&& (m.cap - 1))

/-- Routine `live_erase`. -/
def live_erase (m : LiveMap) (key : Nat) : Option (LiveMap × Option LiveEnt) :=
  live_erase_loop m key m.cap (hmix key &&& (m.cap - 1))

/-- The loop `for(i<cap) if(used){ end_cnt++; ... }` of `main`, up to slot `n`. -/
def count_used (a : Nat → LiveEnt) : Nat → Nat
  | 0 => 0
  | n + 1 => count_used a n + (if (a n).used then 1 else 0)

/-- The exact sum of the `size` fields of the used slots below `n`. -/
def sum_used (a : Nat → LiveEnt) : Nat → Nat
  | 0 => 0
  | n + 1 => sum_used a n + (if (a n).used then (a n).size else 0)

/-- Value `end_cnt` of `main`. -/
def end_cnt (m : LiveMap) : Nat := count_used m.a m.cap

/-- Value `end_bytes` of `main`, a `uint64_t` sum. -/
def end_bytes (m : LiveMap) : Nat := sum_used m.a m.cap % U64

/-- The capacity is a power of two, so `x & (cap-1)` is `x % cap`. -/
def CapOk (m : LiveMap) : Prop := ∃ p, m.cap = 2 ^ p

/-- The first `d` probes from slot `h` for `key` all hit used slots holding other keys. -/
def Skip (a : Nat → LiveEnt) (N key h d : Nat) : Prop :=
  ∀ d', d' < d → (a ((h + d') % N)).used = true ∧ (a ((h + d') % N)).key_ptr ≠ key

/-- Probe-sequence continuity for the entry in slot `s`: the probes from its
home slot reach `s` passing only used slots that hold other keys. -/
def Found (a : Nat → LiveEnt) (N s : Nat) : Prop :=
  ∃ d, d < N ∧ (hmix (a s).key_ptr % N + d) % N = s ∧
    Skip a N (a s).key_ptr (hmix (a s).key_ptr % N) d

/-- Slot `s` lies in the run of used slots that starts at slot `j`. -/
def InRun (a : Nat → LiveEnt) (N j s : Nat) : Prop :=
  ∃ c, c < N ∧ (j + c) % N = s ∧ ∀ c', c' ≤ c → (a ((j + c') % N)).used = true

/-- The table invariant: power-of-two capacity and probe-sequence continuity
for every used slot. -/
def WF (m : LiveMap) : Prop :=
  CapOk m ∧ ∀ s, s < m.cap → (m.a s).used = true → Found m.a m.cap s

/-- No two used slots below `N` hold the same key. -/
def KeysUnique (a : Nat → LiveEnt) (N : Nat) : Prop :=
  ∀ s1 s2, s1 < N → s2 < N → (a s1).used = true → (a s2).used = true →
    (a s1).key_ptr = (a s2).key_ptr → s1 = s2

/-- The invariant of the migration loop of `live_erase` at cursor `j`: keys
are unique, and every entry either has probe-sequence continuity or lies in
the run of used slots that starts at the cursor (and is still to be migrated). -/
def ShiftInv (a : Nat → LiveEnt) (N j : Nat) : Prop :=
  j < N ∧ KeysUnique a N ∧
    ∀ s, s < N → (a s).used = true → Found a N s ∨ InRun a N j s

/-- The unused slot `u` lies on no stored entry's probe path (so no migration claims it). -/
def Avoids (a : Nat → LiveEnt) (N u : Nat) : Prop :=
  u < N ∧ (a u).used = false ∧
    ∀ s, s < N → (a s).used = true → ∀ d, d < N → (hmix (a s).key_ptr % N + d) % N = s →
      ∀ d', d' < d → (hmix (a s).key_ptr % N + d') % N ≠ u

/-- Entry `e` sits in some used slot below `N`. -/
def Holds (a : Nat → LiveEnt) (N : Nat) (e : LiveEnt) : Prop :=
  ∃ s, s < N ∧ (a s).used = true ∧ a s = e

/-- The entry `live_find` returns for a key, if any. -/
def lookup (m : LiveMap) (key : Nat) : Option LiveEnt :=
  (live_find m key).map m.a

/-- The entry a `malloc`/`calloc`/`realloc` row leaves in its slot. -/
def ent_of (r : Row) : LiveEnt :=
  { key_ptr := r.ptr, size := r.arg, tid := r.tid, ra := r.ra, ts_ns := r.ts_ns,
    wall_time := r.wall_time, used := true }

/-- Statements `e->size=sz; e->tid=r.tid; e->ra=r.ra; e->ts_ns=r.ts_ns; strncpy(e->wall_time,..)`. -/
def fill_ent (e : LiveEnt) (r : Row) : LiveEnt :=
  { e with size := r.arg, tid := r.tid, ra := r.ra, ts_ns := r.ts_ns, wall_time := r.wall_time }

/-- The states of the table a caller can reach: from `live_init` by calls of
`live_upsert`, by writes to the value fields through a pointer it returned,
and by calls of `live_erase` that return. -/
inductive Reachable : LiveMap → Prop where
  | init : Reachable live_init
  | upsert (m : LiveMap) (key : Nat) : Reachable m → Reachable (live_upsert m key).1
  | assign (m : LiveMap) (e : Nat) (r : Row) : Reachable m → e < m.cap →
      (m.a e).used = true → Reachable { m with a := set_slot m.a e (fill_ent (m.a e) r) }
  | erase (m : LiveMap) (key : Nat) (m' : LiveMap) (out : Option LiveEnt) : Reachable m →
      live_erase m key = some (m', out) → Reachable m'

/-- The pair of calls the replay loop makes to store a block: `live_upsert`
for the row's address, then the value fields written through the result;
`none` when the result is `NULL`. -/
def upsert_assign (m : LiveMap) (r : Row) : Option LiveMap :=
  match live_upsert m r.ptr with
  | (_, none) => none
  | (m1, some e) => some { m1 with a := set_slot m1.a e (fill_ent (m1.a e) r) }

/-- One operation of a table test: store the block of a row, or erase a key. -/
inductive MapOp where
  | put (r : Row)
  | del (key : Nat)

/-- The table after one operation (`none` when the call does not return or
dereferences `NULL`). -/
def map_step (m : LiveMap) : MapOp → Option LiveMap
  | MapOp.put r => upsert_assign m r
  | MapOp.del key => (live_erase m key).map Prod.fst

/-- The table after a sequence of operations. -/
def map_run : LiveMap → List MapOp → Option LiveMap
  | m, [] => some m
  | m, o :: rest =>
    match map_step m o with
    | none => none
    | some m1 => map_run m1 rest

/-- The reference map, an association list of stored entries: lookup. -/
def ref_get (l : List LiveEnt) (key : Nat) : Option LiveEnt :=
  l.find? (fun e => decide (e.key_ptr = key))

/-- The reference map: removal of a key. -/
def ref_del (l : List LiveEnt) (key : Nat) : List LiveEnt :=
  l.filter (fun e => decide (e.key_ptr ≠ key))

/-- The reference map after one operation. -/
def ref_step (l : List LiveEnt) : MapOp → List LiveEnt
  | MapOp.put r => ent_of r :: ref_del l r.ptr
  | MapOp.del key => ref_del l key

/-- The reference map after a sequence of operations, from the empty map. -/
def ref_run (ops : List MapOp) : List LiveEnt :=
  ops.foldl ref_step []

/-- The table operations the row loop of `main` performs for one row. -/
def row_ops (r : Row) : List MapOp :=
  if r.op = "malloc" ∨ r.op = "calloc" then [MapOp.put r]
  else if r.op = "realloc" then [MapOp.del r.ptr, MapOp.put r]
  else if r.op = "free" then [MapOp.del r.ptr]
  else []

/-- The table operations of a list of rows, in order. -/
def trace_ops : List Row → List MapOp
  | [] => []
  | r :: rest => row_ops r ++ trace_ops rest

/-- Types `TidStat` and `RaStat` share this shape; `id` is the `tid` resp. `ra`. -/
structure Stat (κ : Type) where
  id : κ
  cur : Nat
  peak : Nat
  pidx : Int
  pts : Nat
  pwt : String
deriving DecidableEq, Repr

/-- Type `TidStat`. -/
abbrev TidStat := Stat Int
/-- Type `RaStat`. -/
abbrev RaStat := Stat Nat

/-- The search loop shared by `get_tid` and `get_ra`: index of the first
element with the given id, or the length when there is none. -/
def stat_index {κ : Type} [DecidableEq κ] : List (Stat κ) → κ → Nat
  | [], _ => 0
  | t :: rest, id => if t.id = id then 0 else stat_index rest id + 1

/-- Routines `get_tid` / `get_ra`: the vector after the call (a zeroed element
is appended when the id is new) and the index of the element returned. -/
def get_stat {κ : Type} [DecidableEq κ] (v : List (Stat κ)) (id : κ) : List (Stat κ) × Nat :=
  if stat_index v id < v.length then (v, stat_index v id)
  else (v ++ [{ id := id, cur := 0, peak := 0, pidx := 0, pts := 0, pwt := "" }], v.length)

/-- Write through the pointer returned by `get_tid` / `get_ra`. -/
def modify_at {α : Type} (f : α → α) : List α → Nat → List α
  | [], _ => []
  | x :: rest, 0 => f x :: rest
  | x :: rest, i + 1 => x :: modify_at f rest i

/-- Statements `ts->cur += sz; if(ts->cur > ts->peak){ ... }`. -/
def stat_add {κ : Type} (sz : Nat) (r : Row) (t : Stat κ) : Stat κ :=
  if (t.cur + sz) % U64 > t.peak then
    { t with cur := (t.cur + sz) % U64, peak := (t.cur + sz) % U64,
             pidx := r.idx, pts := r.ts_ns, pwt := r.wall_time }
  else { t with cur := (t.cur + sz) % U64 }

/-- Statement `ts->cur = (ts->cur>=old.size ? ts->cur-old.size : 0)`. -/
def stat_sub {κ : Type} (sz : Nat) (t : Stat κ) : Stat κ :=
  { t with cur := if t.cur ≥ sz then t.cur - sz else 0 }

/-- One point of the time series (`ts_idx`, `ts_tsns`, `ts_wt`, `ts_val`). -/
structure TsPoint where
  idx : Nat
  ts_ns : Nat
  wall_time : String
  value : Nat
deriving DecidableEq, Repr

/-- The variables of `main` that the row loop reads and writes. -/
structure Replay where
  live : LiveMap
  tstats : List TidStat
  rstats : List RaStat
  series : List TsPoint
  cur_live : Nat
  peak_live : Nat
  peak_tsns : Nat
  peak_wall_ns : Nat
  peak_wt : String
  peak_idx : Int
  have_cross : Bool
  cross_idx : Int
  cross_tsns : Nat
  cross_bytes : Nat
  cross_wt : String
  recs : Int

/-- The variables before the first row. -/
def init : Replay :=
  { live := live_init, tstats := [], rstats := [], series := [],
    cur_live := 0, peak_live := 0, peak_tsns := 0, peak_wall_ns := 0, peak_wt := "",
    peak_idx := -1, have_cross := false, cross_idx := -1, cross_tsns := 0,
    cross_bytes := 0, cross_wt := "", recs := 0 }

/-- The block executed when `live_erase(&live,r.ptr,&old)` returned 1: the
clamped subtractions from `cur_live` and from the owner's counters. -/
def sub_old (s : Replay) (m : LiveMap) (old : LiveEnt) : Replay :=
  { s with
    live := m,
    cur_live := if s.cur_live ≥ old.size then s.cur_live - old.size else 0,
    tstats := modify_at (stat_sub old.size) (get_stat s.tstats old.tid).1
                (get_stat s.tstats old.tid).2,
    rstats := modify_at (stat_sub old.size) (get_stat s.rstats old.ra).1
                (get_stat s.rstats old.ra).2 }

/-- The removal half of the `realloc` and `free` branches; `none` when
`live_erase` does not return. -/
def remove_old (s : Replay) (r : Row) : Option Replay :=
  match live_erase s.live r.ptr with
  | none => none
  | some (_, none) => some s
  | some (m, some old) => some (sub_old s m old)

/-- The insertion block of the `malloc`/`calloc` branch, repeated in the
`realloc` branch; `none` when the `NULL` result of `live_upsert` is dereferenced. -/
def add_new (s : Replay) (r : Row) : Option Replay :=
  match live_upsert s.live r.ptr with
  | (_, none) => none
  | (m, some e) =>
    some { s with
      live := { m with a := set_slot m.a e (fill_ent (m.a e) r) },
      cur_live := (s.cur_live + r.arg) % U64,
      tstats := modify_at (stat_add r.arg r) (get_stat s.tstats r.tid).1
                  (get_stat s.tstats r.tid).2,
      rstats := modify_at (stat_add r.arg r) (get_stat s.rstats r.ra).1
                  (get_stat s.rstats r.ra).2 }

/-- The `if / else if` chain on `r.op`. -/
def apply_op (s : Replay) (r : Row) : Option Replay :=
  if r.op = "malloc" ∨ r.op = "calloc" then add_new s r
  else if r.op = "realloc" then
    match remove_old s r with
    | none => none
    | some s1 => add_new s1 r
  else if r.op = "free" then remove_old s r
  else some s

/-- The time-series push at the top of the loop body (state before the row). -/
def push_series (s : Replay) (r : Row) : Replay :=
  { s with series := s.series ++
      [{ idx := (r.idx % (U64 : Int)).toNat, ts_ns := r.ts_ns, wall_time := r.wall_time,
         value := s.cur_live }] }

/-- The peak update after the branch chain. -/
def update_peak (s : Replay) (r : Row) : Replay :=
  if s.cur_live > s.peak_live then
    { s with peak_live := s.cur_live, peak_idx := r.idx, peak_tsns := r.ts_ns,
             peak_wall_ns := r.wall_ns, peak_wt := r.wall_time }
  else s

/-- The crossing test `if(approx_mem && !have_cross && cur_live>=approx_mem)`. -/
def update_cross (approx_mem : Nat) (s : Replay) (r : Row) : Replay :=
  if approx_mem ≠ 0 ∧ s.have_cross = false ∧ s.cur_live ≥ approx_mem then
    { s with have_cross := true, cross_idx := r.idx, cross_tsns := r.ts_ns,
             cross_bytes := s.cur_live, cross_wt := r.wall_time }
  else s

/-- The loop body for one accepted row. -/
def step (approx_mem : Nat) (s : Replay) (r : Row) : Option Replay :=
  match apply_op (push_series s r) r with
  | none => none
  | some s1 =>
    some { update_cross approx_mem (update_peak s1 r) r with
           recs := (update_cross approx_mem (update_peak s1 r) r).recs + 1 }

/-- The row loop from a given state. -/
def replay_from (approx_mem : Nat) : Replay → List Row → Option Replay
  | s, [] => some s
  | s, r :: rest =>
    match step approx_mem s r with
    | none => none
    | some s1 => replay_from approx_mem s1 rest

/-- The row loop of `main` from the initial variables. -/
def replay (approx_mem : Nat) (rows : List Row) : Option Replay :=
  replay_from approx_mem init rows

/-- A trace of `n` allocations of one byte each at the distinct addresses
`1 .. n` (used to fill the live table). -/
def fill_rows (n : Nat) : List Row :=
  (List.range n).map (fun i => mk_row (Int.ofNat i) "malloc" (i + 1) 1 1 7)

/-! ### Reading the CSV text -/

/-- The scan of `split_csv_line` over the characters of a line (fields hold
no quotes, a comma always cuts).  The first argument is `none` where the C
loop tests `while(*p)` at the start of a field, and `some cur` while `strchr`
walks a field whose characters so far are `cur`, last one first. -/
def split_csv_from : Option (List Char) → List Char → List (List Char)
  | none, [] => []
  | some cur, [] => [cur.reverse]
  | none, c :: rest =>
    if c = ',' then [] :: split_csv_from none rest else split_csv_from (some [c]) rest
  | some cur, c :: rest =>
    if c = ',' then cur.reverse :: split_csv_from none rest
    else split_csv_from (some (c :: cur)) rest

/-- Routine `split_csv_line`: the fields of a line, in order. -/
def split_csv_line (line : String) : List String :=
  (split_csv_from none line.data).map String.mk

/-- Statement `if(nread>0 && (l[nread-1]==LF || l[nread-1]==CR)) l[nread-1]=0`
applied to a line as `getline` returns it. -/
def strip_eol (line : String) : String :=
  match line.data.getLast? with
  | some c => if c = Char.ofNat 10 ∨ c = Char.ofNat 13 then String.mk line.data.dropLast else line
  | none => line

/-- Type `ColIx`: the position of each named column. -/
structure ColIx where
  idx : Nat
  ts_ns : Nat
  wall_ns : Nat
  wall_time : Nat
  tid : Nat
  op : Nat
  ptr : Nat
  arg : Nat
  retaddr : Nat
deriving DecidableEq, Repr

/-- The loop of the `FIND` block: the first position `i` with
`strcmp(hdr[i], name) == 0`, counted from `i`; `none` when there is none. -/
def find_field : List String → String → Nat → Option Nat
  | [], _, _ => none
  | h :: rest, name, i => if h = name then some i else find_field rest name (i + 1)

/-- Routine `find_cols`: `none` for return value 0 (a column is missing). -/
def find_cols (hdr : List String) : Option ColIx :=
  match find_field hdr "idx" 0, find_field hdr "ts_ns" 0, find_field hdr "wall_ns" 0,
        find_field hdr "wall_time" 0, find_field hdr "tid" 0, find_field hdr "op" 0,
        find_field hdr "ptr" 0, find_field hdr "arg" 0, find_field hdr "retaddr" 0 with
  | some a, some b, some c, some d, some e, some f, some g, some h, some i =>
    some { idx := a, ts_ns := b, wall_ns := c, wall_time := d, tid := e, op := f, ptr := g,
           arg := h, retaddr := i }
  | _, _, _, _, _, _, _, _, _ => none

/-- The C library conversions the row parser calls, taken as parameters:
`atol`, `atoi`, and `strtoull` in base 10 and base 16. -/
structure Conv where
  atol : String → Int
  atoi : String → Int
  strtoull10 : String → Nat
  strtoull16 : String → Nat

/-- The C library predicate `isspace` in the C locale. -/
def isspace (c : Char) : Bool :=
  c = ' ' ∨ (9 ≤ c.toNat ∧ c.toNat ≤ 13)

/-- Routine `parse_hex_or_dec`. -/
def parse_hex_or_dec (cv : Conv) (s : String) : Nat :=
  match s.data.dropWhile isspace with
  | [] => 0
  | '0' :: x :: rest =>
    if x = 'x' ∨ x = 'X' then cv.strtoull16 (String.mk ('0' :: x :: rest))
    else cv.strtoull10 (String.mk ('0' :: x :: rest))
  | l => cv.strtoull10 (String.mk l)

/-- The assignments `r.idx = atol(col[ix.idx]); ...` that fill a `Row` from the
fields of a line; `strncpy` keeps at most 63 resp. 15 characters. -/
def parse_row (cv : Conv) (ix : ColIx) (col : List String) : Row :=
  { idx := cv.atol (col.getD ix.idx ""),
    ts_ns := cv.strtoull10 (col.getD ix.ts_ns ""),
    wall_ns := if col.getD ix.wall_ns "" = "" then 0 else cv.strtoull10 (col.getD ix.wall_ns ""),
    wall_time := String.mk ((col.getD ix.wall_time "").data.take 63),
    tid := cv.atoi (col.getD ix.tid ""),
    op := String.mk ((col.getD ix.op "").data.take 15),
    ptr := parse_hex_or_dec cv (col.getD ix.ptr ""),
    arg := if col.getD ix.arg "" = "" then 0 else cv.strtoull10 (col.getD ix.arg ""),
    ra := parse_hex_or_dec cv (col.getD ix.retaddr "") }

/-- The loop body of `main` for one line read by `getline`: a line with fewer
fields than the header is skipped by `continue`, any other line is parsed and
replayed. -/
def line_step (cv : Conv) (approx_mem ncol : Nat) (ix : ColIx) (s : Replay)
    (line : String) : Option Replay :=
  if (split_csv_line (strip_eol line)).length < ncol then some s
  else step approx_mem s (parse_row cv ix (split_csv_line (strip_eol line)))

/-- The `while(getline(..)>0)` loop over the data lines from a given state. -/
def replay_lines (cv : Conv) (approx_mem ncol : Nat) (ix : ColIx) :
    Replay → List String → Option Replay
  | s, [] => some s
  | s, line :: rest =>
    match line_step cv approx_mem ncol ix s line with
    | none => none
    | some s1 => replay_lines cv approx_mem ncol ix s1 rest

/-- The part of `main` from the header line to the end of the row loop:
`none` for the early `return 2` (missing column), otherwise the outcome of the
row loop. -/
def replay_csv (cv : Conv) (approx_mem : Nat) (header : String) (lines : List String) :
    Option (Option Replay) :=
  match find_cols (split_csv_line (strip_eol header)) with
  | none => none
  | some ix =>
    some (replay_lines cv approx_mem (split_csv_line (strip_eol header)).length ix init lines)

/-- Types `TidPeak` and `RaPeak` share this shape. -/
structure Peak (κ : Type) where
  id : κ
  peak : Nat
  idx : Int
  ts_ns : Nat
  wall_time : String
deriving DecidableEq, Repr

/-- Routines `cmp_tid_peak_desc` / `cmp_ra_peak_desc`: `(a<b)-(a>b)` on the peaks. -/
def cmp_peak_desc {κ : Type} (a b : Peak κ) : Int :=
  (if a.peak < b.peak then 1 else 0) - (if a.peak > b.peak then 1 else 0)

/-- Routine `cmp_tid_peak_desc`. -/
def cmp_tid_peak_desc (a b : Peak Int) : Int := cmp_peak_desc a b

/-- Routine `cmp_ra_peak_desc`. -/
def cmp_ra_peak_desc (a b : Peak Nat) : Int := cmp_peak_desc a b

/-- The copy of a statistics element into a `TidPeak` / `RaPeak`. -/
def to_peak {κ : Type} (t : Stat κ) : Peak κ :=
  { id := t.id, peak := t.peak, idx := t.pidx, ts_ns := t.pts, wall_time := t.pwt }

/-- The truncation `if(top>0 && v.n>(size_t)top) v.n=top`. -/
def cut_top {α : Type} (top : Int) (v : List α) : List α :=
  if top > 0 ∧ v.length > top.toNat then v.take top.toNat else v

/-- Routine `write_top_tids`: the data rows written, in order. -/
def write_top_tids (st : List TidStat) (top : Int) : List (Peak Int) :=
  cut_top top (qsort cmp_tid_peak_desc (st.map to_peak))

/-- Routine `write_top_sites`: the data rows written, in order. -/
def write_top_sites (st : List RaStat) (top : Int) : List (Peak Nat) :=
  cut_top top (qsort cmp_ra_peak_desc (st.map to_peak))

/-- The element `get_tid` / `get_ra` would hand out for an id: the first
element with that id, or the zeroed element a fresh id gets. -/
def stat_get {κ : Type} [DecidableEq κ] : List (Stat κ) → κ → Stat κ
  | [], id => { id := id, cur := 0, peak := 0, pidx := 0, pts := 0, pwt := "" }
  | t :: rest, id => if t.id = id then t else stat_get rest id

/-- Type `LB` of `write_live_blocks`. -/
structure LB where
  ptr : Nat
  size : Nat
  ra : Nat
  ts_ns : Nat
  tid : Int
  wt : String
deriving DecidableEq, Repr

/-- The collection loop of `write_live_blocks` over the slots below `n`. -/
def collect_used (a : Nat → LiveEnt) : Nat → List LB
  | 0 => []
  | n + 1 =>
    collect_used a n ++
      (if (a n).used then
        [{ ptr := (a n).key_ptr, size := (a n).size, ra := (a n).ra, ts_ns := (a n).ts_ns,
           tid := (a n).tid, wt := (a n).wall_time }]
       else [])

/-- The nested comparator `cmp` of `write_live_blocks`: size descending. -/
def cmp_lb (a b : LB) : Int :=
  (if a.size < b.size then 1 else 0) - (if a.size > b.size then 1 else 0)

/-- Routine `write_live_blocks`: the data rows written, in order. -/
def write_live_blocks (live : LiveMap) : List LB :=
  qsort cmp_lb (collect_used live.a live.cap)

/-- The values `write_overview` prints; `approx_cross` is the optional
`{idx, ts_ns, wall_time, bytes}` group. -/
structure Overview where
  records : Int
  peak_live_bytes : Nat
  peak_idx : Int
  peak_ts_ns : Nat
  peak_wall_ns : Nat
  peak_wall_time : String
  end_live_blocks : Nat
  end_live_bytes : Nat
  approx_cross : Option (Int × Nat × String × Nat)
deriving DecidableEq, Repr

/-- The arguments `main` passes to `write_overview`. -/
def overview (s : Replay) : Overview :=
  { records := s.recs, peak_live_bytes := s.peak_live, peak_idx := s.peak_idx,
    peak_ts_ns := s.peak_tsns, peak_wall_ns := s.peak_wall_ns, peak_wall_time := s.peak_wt,
    end_live_blocks := end_cnt s.live, end_live_bytes := end_bytes s.live,
    approx_cross := if s.have_cross then
        some (s.cross_idx, s.cross_tsns, s.cross_wt, s.cross_bytes) else none }

/-- What one run writes: the overview, the two top tables and the live blocks. -/
structure Report where
  overview : Overview
  top_tids : List (Peak Int)
  top_sites : List (Peak Nat)
  live_blocks : List LB
deriving DecidableEq, Repr

/-- The run of `main` on the accepted rows of a log with the options
`--approx-mem` and `--top`; `none` when the row loop does not finish. -/
def analyze (approx_mem : Nat) (top : Int) (rows : List Row) : Option Report :=
  match replay approx_mem rows with
  | none => none
  | some s =>
    some { overview := overview s, top_tids := write_top_tids s.tstats top,
           top_sites := write_top_sites s.rstats top, live_blocks := write_live_blocks s.live }

/-- The arithmetic on `double` that `write_timeseries` uses: conversion from
an integer, `/`, `+`, `-`, and the conversion `(size_t)`. -/
structure FloatOps (F : Type) where
  of_nat : Nat → F
  div : F → F → F
  add : F → F → F
  sub : F → F → F
  to_size : F → Nat

/-- Exact arithmetic on non-negative fractions `num / den` (a pair of naturals;
`sub` is meant for a minuend not below the subtrahend).  This is not `double`
arithmetic: IEEE-754 operations are correctly rounded, so the two agree exactly
on the inputs for which every intermediate value is a representable double
(such as `n = 3`, `maxpts = 2`, where the values are 1.5 and 3.0), and may
differ elsewhere (for `n = 12`, `maxpts = 9` the quotient 12/9 is rounded and
the accumulated `k` of the C loop falls just below 8).  It is used only at
inputs of the first kind. -/
def exact_ops : FloatOps (Nat × Nat) :=
  { of_nat := fun n => (n, 1),
    div := fun x y => (x.1 * y.2, x.2 * y.1),
    add := fun x y => (x.1 * y.2 + y.1 * x.2, x.2 * y.2),
    sub := fun x y => (x.1 * y.2 - y.1 * x.2, x.2 * y.2),
    to_size := fun x => x.1 / x.2 }

/-- The conversion `(int)n` of a `size_t`. -/
def int_of_size (n : Nat) : Int := ((n + 2 ^ 31) % 2 ^ 32 : Nat) - (2 ^ 31 : Int)

/-- The sampling loop `for(int i=0;i<maxpts;i++)`: the first number counts the
remaining iterations, `k` is the running position, `out` the rows written. -/
def sample_loop {F : Type} (ops : FloatOps F) (pts : List TsPoint) (step : F) :
    Nat → F → List TsPoint → F × List TsPoint
  | 0, k, out => (k, out)
  | i + 1, k, out =>
    sample_loop ops pts step i (ops.add k step)
      (out ++ (pts.get? (if ops.to_size k ≥ pts.length then pts.length - 1
                         else ops.to_size k)).toList)

/-- Routine `write_timeseries`: the data rows written, in order; `none` when
the final comparison reads `idxs` out of bounds. -/
def write_timeseries {F : Type} (ops : FloatOps F) (pts : List TsPoint) (maxpts : Int) :
    Option (List TsPoint) :=
  if maxpts ≤ 0 ∨ int_of_size pts.length ≤ maxpts then some pts
  else
    let step := ops.div (ops.of_nat pts.length) (ops.of_nat maxpts.toNat)
    let r := sample_loop ops pts step maxpts.toNat (ops.of_nat 0) []
    match pts.get? (pts.length - 1), pts.get? (ops.to_size (ops.sub r.1 step)) with
    | some last, some q => if last.idx ≠ q.idx then some (r.2 ++ [last]) else some r.2
    | _, _ => none

end Analyze

/-! ## The 40-byte decoder `memhook/memhook_dump.c` -/

namespace DumpV1

/-- Type `rec_t`, the 40-byte record. -/
structure rec_t where
  ts_ns : Nat
  tid : Nat
  op : Nat
  pad : Nat
  ptr : Nat
  arg : Nat
  retaddr : Nat
deriving DecidableEq, Repr

/-- Type `Live` of this tool (no wall-clock field). -/
structure Live where
  ptr : Nat
  size : Nat
  ts_ns : Nat
  ra : Nat
  tid : Nat
deriving DecidableEq, Repr

/-- Routine `add_live`. -/
def add_live (live_head : List Live) (ptr size tid ts ra : Nat) : List Live :=
  { ptr := ptr, size := size, tid := tid, ts_ns := ts, ra := ra } :: live_head

/-- Routine `del_live`. -/
def del_live : List Live → Nat → List Live × Option Nat
  | [], _ => ([], none)
  | p :: rest, ptr =>
    if p.ptr = ptr then (rest, some p.size)
    else ((p :: (del_live rest ptr).1), (del_live rest ptr).2)

/-- Type `LeakRow` of this tool. -/
structure LeakRow where
  ptr : Nat
  size : Nat
  ts_ns : Nat
  ra : Nat
  tid : Nat
deriving DecidableEq, Repr

/-- Routine `cmp_leak_desc` of this tool (the two time tests come in the other order). -/
def cmp_leak_desc (x y : LeakRow) : Int :=
  if y.size > x.size then 1
  else if y.size < x.size then -1
  else if x.ts_ns > y.ts_ns then 1
  else if x.ts_ns < y.ts_ns then -1
  else 0

/-- Type `Opts` of this tool. -/
structure Opts where
  live_all : Bool
  live_top : Int
  min_size : Nat
deriving DecidableEq, Repr

/-- The accumulators of `main`'s record loop. -/
structure State where
  live_head : List Live
  total_malloc : Nat
  total_calloc : Nat
  total_realloc_new : Nat
  total_freed : Nat
  cnt0 : Nat
  cnt1 : Nat
  cnt2 : Nat
  cnt3 : Nat
  first_ts : Nat
  last_ts : Nat
  idx : Nat
deriving DecidableEq, Repr

/-- The accumulators before the first record. -/
def init : State :=
  { live_head := [], total_malloc := 0, total_calloc := 0, total_realloc_new := 0,
    total_freed := 0, cnt0 := 0, cnt1 := 0, cnt2 := 0, cnt3 := 0,
    first_ts := 0, last_ts := 0, idx := 0 }

/-- Statement `if(r.op<4) cnt[r.op]++;`. -/
def count_op (st : State) (op : Nat) : State :=
  match op with
  | 0 => { st with cnt0 := (st.cnt0 + 1) % U64 }
  | 1 => { st with cnt1 := (st.cnt1 + 1) % U64 }
  | 2 => { st with cnt2 := (st.cnt2 + 1) % U64 }
  | 3 => { st with cnt3 := (st.cnt3 + 1) % U64 }
  | _ => st

/-- The live-set part of one loop iteration. -/
def apply_op (st : State) (r : rec_t) : State :=
  if r.op = 0 then
    { st with live_head := add_live st.live_head r.ptr r.arg r.tid r.ts_ns r.retaddr,
              total_malloc := (st.total_malloc + r.arg) % U64 }
  else if r.op = 3 then
    { st with live_head := add_live st.live_head r.ptr r.arg r.tid r.ts_ns r.retaddr,
              total_calloc := (st.total_calloc + r.arg) % U64 }
  else if r.op = 2 then
    match del_live st.live_head r.ptr with
    | (l, some oldsz) => { st with live_head := l, total_freed := (st.total_freed + oldsz) % U64 }
    | (_, none) =>
      { st with live_head := add_live st.live_head r.ptr r.arg r.tid r.ts_ns r.retaddr,
                total_realloc_new := (st.total_realloc_new + r.arg) % U64 }
  else if r.op = 1 then
    match del_live st.live_head r.ptr with
    | (l, some oldsz) => { st with live_head := l, total_freed := (st.total_freed + oldsz) % U64 }
    | (_, none) => st
  else st

/-- One iteration of the record loop. -/
def process (st : State) (r : rec_t) : State :=
  let st1 := { st with first_ts := if st.first_ts = 0 then r.ts_ns else st.first_ts,
                       last_ts := r.ts_ns }
  let st2 := apply_op (count_op st1 r.op) r
  { st2 with idx := st2.idx + 1 }

/-- The replay of a list of decoded records. -/
def replay (recs : List rec_t) : State :=
  recs.foldl process init

/-- The input file of this tool: its size in bytes and the record found at
each byte offset (what `fread` of 40 bytes yields there). -/
structure File where
  sz : Nat
  at_off : Nat → rec_t

/-- Statement `nrec = (sz >= sizeof(rec_t)) ? (sz / sizeof(rec_t)) : 0`. -/
def nrec_of (sz : Nat) : Nat :=
  if sz ≥ 40 then sz / 40 else 0

/-- The reading side of the loop `while(fread(&r,sizeof(r),1,f)==1)`: a read
at offset `pos` yields a record iff `pos + 40 ≤ sz`.  Every iteration consumes
40 bytes, so `sz + 1` rounds always reach the failing read. -/
def read_loop (f : File) : Nat → Nat → List rec_t → List rec_t
  | 0, _, acc => acc.reverse
  | fuel + 1, pos, acc =>
    if pos + 40 ≤ f.sz then read_loop f fuel (pos + 40) (f.at_off pos :: acc)
    else acc.reverse

/-- The records handed to the replay, in file order. -/
def read_file (f : File) : List rec_t :=
  read_loop f (f.sz + 1) 0 []

/-- The loop of `main` on a file. -/
def run (f : File) : State :=
  replay (read_file f)

/-- Copy of a live node into a `LeakRow`. -/
def to_row (p : Live) : LeakRow :=
  { ptr := p.ptr, size := p.size, tid := p.tid, ts_ns := p.ts_ns, ra := p.ra }

/-- The result of the collection loop. -/
structure Leaks where
  live_bytes : Nat
  live_blocks : Nat
  rows : List LeakRow
deriving DecidableEq, Repr

/-- The collection loop with the `min_size` filter. -/
def collect (min_size : Nat) : List Live → Leaks → Leaks
  | [], acc => acc
  | p :: rest, acc =>
    if p.size < min_size then collect min_size rest acc
    else collect min_size rest
      { live_bytes := (acc.live_bytes + p.size) % U64,
        live_blocks := acc.live_blocks + 1,
        rows := acc.rows ++ [to_row p] }

/-- The collection from the initial `live_bytes=0`, `live_blocks=0`, `nrows=0`. -/
def collect_leaks (min_size : Nat) (live_head : List Live) : Leaks :=
  collect min_size live_head { live_bytes := 0, live_blocks := 0, rows := [] }

/-- The sort of the collected rows (`if(rows && nrows>1) qsort(...)`). -/
def sort_rows (rows : List LeakRow) : List LeakRow :=
  if rows.length > 1 then qsort cmp_leak_desc rows else rows

/-- Value `limit` of the printing block. -/
def print_limit (opt : Opts) (nrows : Nat) : Nat :=
  let limit := if opt.live_all then nrows else (if opt.live_top > 0 then opt.live_top.toNat else 0)
  if limit > nrows then nrows else limit

/-- The rows printed (none when `nrows = 0`). -/
def printed_rows (opt : Opts) (rows : List LeakRow) : List LeakRow :=
  if rows.length > 0 then rows.take (print_limit opt rows.length) else []

/-- The number in the line `... (%zu more, ...)`, when that line is printed. -/
def printed_more (opt : Opts) (rows : List LeakRow) : Option Nat :=
  if rows.length > 0 then
    if !opt.live_all ∧ rows.length > print_limit opt rows.length then
      some (rows.length - print_limit opt rows.length)
    else none
  else none

/-- The leak listing of `main`: collect with the filter, sort, print up to the limit. -/
def leak_listing (opt : Opts) (live_head : List Live) : List LeakRow :=
  printed_rows opt (sort_rows (collect_leaks opt.min_size live_head).rows)

end DumpV1

/-! ## The interception layer `leakhook/leakhook.c`, one call at a time -/

namespace Leakhook

/-- Type `Node`; the chain link `next` is the tail of the bucket list. -/
structure Node where
  ptr : Nat
  size : Nat
  tid : Nat
  hash : Nat
  bt_n : Int
  bt : List Nat
deriving DecidableEq, Repr

/-- Constant `HSIZE`. -/
def HSIZE : Nat := 65536

/-- Routine `h32`: the 64-bit mix truncated to `uint32_t`. -/
def h32 (x : Nat) : Nat :=
  let x1 := x ^^^ (x >>> 33)
  let x2 := (x1 * 0xff51afd7ed558ccd) % U64
  let x3 := x2 ^^^ (x2 >>> 33)
  let x4 := (x3 * 0xc4ceb9fe1a85ec53) % U64
  (x4 ^^^ (x4 >>> 33)) % 2 ^ 32

/-- The global tracking state: the bucket array `g_tab` and the counter `g_inuse`. -/
structure Table where
  g_tab : Nat → List Node
  g_inuse : Nat

/-- The state at load time: empty buckets, `g_inuse = 0`. -/
def empty : Table := { g_tab := fun _ => [], g_inuse := 0 }

/-- What the process supplies during one `record_alloc`: whether
`real_malloc(sizeof(Node))` succeeded, the thread id and the backtrace. -/
structure Env where
  node_ok : Bool
  tid : Nat
  bt_n : Int
  bt : List Nat
deriving DecidableEq, Repr

/-- Routine `record_alloc`; `p = 0` is the `NULL` pointer. -/
def record_alloc (t : Table) (env : Env) (p sz : Nat) : Table :=
  if p = 0 then t
  else if env.node_ok = false then t
  else
    { g_tab := fun i =>
        if i = h32 p &&& (HSIZE - 1) then
          { ptr := p, size := sz, tid := env.tid, hash := h32 p, bt_n := env.bt_n, bt := env.bt }
            :: t.g_tab (h32 p &&& (HSIZE - 1))
        else t.g_tab i,
      g_inuse := (t.g_inuse + sz) % U64 }

/-- The chain walk of `record_free`: the chain without its first node for
`p`, and that node. -/
def unlink : List Node → Nat → Option (List Node × Node)
  | [], _ => none
  | n :: rest, p =>
    if n.ptr = p then some (rest, n)
    else match unlink rest p with
      | some (l, d) => some (n :: l, d)
      | none => none

/-- Routine `record_free`. -/
def record_free (t : Table) (p : Nat) : Table :=
  if p = 0 then t
  else
    match unlink (t.g_tab (h32 p &&& (HSIZE - 1))) p with
    | some (l, del) =>
      { g_tab := fun i => if i = h32 p &&& (HSIZE - 1) then l else t.g_tab i,
        g_inuse := (t.g_inuse + U64 - del.size % U64) % U64 }
    | none => t

/-- The hook `free(p)`. -/
def free (t : Table) (p : Nat) : Table :=
  record_free t p

/-- The hook `realloc(p, s)`, where `np` is what `real_realloc(p, s)` returned. -/
def realloc (t : Table) (env : Env) (p s np : Nat) : Table :=
  record_alloc (if p ≠ 0 then record_free t p else t) env np s

/-- One call into the tracking layer: `record_alloc(p, sz)` together with
what the process supplies during it, or `record_free(p)`. -/
inductive Call where
  | alloc (env : Env) (p sz : Nat)
  | release (p : Nat)

/-- The effect of one call. -/
def apply_call (t : Table) : Call → Table
  | Call.alloc env p sz => record_alloc t env p sz
  | Call.release p => record_free t p

/-- A sequential run of calls from the state at load time. -/
def run_calls (calls : List Call) : Table :=
  calls.foldl apply_call empty

/-- The sum of the `size` fields along one bucket chain. -/
def chain_bytes (l : List Node) : Nat :=
  (l.map Node.size).sum

/-- The sum of the `size` fields of all nodes in buckets `0 .. n-1`. -/
def table_bytes (g : Nat → List Node) : Nat → Nat
  | 0 => 0
  | n + 1 => table_bytes g n + chain_bytes (g n)

/-- Address `p` has a node somewhere in the table. -/
def Tracked (t : Table) (p : Nat) : Prop :=
  ∃ i n, n ∈ t.g_tab i ∧ n.ptr = p

/-- Every node sits in the bucket of its address, addresses are not `NULL`,
and the counter is a `size_t` value. -/
def Placed (t : Table) : Prop :=
  t.g_inuse < U64 ∧ ∀ i n, n ∈ t.g_tab i → n.ptr ≠ 0 ∧ h32 n.ptr &&& (HSIZE - 1) = i

end Leakhook

/-! # Theorems -/


/-- The model of `qsort` returns a list that is ascending for a comparator
whose `≤ 0` relation is total and transitive. -/
theorem qsort_pairwise {α : Type} (cmp : α → α → Int)
    (total : ∀ x y, cmp x y ≤ 0 ∨ cmp y x ≤ 0)
    (trans : ∀ x y z, cmp x y ≤ 0 → cmp y z ≤ 0 → cmp x z ≤ 0) (l : List α) :
    List.Pairwise (fun x y => cmp x y ≤ 0) (qsort cmp l) :=
  @List.sorted_insertionSort α (fun x y => cmp x y ≤ 0) _ ⟨total⟩ ⟨fun x y z => trans x y z⟩ l

/-- The model of `qsort` returns a permutation of its input. -/
theorem qsort_perm {α : Type} (cmp : α → α → Int) (l : List α) :
    List.Perm (qsort cmp l) l :=
  List.perm_insertionSort _ l

theorem dump_cmp_leak_desc_lt (x y : Dump.LeakRow) :
    Dump.cmp_leak_desc x y < 0 ↔ (x.size > y.size ∨ (x.size = y.size ∧ x.ts_ns < y.ts_ns)) := by
  unfold Dump.cmp_leak_desc; split_ifs <;> omega

theorem dump_cmp_leak_desc_le (x y : Dump.LeakRow) :
    Dump.cmp_leak_desc x y ≤ 0 ↔ (x.size > y.size ∨ (x.size = y.size ∧ x.ts_ns ≤ y.ts_ns)) := by
  unfold Dump.cmp_leak_desc; split_ifs <;> omega

theorem dump_cmp_leak_desc_pos (x y : Dump.LeakRow) :
    0 < Dump.cmp_leak_desc x y ↔ (x.size < y.size ∨ (x.size = y.size ∧ x.ts_ns > y.ts_ns)) := by
  unfold Dump.cmp_leak_desc; split_ifs <;> omega

theorem v1_cmp_leak_desc_lt (x y : DumpV1.LeakRow) :
    DumpV1.cmp_leak_desc x y < 0 ↔ (x.size > y.size ∨ (x.size = y.size ∧ x.ts_ns < y.ts_ns)) := by
  unfold DumpV1.cmp_leak_desc; split_ifs <;> omega

theorem v1_cmp_leak_desc_le (x y : DumpV1.LeakRow) :
    DumpV1.cmp_leak_desc x y ≤ 0 ↔ (x.size > y.size ∨ (x.size = y.size ∧ x.ts_ns ≤ y.ts_ns)) := by
  unfold DumpV1.cmp_leak_desc; split_ifs <;> omega

theorem v1_cmp_leak_desc_pos (x y : DumpV1.LeakRow) :
    0 < DumpV1.cmp_leak_desc x y ↔ (x.size < y.size ∨ (x.size = y.size ∧ x.ts_ns > y.ts_ns)) := by
  unfold DumpV1.cmp_leak_desc; split_ifs <;> omega

theorem dump_cmp_leak_time_lt (x y : Dump.LeakRow) :
    Dump.cmp_leak_time_asc x y < 0 ↔ (x.ts_ns < y.ts_ns ∨ (x.ts_ns = y.ts_ns ∧ x.size > y.size)) := by
  unfold Dump.cmp_leak_time_asc; split_ifs <;> omega

theorem dump_cmp_leak_time_le (x y : Dump.LeakRow) :
    Dump.cmp_leak_time_asc x y ≤ 0 ↔ (x.ts_ns < y.ts_ns ∨ (x.ts_ns = y.ts_ns ∧ x.size ≥ y.size)) := by
  unfold Dump.cmp_leak_time_asc; split_ifs <;> omega

theorem dump_cmp_leak_time_pos (x y : Dump.LeakRow) :
    0 < Dump.cmp_leak_time_asc x y ↔ (x.ts_ns > y.ts_ns ∨ (x.ts_ns = y.ts_ns ∧ x.size < y.size)) := by
  unfold Dump.cmp_leak_time_asc; split_ifs <;> omega

theorem dump_sort_rows_desc (opt : Dump.Opts) (rows : List Dump.LeakRow)
    (h : opt.sort_time = false) :
    List.Chain' (fun r r' : Dump.LeakRow =>
      r.size > r'.size ∨ (r.size = r'.size ∧ r.ts_ns ≤ r'.ts_ns)) (Dump.sort_rows opt rows) := by
  unfold Dump.sort_rows
  by_cases hl : rows.length > 1
  · rw [if_pos hl, h]
    simp only [Bool.false_eq_true, if_false]
    refine List.Chain'.imp (fun a b hab => (dump_cmp_leak_desc_le a b).1 hab)
      (List.Pairwise.chain' (qsort_pairwise _ ?_ ?_ rows))
    · intro x y; rw [dump_cmp_leak_desc_le, dump_cmp_leak_desc_le]; omega
    · intro x y z; rw [dump_cmp_leak_desc_le, dump_cmp_leak_desc_le, dump_cmp_leak_desc_le]; omega
  · rw [if_neg hl]
    match rows, hl with
    | [], _ => exact List.chain'_nil
    | [a], _ => exact List.chain'_singleton a
    | a :: b :: l, hl => simp at hl

theorem dump_sort_rows_time (opt : Dump.Opts) (rows : List Dump.LeakRow)
    (h : opt.sort_time = true) :
    List.Chain' (fun r r' : Dump.LeakRow =>
      r.ts_ns < r'.ts_ns ∨ (r.ts_ns = r'.ts_ns ∧ r.size ≥ r'.size)) (Dump.sort_rows opt rows) := by
  unfold Dump.sort_rows
  by_cases hl : rows.length > 1
  · rw [if_pos hl, h]
    simp only [if_true]
    refine List.Chain'.imp (fun a b hab => (dump_cmp_leak_time_le a b).1 hab)
      (List.Pairwise.chain' (qsort_pairwise _ ?_ ?_ rows))
    · intro x y; rw [dump_cmp_leak_time_le, dump_cmp_leak_time_le]; omega
    · intro x y z; rw [dump_cmp_leak_time_le, dump_cmp_leak_time_le, dump_cmp_leak_time_le]; omega
  · rw [if_neg hl]
    match rows, hl with
    | [], _ => exact List.chain'_nil
    | [a], _ => exact List.chain'_singleton a
    | a :: b :: l, hl => simp at hl

theorem v1_sort_rows_desc (rows : List DumpV1.LeakRow) :
    List.Chain' (fun r r' : DumpV1.LeakRow =>
      r.size > r'.size ∨ (r.size = r'.size ∧ r.ts_ns ≤ r'.ts_ns)) (DumpV1.sort_rows rows) := by
  unfold DumpV1.sort_rows
  by_cases hl : rows.length > 1
  · rw [if_pos hl]
    refine List.Chain'.imp (fun a b hab => (v1_cmp_leak_desc_le a b).1 hab)
      (List.Pairwise.chain' (qsort_pairwise _ ?_ ?_ rows))
    · intro x y; rw [v1_cmp_leak_desc_le, v1_cmp_leak_desc_le]; omega
    · intro x y z; rw [v1_cmp_leak_desc_le, v1_cmp_leak_desc_le, v1_cmp_leak_desc_le]; omega
  · rw [if_neg hl]
    match rows, hl with
    | [], _ => exact List.chain'_nil
    | [a], _ => exact List.chain'_singleton a
    | a :: b :: l, hl => simp at hl

theorem dump_printed_chain {R : Dump.LeakRow → Dump.LeakRow → Prop} (opt : Dump.Opts)
    (rows : List Dump.LeakRow) (h : List.Chain' R rows) :
    List.Chain' R (Dump.printed_rows opt rows) := by
  unfold Dump.printed_rows
  split_ifs
  · exact h.take _
  · exact List.chain'_nil

theorem v1_printed_chain {R : DumpV1.LeakRow → DumpV1.LeakRow → Prop} (opt : DumpV1.Opts)
    (rows : List DumpV1.LeakRow) (h : List.Chain' R rows) :
    List.Chain' R (DumpV1.printed_rows opt rows) := by
  unfold DumpV1.printed_rows
  split_ifs
  · exact h.take _
  · exact List.chain'_nil

/-- C10: `cmp_leak_desc` (both decoders) is a total-preorder comparator whose
negative results are exactly "larger size, or equal size and earlier time"; the
default leak listing is therefore ordered by size descending, ties by time ascending. -/
theorem cmp_leak_desc_listing :
    (∀ x y : Dump.LeakRow,
      (Dump.cmp_leak_desc x y < 0 ↔
        (x.size > y.size ∨ (x.size = y.size ∧ x.ts_ns < y.ts_ns))) ∧
      (Dump.cmp_leak_desc x y < 0 ↔ 0 < Dump.cmp_leak_desc y x) ∧
      (Dump.cmp_leak_desc x y = 0 ↔ Dump.cmp_leak_desc y x = 0)) ∧
    (∀ x y z : Dump.LeakRow, Dump.cmp_leak_desc x y ≤ 0 → Dump.cmp_leak_desc y z ≤ 0 →
      Dump.cmp_leak_desc x z ≤ 0) ∧
    (∀ (opt : Dump.Opts) (live_head : List Dump.Live), opt.sort_time = false →
      List.Chain' (fun r r' : Dump.LeakRow =>
        r.size > r'.size ∨ (r.size = r'.size ∧ r.ts_ns ≤ r'.ts_ns))
        (Dump.leak_listing opt live_head)) ∧
    (∀ x y : DumpV1.LeakRow,
      (DumpV1.cmp_leak_desc x y < 0 ↔
        (x.size > y.size ∨ (x.size = y.size ∧ x.ts_ns < y.ts_ns))) ∧
      (DumpV1.cmp_leak_desc x y < 0 ↔ 0 < DumpV1.cmp_leak_desc y x) ∧
      (DumpV1.cmp_leak_desc x y = 0 ↔ DumpV1.cmp_leak_desc y x = 0)) ∧
    (∀ x y z : DumpV1.LeakRow, DumpV1.cmp_leak_desc x y ≤ 0 → DumpV1.cmp_leak_desc y z ≤ 0 →
      DumpV1.cmp_leak_desc x z ≤ 0) ∧
    (∀ (opt : DumpV1.Opts) (live_head : List DumpV1.Live),
      List.Chain' (fun r r' : DumpV1.LeakRow =>
        r.size > r'.size ∨ (r.size = r'.size ∧ r.ts_ns ≤ r'.ts_ns))
        (DumpV1.leak_listing opt live_head)) := by
  refine ⟨?_, ?_, ?_, ?_, ?_, ?_⟩
  · intro x y
    refine ⟨dump_cmp_leak_desc_lt x y, ?_, ?_⟩
    · rw [dump_cmp_leak_desc_lt, dump_cmp_leak_desc_pos]; omega
    · have a := dump_cmp_leak_desc_lt x y
      have b := dump_cmp_leak_desc_pos x y
      have c := dump_cmp_leak_desc_lt y x
      have d := dump_cmp_leak_desc_pos y x
      omega
  · intro x y z
    rw [dump_cmp_leak_desc_le, dump_cmp_leak_desc_le, dump_cmp_leak_desc_le]; omega
  · intro opt live_head h
    exact dump_printed_chain opt _ (dump_sort_rows_desc opt _ h)
  · intro x y
    refine ⟨v1_cmp_leak_desc_lt x y, ?_, ?_⟩
    · rw [v1_cmp_leak_desc_lt, v1_cmp_leak_desc_pos]; omega
    · have a := v1_cmp_leak_desc_lt x y
      have b := v1_cmp_leak_desc_pos x y
      have c := v1_cmp_leak_desc_lt y x
      have d := v1_cmp_leak_desc_pos y x
      omega
  · intro x y z
    rw [v1_cmp_leak_desc_le, v1_cmp_leak_desc_le, v1_cmp_leak_desc_le]; omega
  · intro opt live_head
    exact v1_printed_chain opt _ (v1_sort_rows_desc _)

/-- C11: `cmp_leak_time_asc` is a total-preorder comparator whose negative
results are exactly "earlier time, or equal time and larger size"; with
`--time-asc` the leak listing is ordered by time ascending, ties by size descending. -/
theorem cmp_leak_time_asc_listing :
    (∀ x y : Dump.LeakRow,
      (Dump.cmp_leak_time_asc x y < 0 ↔
        (x.ts_ns < y.ts_ns ∨ (x.ts_ns = y.ts_ns ∧ x.size > y.size))) ∧
      (Dump.cmp_leak_time_asc x y < 0 ↔ 0 < Dump.cmp_leak_time_asc y x) ∧
      (Dump.cmp_leak_time_asc x y = 0 ↔ Dump.cmp_leak_time_asc y x = 0)) ∧
    (∀ x y z : Dump.LeakRow, Dump.cmp_leak_time_asc x y ≤ 0 →
      Dump.cmp_leak_time_asc y z ≤ 0 → Dump.cmp_leak_time_asc x z ≤ 0) ∧
    (∀ (opt : Dump.Opts) (live_head : List Dump.Live), opt.sort_time = true →
      List.Chain' (fun r r' : Dump.LeakRow =>
        r.ts_ns < r'.ts_ns ∨ (r.ts_ns = r'.ts_ns ∧ r.size ≥ r'.size))
        (Dump.leak_listing opt live_head)) := by
  refine ⟨?_, ?_, ?_⟩
  · intro x y
    refine ⟨dump_cmp_leak_time_lt x y, ?_, ?_⟩
    · rw [dump_cmp_leak_time_lt, dump_cmp_leak_time_pos]; omega
    · have a := dump_cmp_leak_time_lt x y
      have b := dump_cmp_leak_time_pos x y
      have c := dump_cmp_leak_time_lt y x
      have d := dump_cmp_leak_time_pos y x
      omega
  · intro x y z
    rw [dump_cmp_leak_time_le, dump_cmp_leak_time_le, dump_cmp_leak_time_le]; omega
  · intro opt live_head h
    exact dump_printed_chain opt _ (dump_sort_rows_time opt _ h)


section
open Dump

theorem read_loop_v1 (f : File) : ∀ (fuel pos idx nrec : Nat) (acc : List (rec_v1 × Nat)),
    (f.sz - pos) / 40 < fuel →
    read_loop f fuel pos idx false nrec acc =
      { is_v2 := false, nrec := nrec,
        recs := acc.reverse ++ (List.range ((f.sz - pos) / 40)).map (fun i => (f.v1 (pos + 40 * i), 0)) } := by
  intro fuel
  induction fuel with
  | zero => intro pos idx nrec acc h; omega
  | succ fuel ih =>
    intro pos idx nrec acc h
    unfold read_loop
    by_cases hp : pos + 40 ≤ f.sz
    · have e : (f.sz - pos) / 40 = (f.sz - (pos + 40)) / 40 + 1 := by omega
      simp only [Bool.false_eq_true, if_false, if_pos hp]
      rw [ih (pos + 40) (idx + 1) nrec _ (by omega), e, List.range_succ_eq_map]
      simp only [List.reverse_cons, List.map_cons, List.map_map, List.append_assoc,
        List.singleton_append, Nat.mul_zero, Nat.add_zero]
      congr 3
      apply List.map_congr_left
      intro i _
      simp only [Function.comp, Nat.succ_eq_add_one]
      congr 2
      omega
    · have e : (f.sz - pos) / 40 = 0 := by omega
      simp only [Bool.false_eq_true, if_false, if_neg hp, e, List.range_zero, List.map_nil,
        List.append_nil]

theorem read_loop_v2 (f : File) : ∀ (fuel pos idx nrec : Nat) (acc : List (rec_v1 × Nat)),
    (f.sz - pos) / 48 < fuel → (0 < idx ∨ pos + 48 ≤ f.sz) →
    read_loop f fuel pos idx true nrec acc =
      { is_v2 := true, nrec := nrec,
        recs := acc.reverse ++ (List.range ((f.sz - pos) / 48)).map (fun i => of_v2 (f.v2 (pos + 48 * i))) } := by
  intro fuel
  induction fuel with
  | zero => intro pos idx nrec acc h; omega
  | succ fuel ih =>
    intro pos idx nrec acc h hi
    unfold read_loop
    by_cases hp : pos + 48 ≤ f.sz
    · have e : (f.sz - pos) / 48 = (f.sz - (pos + 48)) / 48 + 1 := by omega
      simp only [if_true, if_pos hp]
      rw [ih (pos + 48) (idx + 1) nrec _ (by omega) (by omega), e, List.range_succ_eq_map]
      simp only [List.reverse_cons, List.map_cons, List.map_map, List.append_assoc,
        List.singleton_append, Nat.mul_zero, Nat.add_zero]
      congr 3
      apply List.map_congr_left
      intro i _
      simp only [Function.comp, Nat.succ_eq_add_one]
      congr 2
      omega
    · have e : (f.sz - pos) / 48 = 0 := by omega
      have hidx : idx ≠ 0 := by omega
      simp only [if_true, if_neg hp, if_neg hidx, e, List.range_zero, List.map_nil,
        List.append_nil]

/-- The reading side when the size guess is the 40-byte layout. -/
theorem read_file_v1 (f : File) (h : guess_v2 f.sz = false) :
    read_file f =
      { is_v2 := false, nrec := f.sz / 40,
        recs := (List.range (f.sz / 40)).map (fun i => (f.v1 (40 * i), 0)) } := by
  unfold read_file
  rw [h, read_loop_v1 f _ _ _ _ _ (by simp only [Nat.sub_zero]; omega)]
  simp [nrec_of]

/-- The reading side when the size guess is the 48-byte layout and a first record is there. -/
theorem read_file_v2 (f : File) (h : guess_v2 f.sz = true) (h48 : 48 ≤ f.sz) :
    read_file f =
      { is_v2 := true, nrec := f.sz / 48,
        recs := (List.range (f.sz / 48)).map (fun i => of_v2 (f.v2 (48 * i))) } := by
  unfold read_file
  rw [h, read_loop_v2 f _ _ _ _ _ (by simp only [Nat.sub_zero]; omega) (by omega)]
  simp [nrec_of]

/-- The reading side when the first 48-byte read yields nothing: fallback to 40 bytes. -/
theorem read_file_fallback (f : File) (h : guess_v2 f.sz = true) (h48 : f.sz < 48) :
    read_file f =
      { is_v2 := false, nrec := f.sz / 40,
        recs := (List.range (f.sz / 40)).map (fun i => (f.v1 (40 * i), 0)) } := by
  unfold read_file
  rw [h]
  have : f.sz + 2 = (f.sz + 1) + 1 := rfl
  rw [this]
  unfold read_loop
  have hp : ¬ (0 + 48 ≤ f.sz) := by omega
  simp only [if_true, if_neg hp]
  rw [read_loop_v1 f _ _ _ _ _ (by simp only [Nat.sub_zero]; omega)]
  simp

/-- C9: the version decision depends on the file size only. -/
theorem version_decision (f : File) :
    (0 < f.sz → f.sz % 40 = 0 → f.sz % 48 ≠ 0 →
      (read_file f).is_v2 = false ∧
      (read_file f).recs = (List.range (f.sz / 40)).map (fun i => (f.v1 (40 * i), 0))) ∧
    (0 < f.sz → f.sz % 48 = 0 →
      (read_file f).is_v2 = true ∧
      (read_file f).recs = (List.range (f.sz / 48)).map (fun i => of_v2 (f.v2 (48 * i)))) ∧
    (guess_v2 f.sz = true → ((read_file f).is_v2 = false ↔ f.sz < 48)) ∧
    (guess_v2 f.sz = false → (read_file f).is_v2 = false) ∧
    (∀ g : File, g.sz = f.sz →
      (read_file g).is_v2 = (read_file f).is_v2 ∧ (read_file g).nrec = (read_file f).nrec ∧
      (read_file g).recs.length = (read_file f).recs.length) := by
  have key : ∀ g : File, (read_file g).is_v2 = (guess_v2 g.sz && decide (48 ≤ g.sz)) ∧
      (read_file g).nrec = (if (guess_v2 g.sz && decide (48 ≤ g.sz)) then g.sz / 48 else g.sz / 40) ∧
      (read_file g).recs.length = (if (guess_v2 g.sz && decide (48 ≤ g.sz)) then g.sz / 48 else g.sz / 40) := by
    intro g
    cases hg : guess_v2 g.sz
    · rw [read_file_v1 g hg]; simp
    · by_cases h48 : 48 ≤ g.sz
      · rw [read_file_v2 g hg h48]; simp [h48]
      · rw [read_file_fallback g hg (by omega)]; simp [h48]
  refine ⟨?_, ?_, ?_, ?_, ?_⟩
  · intro h0 h40 h48
    have hg : guess_v2 f.sz = false := by
      unfold guess_v2
      have : f.sz / 40 > 0 := by omega
      simp [h48, h40, this]
    rw [read_file_v1 f hg]; exact ⟨rfl, rfl⟩
  · intro h0 h48
    have hg : guess_v2 f.sz = true := by
      unfold guess_v2
      have : f.sz / 48 > 0 := by omega
      simp [h48, this]
    rw [read_file_v2 f hg (by omega)]; exact ⟨rfl, rfl⟩
  · intro hg
    rw [(key f).1, hg]; simp
  · intro hg
    rw [(key f).1, hg]; simp
  · intro g hgf
    rw [(key g).1, (key g).2.1, (key g).2.2, (key f).1, (key f).2.1, (key f).2.2, hgf]
    exact ⟨rfl, rfl, rfl⟩

end


theorem dump_collect_spec (m : Nat) : ∀ (l : List Dump.Live) (acc : Dump.Leaks),
    (Dump.collect m l acc).rows = acc.rows ++ (l.filter (fun p => decide (m ≤ p.size))).map Dump.to_row ∧
    (Dump.collect m l acc).live_blocks = acc.live_blocks + (l.filter (fun p => decide (m ≤ p.size))).length ∧
    (Dump.collect m l acc).live_bytes % U64 =
      (acc.live_bytes + ((l.filter (fun p => decide (m ≤ p.size))).map Dump.Live.size).sum) % U64 := by
  intro l
  induction l with
  | nil => intro acc; simp [Dump.collect]
  | cons p rest ih =>
    intro acc
    unfold Dump.collect
    by_cases h : p.size < m
    · have h' : ¬ m ≤ p.size := by omega
      simp only [if_pos h, List.filter_cons, h', decide_False, Bool.false_eq_true, if_false]
      exact ih acc
    · have h' : m ≤ p.size := by omega
      simp only [if_neg h, List.filter_cons, h', decide_True, if_true, List.map_cons,
        List.length_cons, List.sum_cons]
      obtain ⟨a, b, c⟩ := ih ⟨(acc.live_bytes + p.size) % U64, acc.live_blocks + 1,
        acc.rows ++ [Dump.to_row p]⟩
      dsimp only at a b c
      refine ⟨?_, ?_, ?_⟩
      · rw [a]; simp
      · rw [b]; omega
      · rw [c, Nat.mod_add_mod, Nat.add_assoc]

theorem dump_collect_lt (m : Nat) : ∀ (l : List Dump.Live) (acc : Dump.Leaks),
    acc.live_bytes < U64 → (Dump.collect m l acc).live_bytes < U64 := by
  intro l
  induction l with
  | nil => intro acc h; simpa [Dump.collect] using h
  | cons p rest ih =>
    intro acc h
    unfold Dump.collect
    split_ifs
    · exact ih acc h
    · exact ih _ (Nat.mod_lt _ (by decide))

theorem v1_collect_spec (m : Nat) : ∀ (l : List DumpV1.Live) (acc : DumpV1.Leaks),
    (DumpV1.collect m l acc).rows = acc.rows ++ (l.filter (fun p => decide (m ≤ p.size))).map DumpV1.to_row ∧
    (DumpV1.collect m l acc).live_blocks = acc.live_blocks + (l.filter (fun p => decide (m ≤ p.size))).length ∧
    (DumpV1.collect m l acc).live_bytes % U64 =
      (acc.live_bytes + ((l.filter (fun p => decide (m ≤ p.size))).map DumpV1.Live.size).sum) % U64 := by
  intro l
  induction l with
  | nil => intro acc; simp [DumpV1.collect]
  | cons p rest ih =>
    intro acc
    unfold DumpV1.collect
    by_cases h : p.size < m
    · have h' : ¬ m ≤ p.size := by omega
      simp only [if_pos h, List.filter_cons, h', decide_False, Bool.false_eq_true, if_false]
      exact ih acc
    · have h' : m ≤ p.size := by omega
      simp only [if_neg h, List.filter_cons, h', decide_True, if_true, List.map_cons,
        List.length_cons, List.sum_cons]
      obtain ⟨a, b, c⟩ := ih ⟨(acc.live_bytes + p.size) % U64, acc.live_blocks + 1,
        acc.rows ++ [DumpV1.to_row p]⟩
      dsimp only at a b c
      refine ⟨?_, ?_, ?_⟩
      · rw [a]; simp
      · rw [b]; omega
      · rw [c, Nat.mod_add_mod, Nat.add_assoc]

theorem v1_collect_lt (m : Nat) : ∀ (l : List DumpV1.Live) (acc : DumpV1.Leaks),
    acc.live_bytes < U64 → (DumpV1.collect m l acc).live_bytes < U64 := by
  intro l
  induction l with
  | nil => intro acc h; simpa [DumpV1.collect] using h
  | cons p rest ih =>
    intro acc h
    unfold DumpV1.collect
    split_ifs
    · exact ih acc h
    · exact ih _ (Nat.mod_lt _ (by decide))

/-- C12 as stated fails: two live blocks of `2 ^ 63` bytes each pass the
filter `m = 0`, their sizes sum to `2 ^ 64`, and `live_bytes` is 0. -/
theorem leak_bytes_wrap :
    (Dump.collect_leaks 0 (Dump.replay
        [({ ts_ns := 1, tid := 1, op := 0, pad := 0, ptr := 16, arg := 2 ^ 63, retaddr := 0 }, 0),
         ({ ts_ns := 2, tid := 1, op := 0, pad := 0, ptr := 32, arg := 2 ^ 63, retaddr := 0 }, 0)]
      ).live_head).live_bytes = 0 ∧
    (((Dump.replay
        [({ ts_ns := 1, tid := 1, op := 0, pad := 0, ptr := 16, arg := 2 ^ 63, retaddr := 0 }, 0),
         ({ ts_ns := 2, tid := 1, op := 0, pad := 0, ptr := 32, arg := 2 ^ 63, retaddr := 0 }, 0)]
      ).live_head.filter (fun p => decide (0 ≤ p.size))).map Dump.Live.size).sum = 2 ^ 64 := by
  decide

/-- C12 (amended): the collected rows are exactly the live blocks of size at
least `m`, in list order, `live_blocks` is their number, and `live_bytes` is
the sum of their sizes modulo `2 ^ 64` (both decoders). -/
theorem leak_rows_filter (m : Nat) :
    (∀ live_head : List Dump.Live,
      (Dump.collect_leaks m live_head).rows =
        (live_head.filter (fun p => decide (m ≤ p.size))).map Dump.to_row ∧
      (Dump.collect_leaks m live_head).live_blocks =
        (live_head.filter (fun p => decide (m ≤ p.size))).length ∧
      (Dump.collect_leaks m live_head).live_bytes =
        ((live_head.filter (fun p => decide (m ≤ p.size))).map Dump.Live.size).sum % 2 ^ 64) ∧
    (∀ live_head : List DumpV1.Live,
      (DumpV1.collect_leaks m live_head).rows =
        (live_head.filter (fun p => decide (m ≤ p.size))).map DumpV1.to_row ∧
      (DumpV1.collect_leaks m live_head).live_blocks =
        (live_head.filter (fun p => decide (m ≤ p.size))).length ∧
      (DumpV1.collect_leaks m live_head).live_bytes =
        ((live_head.filter (fun p => decide (m ≤ p.size))).map DumpV1.Live.size).sum % 2 ^ 64) := by
  constructor
  · intro live_head
    obtain ⟨a, b, c⟩ := dump_collect_spec m live_head { live_bytes := 0, live_blocks := 0, rows := [] }
    have d := dump_collect_lt m live_head { live_bytes := 0, live_blocks := 0, rows := [] }
      (by decide)
    unfold Dump.collect_leaks
    refine ⟨by simpa using a, by simpa using b, ?_⟩
    rw [Nat.mod_eq_of_lt d] at c
    simpa [U64] using c
  · intro live_head
    obtain ⟨a, b, c⟩ := v1_collect_spec m live_head { live_bytes := 0, live_blocks := 0, rows := [] }
    have d := v1_collect_lt m live_head { live_bytes := 0, live_blocks := 0, rows := [] }
      (by decide)
    unfold DumpV1.collect_leaks
    refine ⟨by simpa using a, by simpa using b, ?_⟩
    rw [Nat.mod_eq_of_lt d] at c
    simpa [U64] using c

theorem dump_print_limit_eq (opt : Dump.Opts) (n : Nat) :
    Dump.print_limit opt n =
      (if opt.live_all then n
       else if opt.live_top > 0 then min opt.live_top.toNat n else 0) := by
  simp only [Dump.print_limit]
  split_ifs <;> omega

theorem v1_print_limit_eq (opt : DumpV1.Opts) (n : Nat) :
    DumpV1.print_limit opt n =
      (if opt.live_all then n
       else if opt.live_top > 0 then min opt.live_top.toNat n else 0) := by
  simp only [DumpV1.print_limit]
  split_ifs <;> omega

theorem dump_print_limit_le (opt : Dump.Opts) (n : Nat) : Dump.print_limit opt n ≤ n := by
  rw [dump_print_limit_eq]; split_ifs <;> omega

theorem v1_print_limit_le (opt : DumpV1.Opts) (n : Nat) : DumpV1.print_limit opt n ≤ n := by
  rw [v1_print_limit_eq]; split_ifs <;> omega

theorem dump_printed_length (opt : Dump.Opts) (rows : List Dump.LeakRow) :
    (Dump.printed_rows opt rows).length = Dump.print_limit opt rows.length := by
  have hle := dump_print_limit_le opt rows.length
  unfold Dump.printed_rows
  by_cases h0 : rows.length > 0
  · simp only [if_pos h0, List.length_take]; omega
  · simp only [if_neg h0, List.length_nil]; omega

theorem v1_printed_length (opt : DumpV1.Opts) (rows : List DumpV1.LeakRow) :
    (DumpV1.printed_rows opt rows).length = DumpV1.print_limit opt rows.length := by
  have hle := v1_print_limit_le opt rows.length
  unfold DumpV1.printed_rows
  by_cases h0 : rows.length > 0
  · simp only [if_pos h0, List.length_take]; omega
  · simp only [if_neg h0, List.length_nil]; omega

/-- C13: the number of leak rows printed is `nrows` with `--live-all`, else
`min K nrows` for `K = live_top > 0` and 0 for `live_top ≤ 0`; the rows are the
first ones of the sorted array, and the remainder line reports `nrows` minus
the number printed (both decoders; the default `live_top` is 20). -/
theorem leak_print_count :
    Dump.default_opts.live_top = 20 ∧ Dump.default_opts.live_all = false ∧
    (∀ (opt : Dump.Opts) (rows : List Dump.LeakRow),
      (Dump.printed_rows opt rows).length =
        (if opt.live_all then rows.length
         else if opt.live_top > 0 then min opt.live_top.toNat rows.length else 0) ∧
      Dump.printed_rows opt rows = rows.take (Dump.printed_rows opt rows).length ∧
      (∀ n, Dump.printed_more opt rows = some n →
        n = rows.length - (Dump.printed_rows opt rows).length) ∧
      ((Dump.printed_more opt rows).isSome ↔
        (opt.live_all = false ∧ (Dump.printed_rows opt rows).length < rows.length))) ∧
    (∀ (opt : DumpV1.Opts) (rows : List DumpV1.LeakRow),
      (DumpV1.printed_rows opt rows).length =
        (if opt.live_all then rows.length
         else if opt.live_top > 0 then min opt.live_top.toNat rows.length else 0) ∧
      DumpV1.printed_rows opt rows = rows.take (DumpV1.printed_rows opt rows).length ∧
      (∀ n, DumpV1.printed_more opt rows = some n →
        n = rows.length - (DumpV1.printed_rows opt rows).length) ∧
      ((DumpV1.printed_more opt rows).isSome ↔
        (opt.live_all = false ∧ (DumpV1.printed_rows opt rows).length < rows.length))) := by
  refine ⟨rfl, rfl, ?_, ?_⟩
  · intro opt rows
    have hlen := dump_printed_length opt rows
    have hle := dump_print_limit_le opt rows.length
    refine ⟨by rw [hlen, dump_print_limit_eq], ?_, ?_, ?_⟩
    · rw [hlen]
      unfold Dump.printed_rows
      by_cases h0 : rows.length > 0
      · simp only [if_pos h0]
      · have : rows = [] := List.length_eq_zero.1 (by omega)
        simp [this]
    · intro n hn
      rw [hlen]
      unfold Dump.printed_more at hn
      split_ifs at hn
      · exact (Option.some.inj hn).symm
    · rw [hlen]
      unfold Dump.printed_more
      cases hall : opt.live_all <;> by_cases h0 : rows.length > 0 <;>
        by_cases h1 : rows.length > Dump.print_limit opt rows.length <;>
        simp [h0, h1] <;> omega
  · intro opt rows
    have hlen := v1_printed_length opt rows
    have hle := v1_print_limit_le opt rows.length
    refine ⟨by rw [hlen, v1_print_limit_eq], ?_, ?_, ?_⟩
    · rw [hlen]
      unfold DumpV1.printed_rows
      by_cases h0 : rows.length > 0
      · simp only [if_pos h0]
      · have : rows = [] := List.length_eq_zero.1 (by omega)
        simp [this]
    · intro n hn
      rw [hlen]
      unfold DumpV1.printed_more at hn
      split_ifs at hn
      · exact (Option.some.inj hn).symm
    · rw [hlen]
      unfold DumpV1.printed_more
      cases hall : opt.live_all <;> by_cases h0 : rows.length > 0 <;>
        by_cases h1 : rows.length > DumpV1.print_limit opt rows.length <;>
        simp [h0, h1] <;> omega


theorem dump_count_op_live (st : Dump.State) (op : Nat) :
    (Dump.count_op st op).live_head = st.live_head := by
  unfold Dump.count_op; split <;> rfl

theorem v1_count_op_live (st : DumpV1.State) (op : Nat) :
    (DumpV1.count_op st op).live_head = st.live_head := by
  unfold DumpV1.count_op; split <;> rfl

theorem dump_del_live_sublist : ∀ (l : List Dump.Live) (p : Nat),
    List.Sublist (Dump.del_live l p).1 l := by
  intro l
  induction l with
  | nil => intro p; exact List.Sublist.slnil
  | cons a rest ih =>
    intro p
    unfold Dump.del_live
    split_ifs
    · exact List.sublist_cons_self a rest
    · exact List.Sublist.cons₂ a (ih p)

theorem v1_del_live_sublist : ∀ (l : List DumpV1.Live) (p : Nat),
    List.Sublist (DumpV1.del_live l p).1 l := by
  intro l
  induction l with
  | nil => intro p; exact List.Sublist.slnil
  | cons a rest ih =>
    intro p
    unfold DumpV1.del_live
    split_ifs
    · exact List.sublist_cons_self a rest
    · exact List.Sublist.cons₂ a (ih p)

theorem dump_del_live_none : ∀ (l : List Dump.Live) (p : Nat),
    (Dump.del_live l p).2 = none → p ∉ l.map Dump.Live.ptr := by
  intro l
  induction l with
  | nil => intro p _; simp
  | cons a rest ih =>
    intro p h
    unfold Dump.del_live at h
    split_ifs at h with hp
    · simp only [List.map_cons, List.mem_cons, not_or]
      exact ⟨fun e => hp e.symm, ih p h⟩

theorem v1_del_live_none : ∀ (l : List DumpV1.Live) (p : Nat),
    (DumpV1.del_live l p).2 = none → p ∉ l.map DumpV1.Live.ptr := by
  intro l
  induction l with
  | nil => intro p _; simp
  | cons a rest ih =>
    intro p h
    unfold DumpV1.del_live at h
    split_ifs at h with hp
    · simp only [List.map_cons, List.mem_cons, not_or]
      exact ⟨fun e => hp e.symm, ih p h⟩

theorem dump_process_nodup (st : Dump.State) (r : Dump.rec_v1 × Nat)
    (hn : (st.live_head.map Dump.Live.ptr).Nodup)
    (hf : (r.1.op = 0 ∨ r.1.op = 3) → r.1.ptr ∉ st.live_head.map Dump.Live.ptr) :
    ((Dump.process st r).live_head.map Dump.Live.ptr).Nodup := by
  have hsub : ∀ p, ((Dump.del_live st.live_head p).1.map Dump.Live.ptr).Nodup :=
    fun p => hn.sublist ((dump_del_live_sublist st.live_head p).map _)
  simp only [Dump.process, Dump.apply_op, dump_count_op_live]
  by_cases h0 : r.1.op = 0
  · simp only [if_pos h0, Dump.add_live, List.map_cons, List.nodup_cons]
    exact ⟨hf (Or.inl h0), by simpa [dump_count_op_live] using hn⟩
  · by_cases h3 : r.1.op = 3
    · simp only [if_neg h0, if_pos h3, Dump.add_live, List.map_cons, List.nodup_cons]
      exact ⟨hf (Or.inr h3), by simpa [dump_count_op_live] using hn⟩
    · by_cases h2 : r.1.op = 2
      · simp only [if_neg h0, if_neg h3, if_pos h2]
        have hd := dump_del_live_none st.live_head r.1.ptr
        have hs := hsub r.1.ptr
        revert hd hs
        cases hdel : Dump.del_live st.live_head r.1.ptr with
        | mk l o =>
          cases o with
          | none =>
            intro hd _
            dsimp only
            simp only [Dump.add_live, List.map_cons, List.nodup_cons]
            exact ⟨hd rfl, hn⟩
          | some v => intro _ hs; dsimp only at hs ⊢; exact hs
      · by_cases h1 : r.1.op = 1
        · simp only [if_neg h0, if_neg h3, if_neg h2, if_pos h1]
          have hs := hsub r.1.ptr
          revert hs
          cases hdel : Dump.del_live st.live_head r.1.ptr with
          | mk l o =>
            cases o with
            | none => intro _; dsimp only; rw [dump_count_op_live]; exact hn
            | some v => intro hs; dsimp only at hs ⊢; exact hs
        · simp only [if_neg h0, if_neg h3, if_neg h2, if_neg h1]
          rw [dump_count_op_live]; exact hn

theorem v1_process_nodup (st : DumpV1.State) (r : DumpV1.rec_t)
    (hn : (st.live_head.map DumpV1.Live.ptr).Nodup)
    (hf : (r.op = 0 ∨ r.op = 3) → r.ptr ∉ st.live_head.map DumpV1.Live.ptr) :
    ((DumpV1.process st r).live_head.map DumpV1.Live.ptr).Nodup := by
  have hsub : ∀ p, ((DumpV1.del_live st.live_head p).1.map DumpV1.Live.ptr).Nodup :=
    fun p => hn.sublist ((v1_del_live_sublist st.live_head p).map _)
  simp only [DumpV1.process, DumpV1.apply_op, v1_count_op_live]
  by_cases h0 : r.op = 0
  · simp only [if_pos h0, DumpV1.add_live, List.map_cons, List.nodup_cons]
    exact ⟨hf (Or.inl h0), by simpa [v1_count_op_live] using hn⟩
  · by_cases h3 : r.op = 3
    · simp only [if_neg h0, if_pos h3, DumpV1.add_live, List.map_cons, List.nodup_cons]
      exact ⟨hf (Or.inr h3), by simpa [v1_count_op_live] using hn⟩
    · by_cases h2 : r.op = 2
      · simp only [if_neg h0, if_neg h3, if_pos h2]
        have hd := v1_del_live_none st.live_head r.ptr
        have hs := hsub r.ptr
        revert hd hs
        cases hdel : DumpV1.del_live st.live_head r.ptr with
        | mk l o =>
          cases o with
          | none =>
            intro hd _
            dsimp only
            simp only [DumpV1.add_live, List.map_cons, List.nodup_cons]
            exact ⟨hd rfl, hn⟩
          | some v => intro _ hs; dsimp only at hs ⊢; exact hs
      · by_cases h1 : r.op = 1
        · simp only [if_neg h0, if_neg h3, if_neg h2, if_pos h1]
          have hs := hsub r.ptr
          revert hs
          cases hdel : DumpV1.del_live st.live_head r.ptr with
          | mk l o =>
            cases o with
            | none => intro _; dsimp only; rw [v1_count_op_live]; exact hn
            | some v => intro hs; dsimp only at hs ⊢; exact hs
        · simp only [if_neg h0, if_neg h3, if_neg h2, if_neg h1]
          rw [v1_count_op_live]; exact hn

/-- C18 as stated fails: two `malloc` records for the same address leave two
nodes with that address in the live list. -/
theorem live_list_duplicate :
    ((Dump.replay
        [({ ts_ns := 1, tid := 1, op := 0, pad := 0, ptr := 16, arg := 10, retaddr := 0 }, 0),
         ({ ts_ns := 2, tid := 1, op := 0, pad := 0, ptr := 16, arg := 20, retaddr := 0 }, 0)]
      ).live_head.map Dump.Live.ptr) = [16, 16] ∧
    ((DumpV1.replay
        [{ ts_ns := 1, tid := 1, op := 0, pad := 0, ptr := 16, arg := 10, retaddr := 0 },
         { ts_ns := 2, tid := 1, op := 0, pad := 0, ptr := 16, arg := 20, retaddr := 0 }]
      ).live_head.map DumpV1.Live.ptr) = [16, 16] := by
  decide

/-- C18 (amended): when no `malloc`/`calloc` record names an address that is in
the live list at that moment, the live list never holds two nodes with the
same `ptr` (both decoders). -/
theorem live_list_nodup :
    (∀ recs : List (Dump.rec_v1 × Nat),
      (∀ p r q, recs = p ++ r :: q → (r.1.op = 0 ∨ r.1.op = 3) →
        r.1.ptr ∉ (Dump.replay p).live_head.map Dump.Live.ptr) →
      ((Dump.replay recs).live_head.map Dump.Live.ptr).Nodup) ∧
    (∀ recs : List DumpV1.rec_t,
      (∀ p r q, recs = p ++ r :: q → (r.op = 0 ∨ r.op = 3) →
        r.ptr ∉ (DumpV1.replay p).live_head.map DumpV1.Live.ptr) →
      ((DumpV1.replay recs).live_head.map DumpV1.Live.ptr).Nodup) := by
  constructor
  · intro recs
    induction recs using List.reverseRecOn with
    | nil => intro _; simp [Dump.replay, Dump.init]
    | append_singleton l r ih =>
      intro h
      have hl := ih (fun p r' q e => h p r' (q ++ [r]) (by rw [e]; simp))
      have hr := h l r [] rfl
      have e : Dump.replay (l ++ [r]) = Dump.process (Dump.replay l) r := by
        simp [Dump.replay, List.foldl_append]
      rw [e]
      exact dump_process_nodup _ r hl hr
  · intro recs
    induction recs using List.reverseRecOn with
    | nil => intro _; simp [DumpV1.replay, DumpV1.init]
    | append_singleton l r ih =>
      intro h
      have hl := ih (fun p r' q e => h p r' (q ++ [r]) (by rw [e]; simp))
      have hr := h l r [] rfl
      have e : DumpV1.replay (l ++ [r]) = DumpV1.process (DumpV1.replay l) r := by
        simp [DumpV1.replay, List.foldl_append]
      rw [e]
      exact v1_process_nodup _ r hl hr

/-- A trace for C18 (amended): `malloc 16`, `free 16`, `malloc 16` reuses the
address only after it left the list. -/
theorem live_list_nodup_witness :
    ((Dump.replay
        [({ ts_ns := 1, tid := 1, op := 0, pad := 0, ptr := 16, arg := 10, retaddr := 0 }, 0),
         ({ ts_ns := 2, tid := 1, op := 1, pad := 0, ptr := 16, arg := 0, retaddr := 0 }, 0),
         ({ ts_ns := 3, tid := 1, op := 0, pad := 0, ptr := 16, arg := 20, retaddr := 0 }, 0)]
      ).live_head.map Dump.Live.ptr).Nodup :=
  live_list_nodup.1 _ (by
    intro p r q e hop
    match p, e with
    | [], e => simp [Dump.replay, Dump.init]
    | [a], e =>
      simp only [List.singleton_append, List.cons.injEq] at e
      obtain ⟨-, rfl, -⟩ := e
      simp at hop
    | [a, b], e =>
      simp only [List.cons_append, List.nil_append, List.cons.injEq] at e
      obtain ⟨rfl, rfl, rfl, -⟩ := e
      decide
    | a :: b :: c :: p', e =>
      simp only [List.cons_append, List.cons.injEq] at e
      obtain ⟨-, -, -, e⟩ := e
      simp at e)

/-- C19, the code at the failing input: a `realloc` record for a live address
removes the block and inserts nothing, so the address is not live afterwards
(both decoders). -/
theorem realloc_drops_block :
    (Dump.replay
        [({ ts_ns := 1, tid := 1, op := 0, pad := 0, ptr := 16, arg := 100, retaddr := 0 }, 0),
         ({ ts_ns := 2, tid := 1, op := 2, pad := 0, ptr := 16, arg := 60, retaddr := 0 }, 0)]
      ).live_head = [] ∧
    (Dump.replay
        [({ ts_ns := 1, tid := 1, op := 0, pad := 0, ptr := 16, arg := 100, retaddr := 0 }, 0),
         ({ ts_ns := 2, tid := 1, op := 2, pad := 0, ptr := 16, arg := 60, retaddr := 0 }, 0)]
      ).total_freed = 100 ∧
    (DumpV1.replay
        [{ ts_ns := 1, tid := 1, op := 0, pad := 0, ptr := 16, arg := 100, retaddr := 0 },
         { ts_ns := 2, tid := 1, op := 2, pad := 0, ptr := 16, arg := 60, retaddr := 0 }]
      ).live_head = [] := by
  decide


namespace Analyze

theorem upd_nil {κ : Type} [DecidableEq κ] (f : Stat κ → Stat κ) (id : κ) :
    modify_at f (get_stat ([] : List (Stat κ)) id).1 (get_stat ([] : List (Stat κ)) id).2 =
      [f { id := id, cur := 0, peak := 0, pidx := 0, pts := 0, pwt := "" }] := by
  simp [get_stat, stat_index, modify_at]

theorem upd_cons_eq {κ : Type} [DecidableEq κ] (f : Stat κ → Stat κ) (t : Stat κ)
    (rest : List (Stat κ)) (id : κ) (h : t.id = id) :
    modify_at f (get_stat (t :: rest) id).1 (get_stat (t :: rest) id).2 = f t :: rest := by
  simp [get_stat, stat_index, modify_at, h]

theorem upd_cons_ne {κ : Type} [DecidableEq κ] (f : Stat κ → Stat κ) (t : Stat κ)
    (rest : List (Stat κ)) (id : κ) (h : t.id ≠ id) :
    modify_at f (get_stat (t :: rest) id).1 (get_stat (t :: rest) id).2 =
      t :: modify_at f (get_stat rest id).1 (get_stat rest id).2 := by
  unfold get_stat
  simp only [stat_index, if_neg h, List.length_cons, Nat.add_lt_add_iff_right]
  split_ifs
  · rfl
  · rfl

/-- Reading back after a write through `get_tid` / `get_ra`. -/
theorem stat_get_upd {κ : Type} [DecidableEq κ] (f : Stat κ → Stat κ)
    (hf : ∀ t, (f t).id = t.id) (id id' : κ) : ∀ v : List (Stat κ),
    stat_get (modify_at f (get_stat v id).1 (get_stat v id).2) id' =
      if id' = id then f (stat_get v id) else stat_get v id' := by
  intro v
  induction v with
  | nil =>
    rw [upd_nil]
    simp only [stat_get, hf]
    by_cases h : id' = id
    · simp [h]
    · have : ¬ id = id' := fun e => h e.symm
      simp [h, this]
  | cons t rest ih =>
    by_cases h : t.id = id
    · rw [upd_cons_eq f t rest id h]
      simp only [stat_get, hf, h]
      by_cases h' : id' = id
      · simp [h']
      · have : ¬ id = id' := fun e => h' e.symm
        simp [h', this]
    · rw [upd_cons_ne f t rest id h]
      simp only [stat_get, if_neg h]
      by_cases ht : t.id = id'
      · have : id' ≠ id := fun e => h (ht.trans e)
        simp [ht, this]
      · simp only [if_neg ht]; exact ih

theorem stat_add_id {κ : Type} (sz : Nat) (r : Row) (t : Stat κ) : (stat_add sz r t).id = t.id := by
  unfold stat_add; split_ifs <;> rfl

theorem stat_sub_id {κ : Type} (sz : Nat) (t : Stat κ) : (stat_sub sz t).id = t.id := rfl

theorem stat_add_peak {κ : Type} (sz : Nat) (r : Row) (t : Stat κ) :
    t.peak ≤ (stat_add sz r t).peak ∧ (stat_add sz r t).cur ≤ (stat_add sz r t).peak ∧
    (stat_add sz r t).cur = (t.cur + sz) % U64 := by
  unfold stat_add; split_ifs <;> simp <;> omega

theorem stat_sub_peak {κ : Type} (sz : Nat) (t : Stat κ) :
    (stat_sub sz t).peak = t.peak ∧ (stat_sub sz t).cur = t.cur - sz := by
  unfold stat_sub
  refine ⟨rfl, ?_⟩
  simp only
  split_ifs <;> omega

theorem replay_from_append (T : Nat) : ∀ (l : List Row) (s : Replay) (r : Row),
    replay_from T s (l ++ [r]) =
      match replay_from T s l with
      | none => none
      | some s1 => step T s1 r := by
  intro l
  induction l with
  | nil =>
    intro s r
    simp only [List.nil_append, replay_from]
    cases step T s r <;> rfl
  | cons a l ih =>
    intro s r
    simp only [List.cons_append, replay_from]
    cases step T s a with
    | none => rfl
    | some s1 => exact ih s1 r

theorem replay_append (T : Nat) (l : List Row) (r : Row) :
    replay T (l ++ [r]) =
      match replay T l with
      | none => none
      | some s1 => step T s1 r :=
  replay_from_append T l init r

/-- An induction principle over the states the row loop reaches. -/
theorem replay_induction (T : Nat) (P : List Row → Replay → Prop) (h0 : P [] init)
    (hs : ∀ l s r s', replay T l = some s → P l s → step T s r = some s' → P (l ++ [r]) s') :
    ∀ rows s, replay T rows = some s → P rows s := by
  intro rows
  induction rows using List.reverseRecOn with
  | nil =>
    intro s h
    simp only [replay, replay_from, Option.some.injEq] at h
    exact h ▸ h0
  | append_singleton l r ih =>
    intro s h
    rw [replay_append] at h
    cases h1 : replay T l with
    | none => rw [h1] at h; simp at h
    | some s1 =>
      rw [h1] at h
      exact hs l s1 r s h1 (ih s1 h1) h

/-- The fields that `add_new` leaves alone. -/
theorem add_new_frame (s s' : Replay) (r : Row) (h : add_new s r = some s') :
    s'.peak_live = s.peak_live ∧ s'.peak_idx = s.peak_idx ∧ s'.peak_tsns = s.peak_tsns ∧
    s'.peak_wall_ns = s.peak_wall_ns ∧ s'.peak_wt = s.peak_wt ∧
    s'.have_cross = s.have_cross ∧ s'.cross_idx = s.cross_idx ∧ s'.cross_tsns = s.cross_tsns ∧
    s'.cross_bytes = s.cross_bytes ∧ s'.cross_wt = s.cross_wt ∧ s'.recs = s.recs ∧
    s'.series = s.series ∧ s'.cur_live = (s.cur_live + r.arg) % U64 ∧
    s'.tstats = modify_at (stat_add r.arg r) (get_stat s.tstats r.tid).1 (get_stat s.tstats r.tid).2 ∧
    s'.rstats = modify_at (stat_add r.arg r) (get_stat s.rstats r.ra).1 (get_stat s.rstats r.ra).2 := by
  unfold add_new at h
  split at h
  · exact absurd h (by simp)
  · simp only [Option.some.injEq] at h
    subst h
    simp

/-- The fields that `remove_old` leaves alone, and what it does to the counters. -/
theorem remove_old_frame (s s' : Replay) (r : Row) (h : remove_old s r = some s') :
    s'.peak_live = s.peak_live ∧ s'.peak_idx = s.peak_idx ∧ s'.peak_tsns = s.peak_tsns ∧
    s'.peak_wall_ns = s.peak_wall_ns ∧ s'.peak_wt = s.peak_wt ∧
    s'.have_cross = s.have_cross ∧ s'.cross_idx = s.cross_idx ∧ s'.cross_tsns = s.cross_tsns ∧
    s'.cross_bytes = s.cross_bytes ∧ s'.cross_wt = s.cross_wt ∧ s'.recs = s.recs ∧
    s'.series = s.series ∧
    (s' = s ∨ ∃ m old, live_erase s.live r.ptr = some (m, some old) ∧ s' = sub_old s m old) := by
  unfold remove_old at h
  split at h
  · exact absurd h (by simp)
  · simp only [Option.some.injEq] at h
    subst h
    simp
  · rename_i m old heq
    simp only [Option.some.injEq] at h
    subst h
    refine ⟨rfl, rfl, rfl, rfl, rfl, rfl, rfl, rfl, rfl, rfl, rfl, rfl, Or.inr ⟨m, old, heq, rfl⟩⟩

end Analyze


namespace Analyze

/-- What the peak and crossing updates after the branch chain do. -/
theorem post_fields (T : Nat) (s : Replay) (r : Row) :
    (update_cross T (update_peak s r) r).cur_live = s.cur_live ∧
    (update_cross T (update_peak s r) r).peak_live = max s.peak_live s.cur_live ∧
    (update_cross T (update_peak s r) r).tstats = s.tstats ∧
    (update_cross T (update_peak s r) r).rstats = s.rstats ∧
    (update_cross T (update_peak s r) r).live = s.live ∧
    (update_cross T (update_peak s r) r).series = s.series ∧
    (update_cross T (update_peak s r) r).recs = s.recs ∧
    ((update_cross T (update_peak s r) r).have_cross = true ↔
      (s.have_cross = true ∨ (T ≠ 0 ∧ s.cur_live ≥ T))) := by
  have hp : (update_peak s r).cur_live = s.cur_live ∧
      (update_peak s r).peak_live = max s.peak_live s.cur_live ∧
      (update_peak s r).tstats = s.tstats ∧ (update_peak s r).rstats = s.rstats ∧
      (update_peak s r).live = s.live ∧ (update_peak s r).series = s.series ∧
      (update_peak s r).recs = s.recs ∧ (update_peak s r).have_cross = s.have_cross := by
    unfold update_peak
    split_ifs with h
    · refine ⟨rfl, ?_, rfl, rfl, rfl, rfl, rfl, rfl⟩
      show s.cur_live = max s.peak_live s.cur_live
      omega
    · refine ⟨rfl, ?_, rfl, rfl, rfl, rfl, rfl, rfl⟩
      omega
  obtain ⟨h1, h2, h3, h4, h5, h6, h7, h8⟩ := hp
  unfold update_cross
  split_ifs with h
  · refine ⟨h1, h2, h3, h4, h5, h6, h7, ?_⟩
    rw [h1] at h
    exact ⟨fun _ => Or.inr ⟨h.1, h.2.2⟩, fun _ => rfl⟩
  · refine ⟨h1, h2, h3, h4, h5, h6, h7, ?_⟩
    rw [h1, h8] at h
    rw [h8]
    constructor
    · intro hc; exact Or.inl hc
    · rintro (hc | ⟨a, b⟩)
      · exact hc
      · by_contra hc
        exact h ⟨a, by simpa using hc, b⟩

/-- The counter facts every reached state satisfies: the global peak covers
`cur_live`, a reached threshold has been recorded, and every per-thread and
per-site peak covers its current value. -/
theorem reach_inv (T : Nat) : ∀ rows s, replay T rows = some s →
    s.cur_live ≤ s.peak_live ∧
    (T ≠ 0 → s.cur_live ≥ T → s.have_cross = true) ∧
    (∀ id, (stat_get s.tstats id).cur ≤ (stat_get s.tstats id).peak) ∧
    (∀ id, (stat_get s.rstats id).cur ≤ (stat_get s.rstats id).peak) := by
  apply replay_induction
  · refine ⟨Nat.le_refl _, ?_, ?_, ?_⟩
    · intro h0 h; simp only [init] at h; omega
    · intro id; simp [init, stat_get]
    · intro id; simp [init, stat_get]
  · intro l s r s' _ ih hstep
    obtain ⟨_, _, iht, ihr⟩ := ih
    unfold step at hstep
    cases hop : apply_op (push_series s r) r with
    | none => rw [hop] at hstep; simp at hstep
    | some s1 =>
      rw [hop] at hstep
      simp only [Option.some.injEq] at hstep
      subst hstep
      have hstats : (∀ id, (stat_get s1.tstats id).cur ≤ (stat_get s1.tstats id).peak) ∧
          (∀ id, (stat_get s1.rstats id).cur ≤ (stat_get s1.rstats id).peak) := by
        have hadd : ∀ (s2 s3 : Replay), add_new s2 r = some s3 →
            (∀ id, (stat_get s2.tstats id).cur ≤ (stat_get s2.tstats id).peak) →
            (∀ id, (stat_get s2.rstats id).cur ≤ (stat_get s2.rstats id).peak) →
            (∀ id, (stat_get s3.tstats id).cur ≤ (stat_get s3.tstats id).peak) ∧
            (∀ id, (stat_get s3.rstats id).cur ≤ (stat_get s3.rstats id).peak) := by
          intro s2 s3 h a b
          have fr := add_new_frame s2 s3 r h
          obtain ⟨-, -, -, -, -, -, -, -, -, -, -, -, -, ht, hr⟩ := fr
          constructor
          · intro id
            rw [ht, stat_get_upd _ (stat_add_id _ _)]
            split_ifs
            · exact (stat_add_peak _ _ _).2.1
            · exact a id
          · intro id
            rw [hr, stat_get_upd _ (stat_add_id _ _)]
            split_ifs
            · exact (stat_add_peak _ _ _).2.1
            · exact b id
        have hrem : ∀ (s2 s3 : Replay), remove_old s2 r = some s3 →
            (∀ id, (stat_get s2.tstats id).cur ≤ (stat_get s2.tstats id).peak) →
            (∀ id, (stat_get s2.rstats id).cur ≤ (stat_get s2.rstats id).peak) →
            (∀ id, (stat_get s3.tstats id).cur ≤ (stat_get s3.tstats id).peak) ∧
            (∀ id, (stat_get s3.rstats id).cur ≤ (stat_get s3.rstats id).peak) := by
          intro s2 s3 h a b
          obtain ⟨-, -, -, -, -, -, -, -, -, -, -, -, hc⟩ := remove_old_frame s2 s3 r h
          rcases hc with rfl | ⟨m, old, -, rfl⟩
          · exact ⟨a, b⟩
          · constructor
            · intro id
              simp only [sub_old]
              rw [stat_get_upd _ (stat_sub_id _)]
              split_ifs
              · have := stat_sub_peak old.size (stat_get s2.tstats old.tid)
                have := a old.tid
                omega
              · exact a id
            · intro id
              simp only [sub_old]
              rw [stat_get_upd _ (stat_sub_id _)]
              split_ifs
              · have := stat_sub_peak old.size (stat_get s2.rstats old.ra)
                have := b old.ra
                omega
              · exact b id
        unfold apply_op at hop
        split_ifs at hop
        · exact hadd _ _ hop iht ihr
        · cases h1 : remove_old (push_series s r) r with
          | none => rw [h1] at hop; simp at hop
          | some s2 =>
            rw [h1] at hop
            obtain ⟨a, b⟩ := hrem _ _ h1 iht ihr
            exact hadd _ _ hop a b
        · exact hrem _ _ hop iht ihr
        · simp only [Option.some.injEq] at hop
          subst hop
          exact ⟨iht, ihr⟩
      obtain ⟨p1, p2, p3, p4, -, -, -, p8⟩ := post_fields T s1 r
      refine ⟨?_, ?_, ?_, ?_⟩
      · show (update_cross T (update_peak s1 r) r).cur_live ≤
          (update_cross T (update_peak s1 r) r).peak_live
        rw [p1, p2]; omega
      · intro h0 hge
        show (update_cross T (update_peak s1 r) r).have_cross = true
        have hge' : (update_cross T (update_peak s1 r) r).cur_live ≥ T := hge
        rw [p1] at hge'
        exact p8.2 (Or.inr ⟨h0, hge'⟩)
      · intro id
        show (stat_get (update_cross T (update_peak s1 r) r).tstats id).cur ≤
          (stat_get (update_cross T (update_peak s1 r) r).tstats id).peak
        rw [p3]; exact hstats.1 id
      · intro id
        show (stat_get (update_cross T (update_peak s1 r) r).rstats id).cur ≤
          (stat_get (update_cross T (update_peak s1 r) r).rstats id).peak
        rw [p4]; exact hstats.2 id

end Analyze


namespace Analyze

theorem erase_loop_of_find_none (m : LiveMap) (key : Nat) : ∀ fuel i,
    live_find_loop m key fuel i = none → live_erase_loop m key fuel i = some (m, none) := by
  intro fuel
  induction fuel with
  | zero => intro i _; rfl
  | succ fuel ih =>
    intro i h
    unfold live_find_loop at h
    unfold live_erase_loop
    split_ifs at h ⊢ with h1 h2
    · rfl
    · exact ih _ h

/-- Erasing a key that `live_find` does not find changes nothing and returns 0. -/
theorem erase_of_find_none (m : LiveMap) (key : Nat) (h : live_find m key = none) :
    live_erase m key = some (m, none) :=
  erase_loop_of_find_none m key _ _ h

/-- C14: in a reached state, a `free` row whose address `live_find` does not
find leaves every variable of the replay as it was, except that the row is
counted in `recs` and its point is appended to the time series. -/
theorem free_unknown_noop (T : Nat) (rows : List Row) (s : Replay) (r : Row)
    (hreach : replay T rows = some s) (hop : r.op = "free")
    (hnl : live_find s.live r.ptr = none) :
    step T s r = some { s with
      series := s.series ++ [{ idx := (r.idx % (U64 : Int)).toNat, ts_ns := r.ts_ns,
                               wall_time := r.wall_time, value := s.cur_live }],
      recs := s.recs + 1 } := by
  obtain ⟨i1, i2, -, -⟩ := reach_inv T rows s hreach
  have h1 : ¬ (r.op = "malloc" ∨ r.op = "calloc") := by rw [hop]; decide
  have h2 : ¬ (r.op = "realloc") := by rw [hop]; decide
  have hrem : remove_old (push_series s r) r = some (push_series s r) := by
    unfold remove_old
    have : (push_series s r).live = s.live := rfl
    rw [this, erase_of_find_none s.live r.ptr hnl]
  have happ : apply_op (push_series s r) r = some (push_series s r) := by
    unfold apply_op
    rw [if_neg h1, if_neg h2, if_pos hop, hrem]
  unfold step
  rw [happ]
  have hp : update_peak (push_series s r) r = push_series s r := by
    unfold update_peak
    have : ¬ ((push_series s r).cur_live > (push_series s r).peak_live) := by
      show ¬ (s.cur_live > s.peak_live)
      omega
    rw [if_neg this]
  have hc : update_cross T (push_series s r) r = push_series s r := by
    unfold update_cross
    have : ¬ (T ≠ 0 ∧ (push_series s r).have_cross = false ∧ (push_series s r).cur_live ≥ T) := by
      rintro ⟨a, b, c⟩
      have := i2 a c
      have b' : s.have_cross = false := b
      rw [this] at b'
      exact Bool.noConfusion b'
    rw [if_neg this]
  simp only [hp, hc]
  rfl

/-- C14 on the state after one `malloc`: freeing another address. -/
theorem free_unknown_noop_witness :
    step 0 (Option.get (replay 0 [mk_row 0 "malloc" 16 100 1 7]) (by decide))
      (mk_row 1 "free" 32 0 1 7) =
    some { (Option.get (replay 0 [mk_row 0 "malloc" 16 100 1 7]) (by decide)) with
      series := (Option.get (replay 0 [mk_row 0 "malloc" 16 100 1 7]) (by decide)).series ++
        [{ idx := 1, ts_ns := 0, wall_time := "", value := 100 }],
      recs := 1 + 1 } :=
  free_unknown_noop 0 _ _ _ (Option.some_get _).symm rfl (by decide)

end Analyze


namespace Analyze

/-- C15: the removal block of the `free` and `realloc` branches replaces each
of the three counters `c` by the natural-number difference `c - size`
(which is `max (c - size) 0`): no wrap, never above `c`. -/
theorem counter_clamp (s : Replay) (m : LiveMap) (old : LiveEnt) :
    (sub_old s m old).cur_live = s.cur_live - old.size ∧
    (stat_get (sub_old s m old).tstats old.tid).cur =
      (stat_get s.tstats old.tid).cur - old.size ∧
    (stat_get (sub_old s m old).rstats old.ra).cur =
      (stat_get s.rstats old.ra).cur - old.size ∧
    (sub_old s m old).cur_live ≤ s.cur_live ∧
    (stat_get (sub_old s m old).tstats old.tid).cur ≤ (stat_get s.tstats old.tid).cur ∧
    (stat_get (sub_old s m old).rstats old.ra).cur ≤ (stat_get s.rstats old.ra).cur ∧
    (∀ r : Row, r.op = "free" → live_erase s.live r.ptr = some (m, some old) →
      apply_op s r = some (sub_old s m old)) ∧
    (∀ r : Row, r.op = "realloc" → live_erase s.live r.ptr = some (m, some old) →
      apply_op s r = add_new (sub_old s m old) r) := by
  have h1 : (sub_old s m old).cur_live = s.cur_live - old.size := by
    simp only [sub_old]; split_ifs <;> omega
  have h2 : (stat_get (sub_old s m old).tstats old.tid).cur =
      (stat_get s.tstats old.tid).cur - old.size := by
    simp only [sub_old]
    rw [stat_get_upd _ (stat_sub_id _), if_pos rfl]
    exact (stat_sub_peak _ _).2
  have h3 : (stat_get (sub_old s m old).rstats old.ra).cur =
      (stat_get s.rstats old.ra).cur - old.size := by
    simp only [sub_old]
    rw [stat_get_upd _ (stat_sub_id _), if_pos rfl]
    exact (stat_sub_peak _ _).2
  refine ⟨h1, h2, h3, by omega, by omega, by omega, ?_, ?_⟩
  · intro r hop he
    have a : ¬ (r.op = "malloc" ∨ r.op = "calloc") := by rw [hop]; decide
    have b : ¬ (r.op = "realloc") := by rw [hop]; decide
    unfold apply_op remove_old
    rw [if_neg a, if_neg b, if_pos hop, he]
  · intro r hop he
    have a : ¬ (r.op = "malloc" ∨ r.op = "calloc") := by rw [hop]; decide
    unfold apply_op remove_old
    rw [if_neg a, if_pos hop, he]

/-- How the counters of one thread and one call site move in one loop body. -/
theorem step_stats (T : Nat) (s s' : Replay) (r : Row) (h : step T s r = some s') :
    (∀ id, (stat_get s.tstats id).peak ≤ (stat_get s'.tstats id).peak) ∧
    (∀ id, (stat_get s.rstats id).peak ≤ (stat_get s'.rstats id).peak) := by
  have hadd : ∀ (s2 s3 : Replay), add_new s2 r = some s3 →
      (∀ id, (stat_get s2.tstats id).peak ≤ (stat_get s3.tstats id).peak) ∧
      (∀ id, (stat_get s2.rstats id).peak ≤ (stat_get s3.rstats id).peak) := by
    intro s2 s3 h
    obtain ⟨-, -, -, -, -, -, -, -, -, -, -, -, -, ht, hr⟩ := add_new_frame s2 s3 r h
    constructor
    · intro id
      rw [ht, stat_get_upd _ (stat_add_id _ _)]
      split_ifs with e
      · rw [e]; exact (stat_add_peak _ _ _).1
      · exact Nat.le_refl _
    · intro id
      rw [hr, stat_get_upd _ (stat_add_id _ _)]
      split_ifs with e
      · rw [e]; exact (stat_add_peak _ _ _).1
      · exact Nat.le_refl _
  have hrem : ∀ (s2 s3 : Replay), remove_old s2 r = some s3 →
      (∀ id, (stat_get s2.tstats id).peak ≤ (stat_get s3.tstats id).peak) ∧
      (∀ id, (stat_get s2.rstats id).peak ≤ (stat_get s3.rstats id).peak) := by
    intro s2 s3 h
    obtain ⟨-, -, -, -, -, -, -, -, -, -, -, -, hc⟩ := remove_old_frame s2 s3 r h
    rcases hc with rfl | ⟨m, old, -, rfl⟩
    · exact ⟨fun _ => Nat.le_refl _, fun _ => Nat.le_refl _⟩
    · constructor
      · intro id
        simp only [sub_old]
        rw [stat_get_upd _ (stat_sub_id _)]
        split_ifs with e
        · rw [e, (stat_sub_peak _ _).1]
        · exact Nat.le_refl _
      · intro id
        simp only [sub_old]
        rw [stat_get_upd _ (stat_sub_id _)]
        split_ifs with e
        · rw [e, (stat_sub_peak _ _).1]
        · exact Nat.le_refl _
  unfold step at h
  cases hop : apply_op (push_series s r) r with
  | none => rw [hop] at h; simp at h
  | some s1 =>
    rw [hop] at h
    simp only [Option.some.injEq] at h
    subst h
    obtain ⟨-, -, p3, p4, -, -, -, -⟩ := post_fields T s1 r
    show (∀ id, (stat_get s.tstats id).peak ≤
        (stat_get (update_cross T (update_peak s1 r) r).tstats id).peak) ∧
      (∀ id, (stat_get s.rstats id).peak ≤
        (stat_get (update_cross T (update_peak s1 r) r).rstats id).peak)
    rw [p3, p4]
    have base : (push_series s r).tstats = s.tstats ∧ (push_series s r).rstats = s.rstats :=
      ⟨rfl, rfl⟩
    unfold apply_op at hop
    split_ifs at hop
    · have := hadd _ _ hop; rw [base.1, base.2] at this; exact this
    · cases h1 : remove_old (push_series s r) r with
      | none => rw [h1] at hop; simp at hop
      | some s2 =>
        rw [h1] at hop
        obtain ⟨a, b⟩ := hrem _ _ h1
        obtain ⟨c, d⟩ := hadd _ _ hop
        rw [base.1] at a
        rw [base.2] at b
        exact ⟨fun id => Nat.le_trans (a id) (c id), fun id => Nat.le_trans (b id) (d id)⟩
    · have := hrem _ _ hop; rw [base.1, base.2] at this; exact this
    · simp only [Option.some.injEq] at hop
      subst hop
      exact ⟨fun _ => Nat.le_refl _, fun _ => Nat.le_refl _⟩

/-- The global peak never decreases in one loop body. -/
theorem step_peak_live (T : Nat) (s s' : Replay) (r : Row) (h : step T s r = some s') :
    s.peak_live ≤ s'.peak_live := by
  unfold step at h
  cases hop : apply_op (push_series s r) r with
  | none => rw [hop] at h; simp at h
  | some s1 =>
    rw [hop] at h
    simp only [Option.some.injEq] at h
    subst h
    obtain ⟨-, p2, -, -, -, -, -, -⟩ := post_fields T s1 r
    show s.peak_live ≤ (update_cross T (update_peak s1 r) r).peak_live
    rw [p2]
    have hpk : s1.peak_live = s.peak_live := by
      unfold apply_op at hop
      split_ifs at hop
      · exact (add_new_frame _ _ r hop).1
      · cases h1 : remove_old (push_series s r) r with
        | none => rw [h1] at hop; simp at hop
        | some s2 =>
          rw [h1] at hop
          rw [(add_new_frame _ _ r hop).1, (remove_old_frame _ _ r h1).1]; rfl
      · rw [(remove_old_frame _ _ r hop).1]; rfl
      · simp only [Option.some.injEq] at hop
        subst hop; rfl
    omega

/-- C16: from one event to the next the global peak and every per-thread and
per-site peak do not decrease, and after every event each peak is at least the
matching current value (an id without an element counts as 0 / 0). -/
theorem peaks_monotone (T : Nat) (rows : List Row) (s s' : Replay) (r : Row)
    (hreach : replay T rows = some s) (hstep : step T s r = some s') :
    s.peak_live ≤ s'.peak_live ∧ s'.cur_live ≤ s'.peak_live ∧
    (∀ tid, (stat_get s.tstats tid).peak ≤ (stat_get s'.tstats tid).peak ∧
      (stat_get s'.tstats tid).cur ≤ (stat_get s'.tstats tid).peak) ∧
    (∀ ra, (stat_get s.rstats ra).peak ≤ (stat_get s'.rstats ra).peak ∧
      (stat_get s'.rstats ra).cur ≤ (stat_get s'.rstats ra).peak) := by
  have hreach' : replay T (rows ++ [r]) = some s' := by
    rw [replay_append, hreach]; exact hstep
  obtain ⟨i1, -, i3, i4⟩ := reach_inv T _ s' hreach'
  obtain ⟨a, b⟩ := step_stats T s s' r hstep
  exact ⟨step_peak_live T s s' r hstep, i1, fun id => ⟨a id, i3 id⟩, fun id => ⟨b id, i4 id⟩⟩

/-- C16 on the step `free 16` after `malloc 16 (100 bytes)`: the peaks stay at 100. -/
theorem peaks_monotone_witness :
    (Option.get (replay 0 [mk_row 0 "malloc" 16 100 1 7]) (by decide)).peak_live ≤
      (Option.get (replay 0 [mk_row 0 "malloc" 16 100 1 7, mk_row 1 "free" 16 0 1 7])
        (by decide)).peak_live ∧
    (Option.get (replay 0 [mk_row 0 "malloc" 16 100 1 7, mk_row 1 "free" 16 0 1 7])
        (by decide)).peak_live = 100 ∧
    (Option.get (replay 0 [mk_row 0 "malloc" 16 100 1 7, mk_row 1 "free" 16 0 1 7])
        (by decide)).cur_live = 0 :=
  ⟨(peaks_monotone 0 [mk_row 0 "malloc" 16 100 1 7] _ _ (mk_row 1 "free" 16 0 1 7)
      (Option.some_get _).symm
      (by rw [Option.some_get]; rfl)).1, by decide, by decide⟩

end Analyze


namespace Analyze

/-- The crossing variables across one loop body. -/
theorem step_cross (T : Nat) (s s' : Replay) (r : Row) (h : step T s r = some s') :
    (s.have_cross = true →
      s'.have_cross = true ∧ s'.cross_idx = s.cross_idx ∧ s'.cross_bytes = s.cross_bytes) ∧
    (s.have_cross = false → T ≠ 0 → T ≤ s'.cur_live →
      s'.have_cross = true ∧ s'.cross_idx = r.idx ∧ s'.cross_bytes = s'.cur_live) ∧
    (s.have_cross = false → ¬ (T ≠ 0 ∧ T ≤ s'.cur_live) → s'.have_cross = false) := by
  unfold step at h
  cases hop : apply_op (push_series s r) r with
  | none => rw [hop] at h; simp at h
  | some s1 =>
    rw [hop] at h
    simp only [Option.some.injEq] at h
    subst h
    have hfr : s1.have_cross = s.have_cross ∧ s1.cross_idx = s.cross_idx ∧
        s1.cross_bytes = s.cross_bytes := by
      unfold apply_op at hop
      split_ifs at hop
      · obtain ⟨-, -, -, -, -, a, b, -, c, -⟩ := add_new_frame _ _ r hop
        exact ⟨a, b, c⟩
      · cases h1 : remove_old (push_series s r) r with
        | none => rw [h1] at hop; simp at hop
        | some s2 =>
          rw [h1] at hop
          obtain ⟨-, -, -, -, -, a, b, -, c, -⟩ := add_new_frame _ _ r hop
          obtain ⟨-, -, -, -, -, a', b', -, c', -⟩ := remove_old_frame _ _ r h1
          exact ⟨a.trans a', b.trans b', c.trans c'⟩
      · obtain ⟨-, -, -, -, -, a, b, -, c, -⟩ := remove_old_frame _ _ r hop
        exact ⟨a, b, c⟩
      · simp only [Option.some.injEq] at hop
        subst hop
        exact ⟨rfl, rfl, rfl⟩
    obtain ⟨f1, f2, f3⟩ := hfr
    have hpc : (update_peak s1 r).have_cross = s1.have_cross ∧
        (update_peak s1 r).cross_idx = s1.cross_idx ∧
        (update_peak s1 r).cross_bytes = s1.cross_bytes ∧
        (update_peak s1 r).cur_live = s1.cur_live := by
      unfold update_peak; split_ifs <;> exact ⟨rfl, rfl, rfl, rfl⟩
    obtain ⟨g1, g2, g3, g4⟩ := hpc
    show ((s.have_cross = true →
        (update_cross T (update_peak s1 r) r).have_cross = true ∧
        (update_cross T (update_peak s1 r) r).cross_idx = s.cross_idx ∧
        (update_cross T (update_peak s1 r) r).cross_bytes = s.cross_bytes) ∧
      (s.have_cross = false → T ≠ 0 → T ≤ (update_cross T (update_peak s1 r) r).cur_live →
        (update_cross T (update_peak s1 r) r).have_cross = true ∧
        (update_cross T (update_peak s1 r) r).cross_idx = r.idx ∧
        (update_cross T (update_peak s1 r) r).cross_bytes =
          (update_cross T (update_peak s1 r) r).cur_live) ∧
      (s.have_cross = false → ¬ (T ≠ 0 ∧ T ≤ (update_cross T (update_peak s1 r) r).cur_live) →
        (update_cross T (update_peak s1 r) r).have_cross = false))
    unfold update_cross
    split_ifs with hc
    · obtain ⟨c1, c2, c3⟩ := hc
      rw [g1, f1] at c2
      refine ⟨fun ht => ?_, fun _ _ _ => ⟨rfl, rfl, rfl⟩, fun hf hn => ?_⟩
      · rw [ht] at c2; exact Bool.noConfusion c2
      · exact absurd ⟨c1, c3⟩ hn
    · refine ⟨fun ht => ?_, fun hf h0 hge => ?_, fun hf _ => ?_⟩
      · exact ⟨by rw [g1, f1]; exact ht, by rw [g2, f2], by rw [g3, f3]⟩
      · exact absurd ⟨h0, by rw [g1, f1]; exact hf, hge⟩ hc
      · rw [g1, f1]; exact hf

/-- The crossing record of a reached state names the earliest prefix whose
replay leaves `cur_live` at or above the threshold. -/
theorem cross_inv (T : Nat) (hT : T ≠ 0) : ∀ rows s, replay T rows = some s →
    (s.have_cross = false → ∀ n sn, n < rows.length →
      replay T (rows.take (n + 1)) = some sn → sn.cur_live < T) ∧
    (s.have_cross = true → ∃ n sn row, rows[n]? = some row ∧
      replay T (rows.take (n + 1)) = some sn ∧ T ≤ sn.cur_live ∧
      (∀ m sm, m < n → replay T (rows.take (m + 1)) = some sm → sm.cur_live < T) ∧
      s.cross_idx = row.idx ∧ s.cross_bytes = sn.cur_live) := by
  apply replay_induction
  · constructor
    · intro _ n sn hn; simp at hn
    · intro h; simp [init] at h
  · intro l s r s' hl ih hstep
    obtain ⟨ih1, ih2⟩ := ih
    obtain ⟨c1, c2, c3⟩ := step_cross T s s' r hstep
    have hfull : replay T (l ++ [r]) = some s' := by rw [replay_append, hl]; exact hstep
    have htake : ∀ n, n < l.length → (l ++ [r]).take (n + 1) = l.take (n + 1) :=
      fun n hn => List.take_append_of_le_length (by omega)
    have htake' : (l ++ [r]).take (l.length + 1) = l ++ [r] :=
      List.take_of_length_le (by simp)
    cases hcs : s.have_cross with
    | true =>
      obtain ⟨d1, d2, d3⟩ := c1 hcs
      constructor
      · intro hf; rw [d1] at hf; exact Bool.noConfusion hf
      · intro _
        obtain ⟨n, sn, row, e1, e2, e3, e4, e5, e6⟩ := ih2 hcs
        have hn : n < l.length := by
          rcases Nat.lt_or_ge n l.length with h | h
          · exact h
          · rw [List.getElem?_eq_none h] at e1; exact absurd e1 (by simp)
        refine ⟨n, sn, row, ?_, ?_, e3, ?_, by rw [d2]; exact e5, by rw [d3]; exact e6⟩
        · rw [List.getElem?_append_left hn]; exact e1
        · rw [htake n hn]; exact e2
        · intro m sm hm hr
          rw [htake m (by omega)] at hr
          exact e4 m sm hm hr
    | false =>
      by_cases hge : T ≤ s'.cur_live
      · obtain ⟨d1, d2, d3⟩ := c2 hcs hT hge
        constructor
        · intro hf; rw [d1] at hf; exact Bool.noConfusion hf
        · intro _
          refine ⟨l.length, s', r, List.getElem?_concat_length l r, ?_, hge, ?_, d2, d3⟩
          · rw [htake']; exact hfull
          · intro m sm hm hr
            rw [htake m hm] at hr
            exact ih1 hcs m sm hm hr
      · have d := c3 hcs (fun h => hge h.2)
        constructor
        · intro _ n sn hn hr
          simp only [List.length_append, List.length_singleton] at hn
          rcases Nat.lt_or_ge n l.length with h | h
          · rw [htake n h] at hr
            exact ih1 hcs n sn h hr
          · have : n = l.length := by omega
            subst this
            rw [htake', hfull] at hr
            cases hr
            omega
        · intro ht; rw [d] at ht; exact Bool.noConfusion ht

end Analyze


namespace Analyze

theorem cmp_peak_desc_le {κ : Type} (a b : Peak κ) : cmp_peak_desc a b ≤ 0 ↔ a.peak ≥ b.peak := by
  unfold cmp_peak_desc; split_ifs <;> omega

theorem cut_top_prefix {α : Type} (top : Int) (v : List α) : cut_top top v <+: v := by
  unfold cut_top; split_ifs
  · exact List.take_prefix _ _
  · exact List.prefix_refl _

theorem cut_top_length {α : Type} (top : Int) (v : List α) :
    (cut_top top v).length = if top > 0 then min top.toNat v.length else v.length := by
  unfold cut_top; split_ifs <;> simp <;> omega

/-- The rows of a top table: a prefix of a permutation of the statistics
that is ordered by non-increasing peak. -/
theorem top_rows_sorted {κ : Type} (st : List (Stat κ)) (top : Int) :
    ∃ l, List.Perm l (st.map to_peak) ∧ List.Pairwise (fun a b => a.peak ≥ b.peak) l ∧
      cut_top top (qsort cmp_peak_desc (st.map to_peak)) <+: l ∧
      (cut_top top (qsort cmp_peak_desc (st.map to_peak))).length =
        if top > 0 then min top.toNat st.length else st.length := by
  refine ⟨qsort cmp_peak_desc (st.map to_peak), qsort_perm _ _, ?_, cut_top_prefix _ _, ?_⟩
  · refine List.Pairwise.imp (fun h => (cmp_peak_desc_le _ _).1 h) (qsort_pairwise _ ?_ ?_ _)
    · intro x y; rw [cmp_peak_desc_le, cmp_peak_desc_le]; omega
    · intro x y z; rw [cmp_peak_desc_le, cmp_peak_desc_le, cmp_peak_desc_le]; omega
  · rw [cut_top_length, (qsort_perm _ _).length_eq, List.length_map]

theorem upd_ids {κ : Type} [DecidableEq κ] (f : Stat κ → Stat κ)
    (hf : ∀ t, (f t).id = t.id) (id : κ) : ∀ v : List (Stat κ),
    (modify_at f (get_stat v id).1 (get_stat v id).2).map Stat.id =
      if id ∈ v.map Stat.id then v.map Stat.id else v.map Stat.id ++ [id] := by
  intro v
  induction v with
  | nil => rw [upd_nil]; simp [hf]
  | cons t rest ih =>
    by_cases h : t.id = id
    · rw [upd_cons_eq f t rest id h]
      simp [hf, h]
    · rw [upd_cons_ne f t rest id h]
      have h' : ¬ id = t.id := fun e => h e.symm
      simp only [List.map_cons, ih, List.mem_cons, h', false_or]
      split_ifs <;> simp

theorem upd_nodup {κ : Type} [DecidableEq κ] (f : Stat κ → Stat κ)
    (hf : ∀ t, (f t).id = t.id) (id : κ) (v : List (Stat κ)) (h : (v.map Stat.id).Nodup) :
    ((modify_at f (get_stat v id).1 (get_stat v id).2).map Stat.id).Nodup := by
  rw [upd_ids f hf]
  split_ifs with hm
  · exact h
  · exact List.Nodup.append h (List.nodup_singleton _) (by
      intro x hx hx'
      simp only [List.mem_singleton] at hx'
      exact hm (hx' ▸ hx))

theorem stat_get_of_mem {κ : Type} [DecidableEq κ] : ∀ (v : List (Stat κ)) (t : Stat κ),
    (v.map Stat.id).Nodup → t ∈ v → stat_get v t.id = t := by
  intro v
  induction v with
  | nil => intro t _ h; simp at h
  | cons a rest ih =>
    intro t hn hm
    simp only [List.map_cons, List.nodup_cons] at hn
    simp only [stat_get]
    rcases List.mem_cons.1 hm with rfl | hm'
    · simp
    · have : a.id ≠ t.id := fun e => hn.1 (e ▸ List.mem_map_of_mem _ hm')
      rw [if_neg this]
      exact ih t hn.2 hm'

/-- In a reached state no two statistics elements share an id. -/
theorem stats_nodup (T : Nat) : ∀ rows s, replay T rows = some s →
    (s.tstats.map Stat.id).Nodup ∧ (s.rstats.map Stat.id).Nodup := by
  apply replay_induction
  · simp [init]
  · intro l s r s' _ ih hstep
    have hadd : ∀ (s2 s3 : Replay), add_new s2 r = some s3 →
        ((s2.tstats.map Stat.id).Nodup ∧ (s2.rstats.map Stat.id).Nodup) →
        ((s3.tstats.map Stat.id).Nodup ∧ (s3.rstats.map Stat.id).Nodup) := by
      intro s2 s3 h hn
      obtain ⟨-, -, -, -, -, -, -, -, -, -, -, -, -, ht, hr⟩ := add_new_frame s2 s3 r h
      rw [ht, hr]
      exact ⟨upd_nodup _ (stat_add_id _ _) _ _ hn.1, upd_nodup _ (stat_add_id _ _) _ _ hn.2⟩
    have hrem : ∀ (s2 s3 : Replay), remove_old s2 r = some s3 →
        ((s2.tstats.map Stat.id).Nodup ∧ (s2.rstats.map Stat.id).Nodup) →
        ((s3.tstats.map Stat.id).Nodup ∧ (s3.rstats.map Stat.id).Nodup) := by
      intro s2 s3 h hn
      obtain ⟨-, -, -, -, -, -, -, -, -, -, -, -, hc⟩ := remove_old_frame s2 s3 r h
      rcases hc with rfl | ⟨m, old, -, rfl⟩
      · exact hn
      · exact ⟨upd_nodup _ (stat_sub_id _) _ _ hn.1, upd_nodup _ (stat_sub_id _) _ _ hn.2⟩
    unfold step at hstep
    cases hop : apply_op (push_series s r) r with
    | none => rw [hop] at hstep; simp at hstep
    | some s1 =>
      rw [hop] at hstep
      simp only [Option.some.injEq] at hstep
      subst hstep
      obtain ⟨-, -, p3, p4, -, -, -, -⟩ := post_fields T s1 r
      show ((update_cross T (update_peak s1 r) r).tstats.map Stat.id).Nodup ∧
        ((update_cross T (update_peak s1 r) r).rstats.map Stat.id).Nodup
      rw [p3, p4]
      have base : ((push_series s r).tstats.map Stat.id).Nodup ∧
          ((push_series s r).rstats.map Stat.id).Nodup := ih
      unfold apply_op at hop
      split_ifs at hop
      · exact hadd _ _ hop base
      · cases h1 : remove_old (push_series s r) r with
        | none => rw [h1] at hop; simp at hop
        | some s2 =>
          rw [h1] at hop
          exact hadd _ _ hop (hrem _ _ h1 base)
      · exact hrem _ _ hop base
      · simp only [Option.some.injEq] at hop
        subst hop
        exact base

/-- After one loop body each peak is either what it was or the new current value. -/
theorem step_peak_attained (T : Nat) (s s' : Replay) (r : Row) (h : step T s r = some s') :
    (∀ id, (stat_get s'.tstats id).peak = (stat_get s.tstats id).peak ∨
      (stat_get s'.tstats id).peak = (stat_get s'.tstats id).cur) ∧
    (∀ id, (stat_get s'.rstats id).peak = (stat_get s.rstats id).peak ∨
      (stat_get s'.rstats id).peak = (stat_get s'.rstats id).cur) := by
  have hadd : ∀ (s2 s3 : Replay), add_new s2 r = some s3 →
      (∀ id, ((stat_get s3.tstats id).peak = (stat_get s2.tstats id).peak ∧ id ≠ r.tid) ∨
        (stat_get s3.tstats id).peak = (stat_get s2.tstats id).peak ∧ id = r.tid ∨
        (stat_get s3.tstats id).peak = (stat_get s3.tstats id).cur) ∧
      (∀ id, ((stat_get s3.rstats id).peak = (stat_get s2.rstats id).peak ∧ id ≠ r.ra) ∨
        (stat_get s3.rstats id).peak = (stat_get s2.rstats id).peak ∧ id = r.ra ∨
        (stat_get s3.rstats id).peak = (stat_get s3.rstats id).cur) := by
    intro s2 s3 h
    obtain ⟨-, -, -, -, -, -, -, -, -, -, -, -, -, ht, hr⟩ := add_new_frame s2 s3 r h
    constructor
    · intro id
      rw [ht, stat_get_upd _ (stat_add_id _ _)]
      split_ifs with e
      · right
        unfold stat_add
        split_ifs
        · right; rfl
        · left; exact ⟨by rw [e], e⟩
      · left; exact ⟨rfl, e⟩
    · intro id
      rw [hr, stat_get_upd _ (stat_add_id _ _)]
      split_ifs with e
      · right
        unfold stat_add
        split_ifs
        · right; rfl
        · left; exact ⟨by rw [e], e⟩
      · left; exact ⟨rfl, e⟩
  have hrem : ∀ (s2 s3 : Replay), remove_old s2 r = some s3 →
      (∀ id, (stat_get s3.tstats id).peak = (stat_get s2.tstats id).peak) ∧
      (∀ id, (stat_get s3.rstats id).peak = (stat_get s2.rstats id).peak) := by
    intro s2 s3 h
    obtain ⟨-, -, -, -, -, -, -, -, -, -, -, -, hc⟩ := remove_old_frame s2 s3 r h
    rcases hc with rfl | ⟨m, old, -, rfl⟩
    · exact ⟨fun _ => rfl, fun _ => rfl⟩
    · constructor
      · intro id
        simp only [sub_old]
        rw [stat_get_upd _ (stat_sub_id _)]
        split_ifs with e
        · rw [e, (stat_sub_peak _ _).1]
        · rfl
      · intro id
        simp only [sub_old]
        rw [stat_get_upd _ (stat_sub_id _)]
        split_ifs with e
        · rw [e, (stat_sub_peak _ _).1]
        · rfl
  unfold step at h
  cases hop : apply_op (push_series s r) r with
  | none => rw [hop] at h; simp at h
  | some s1 =>
    rw [hop] at h
    simp only [Option.some.injEq] at h
    subst h
    obtain ⟨-, -, p3, p4, -, -, -, -⟩ := post_fields T s1 r
    show (∀ id, (stat_get (update_cross T (update_peak s1 r) r).tstats id).peak =
          (stat_get s.tstats id).peak ∨
        (stat_get (update_cross T (update_peak s1 r) r).tstats id).peak =
          (stat_get (update_cross T (update_peak s1 r) r).tstats id).cur) ∧
      (∀ id, (stat_get (update_cross T (update_peak s1 r) r).rstats id).peak =
          (stat_get s.rstats id).peak ∨
        (stat_get (update_cross T (update_peak s1 r) r).rstats id).peak =
          (stat_get (update_cross T (update_peak s1 r) r).rstats id).cur)
    rw [p3, p4]
    have bt : (push_series s r).tstats = s.tstats := rfl
    have br : (push_series s r).rstats = s.rstats := rfl
    unfold apply_op at hop
    split_ifs at hop
    · obtain ⟨a, b⟩ := hadd _ _ hop
      rw [bt] at a
      rw [br] at b
      exact ⟨fun id => by rcases a id with h | h | h <;> tauto,
             fun id => by rcases b id with h | h | h <;> tauto⟩
    · cases h1 : remove_old (push_series s r) r with
      | none => rw [h1] at hop; simp at hop
      | some s2 =>
        rw [h1] at hop
        obtain ⟨a, b⟩ := hadd _ _ hop
        obtain ⟨c, d⟩ := hrem _ _ h1
        rw [bt] at c
        rw [br] at d
        constructor
        · intro id
          rcases a id with h | h | h
          · left; rw [h.1, c id]
          · left; rw [h.1, c id]
          · right; exact h
        · intro id
          rcases b id with h | h | h
          · left; rw [h.1, d id]
          · left; rw [h.1, d id]
          · right; exact h
    · obtain ⟨c, d⟩ := hrem _ _ hop
      rw [bt] at c
      rw [br] at d
      exact ⟨fun id => Or.inl (c id), fun id => Or.inl (d id)⟩
    · simp only [Option.some.injEq] at hop
      subst hop
      exact ⟨fun _ => Or.inl rfl, fun _ => Or.inl rfl⟩

/-- Each peak of a reached state is the largest current value its id had
after any prefix of the rows. -/
theorem peak_is_max (T : Nat) : ∀ rows s, replay T rows = some s →
    (∀ id, (∀ n sn, replay T (rows.take n) = some sn →
        (stat_get sn.tstats id).cur ≤ (stat_get s.tstats id).peak) ∧
      (∃ n sn, replay T (rows.take n) = some sn ∧
        (stat_get sn.tstats id).cur = (stat_get s.tstats id).peak)) ∧
    (∀ id, (∀ n sn, replay T (rows.take n) = some sn →
        (stat_get sn.rstats id).cur ≤ (stat_get s.rstats id).peak) ∧
      (∃ n sn, replay T (rows.take n) = some sn ∧
        (stat_get sn.rstats id).cur = (stat_get s.rstats id).peak)) := by
  apply replay_induction
  · constructor
    · intro id
      constructor
      · intro n sn h
        simp only [List.take_nil] at h
        cases h
        simp [init, stat_get]
      · exact ⟨0, init, rfl, by simp [init, stat_get]⟩
    · intro id
      constructor
      · intro n sn h
        simp only [List.take_nil] at h
        cases h
        simp [init, stat_get]
      · exact ⟨0, init, rfl, by simp [init, stat_get]⟩
  · intro l s r s' hl ih hstep
    have hfull : replay T (l ++ [r]) = some s' := by rw [replay_append, hl]; exact hstep
    obtain ⟨-, -, i3, i4⟩ := reach_inv T _ s' hfull
    obtain ⟨m1, m2⟩ := step_stats T s s' r hstep
    obtain ⟨a1, a2⟩ := step_peak_attained T s s' r hstep
    have htake : ∀ n, n ≤ l.length → (l ++ [r]).take n = l.take n :=
      fun n hn => List.take_append_of_le_length hn
    have htake' : ∀ n, l.length < n → (l ++ [r]).take n = l ++ [r] :=
      fun n hn => List.take_of_length_le (by simp; omega)
    constructor
    · intro id
      constructor
      · intro n sn h
        rcases Nat.lt_or_ge l.length n with hn | hn
        · rw [htake' n hn, hfull] at h
          cases h
          exact i3 id
        · rw [htake n hn] at h
          exact Nat.le_trans ((ih.1 id).1 n sn h) (m1 id)
      · rcases a1 id with e | e
        · obtain ⟨n, sn, h1, h2⟩ := (ih.1 id).2
          rcases Nat.lt_or_ge l.length n with hn | hn
          · rw [List.take_of_length_le (by omega), hl] at h1
            cases h1
            refine ⟨l.length, s, ?_, ?_⟩
            · rw [htake _ (Nat.le_refl _), List.take_of_length_le (Nat.le_refl _)]
              exact hl
            · rw [e]; exact h2
          · refine ⟨n, sn, ?_, ?_⟩
            · rw [htake n hn]; exact h1
            · rw [e]; exact h2
        · refine ⟨l.length + 1, s', ?_, e.symm⟩
          rw [htake' _ (by omega)]; exact hfull
    · intro id
      constructor
      · intro n sn h
        rcases Nat.lt_or_ge l.length n with hn | hn
        · rw [htake' n hn, hfull] at h
          cases h
          exact i4 id
        · rw [htake n hn] at h
          exact Nat.le_trans ((ih.2 id).1 n sn h) (m2 id)
      · rcases a2 id with e | e
        · obtain ⟨n, sn, h1, h2⟩ := (ih.2 id).2
          rcases Nat.lt_or_ge l.length n with hn | hn
          · rw [List.take_of_length_le (by omega), hl] at h1
            cases h1
            refine ⟨l.length, s, ?_, ?_⟩
            · rw [htake _ (Nat.le_refl _), List.take_of_length_le (Nat.le_refl _)]
              exact hl
            · rw [e]; exact h2
          · refine ⟨n, sn, ?_, ?_⟩
            · rw [htake n hn]; exact h1
            · rw [e]; exact h2
        · refine ⟨l.length + 1, s', ?_, e.symm⟩
          rw [htake' _ (by omega)]; exact hfull

end Analyze


namespace Analyze

/-- C7: the rows of `write_top_tids` and `write_top_sites` are a prefix (of
length `min top n`, all rows for `top ≤ 0`) of a permutation of the statistics
ordered by non-increasing peak, and the peak of every statistics element is
the largest current value its thread / call site had after any prefix of the
rows (not the end-of-trace value). -/
theorem top_tables_by_peak (T : Nat) (top : Int) (rows : List Row) (s : Replay)
    (h : replay T rows = some s) :
    (∃ l, List.Perm l (s.tstats.map to_peak) ∧
      List.Pairwise (fun a b => a.peak ≥ b.peak) l ∧ write_top_tids s.tstats top <+: l ∧
      (write_top_tids s.tstats top).length =
        if top > 0 then min top.toNat s.tstats.length else s.tstats.length) ∧
    (∃ l, List.Perm l (s.rstats.map to_peak) ∧
      List.Pairwise (fun a b => a.peak ≥ b.peak) l ∧ write_top_sites s.rstats top <+: l ∧
      (write_top_sites s.rstats top).length =
        if top > 0 then min top.toNat s.rstats.length else s.rstats.length) ∧
    (∀ t ∈ s.tstats,
      (∀ n sn, replay T (rows.take n) = some sn → (stat_get sn.tstats t.id).cur ≤ t.peak) ∧
      (∃ n sn, replay T (rows.take n) = some sn ∧ (stat_get sn.tstats t.id).cur = t.peak)) ∧
    (∀ t ∈ s.rstats,
      (∀ n sn, replay T (rows.take n) = some sn → (stat_get sn.rstats t.id).cur ≤ t.peak) ∧
      (∃ n sn, replay T (rows.take n) = some sn ∧ (stat_get sn.rstats t.id).cur = t.peak)) := by
  obtain ⟨n1, n2⟩ := stats_nodup T rows s h
  obtain ⟨p1, p2⟩ := peak_is_max T rows s h
  refine ⟨top_rows_sorted s.tstats top, top_rows_sorted s.rstats top, ?_, ?_⟩
  · intro t ht
    have := p1 t.id
    rw [stat_get_of_mem s.tstats t n1 ht] at this
    exact this
  · intro t ht
    have := p2 t.id
    rw [stat_get_of_mem s.rstats t n2 ht] at this
    exact this

/-- C7 on the sample log: thread 1 allocates 100 bytes and frees them, thread 2
allocates 50 bytes and keeps them; thread 1 (peak 100, end 0) is listed first. -/
theorem top_tables_by_peak_witness :
    write_top_tids (Option.get (replay 0 [mk_row 0 "malloc" 16 100 1 7,
        mk_row 1 "free" 16 0 1 7, mk_row 2 "malloc" 32 50 2 7]) (by decide)).tstats 50 =
      [{ id := 1, peak := 100, idx := 0, ts_ns := 0, wall_time := "" },
       { id := 2, peak := 50, idx := 2, ts_ns := 0, wall_time := "" }] ∧
    (stat_get (Option.get (replay 0 [mk_row 0 "malloc" 16 100 1 7,
        mk_row 1 "free" 16 0 1 7, mk_row 2 "malloc" 32 50 2 7]) (by decide)).tstats 1).cur = 0 ∧
    (∃ l, List.Perm l ((Option.get (replay 0 [mk_row 0 "malloc" 16 100 1 7,
          mk_row 1 "free" 16 0 1 7, mk_row 2 "malloc" 32 50 2 7])
          (by decide)).tstats.map to_peak) ∧
      List.Pairwise (fun a b => a.peak ≥ b.peak) l ∧
      write_top_tids (Option.get (replay 0 [mk_row 0 "malloc" 16 100 1 7,
          mk_row 1 "free" 16 0 1 7, mk_row 2 "malloc" 32 50 2 7]) (by decide)).tstats 50 <+: l ∧
      (write_top_tids (Option.get (replay 0 [mk_row 0 "malloc" 16 100 1 7,
          mk_row 1 "free" 16 0 1 7, mk_row 2 "malloc" 32 50 2 7]) (by decide)).tstats 50).length =
        if (50 : Int) > 0 then min (50 : Int).toNat
            (Option.get (replay 0 [mk_row 0 "malloc" 16 100 1 7,
              mk_row 1 "free" 16 0 1 7, mk_row 2 "malloc" 32 50 2 7]) (by decide)).tstats.length
          else (Option.get (replay 0 [mk_row 0 "malloc" 16 100 1 7,
              mk_row 1 "free" 16 0 1 7, mk_row 2 "malloc" 32 50 2 7])
              (by decide)).tstats.length) :=
  ⟨by decide, by decide,
   (top_tables_by_peak 0 50 [mk_row 0 "malloc" 16 100 1 7, mk_row 1 "free" 16 0 1 7,
      mk_row 2 "malloc" 32 50 2 7] _ (Option.some_get _).symm).1⟩

/-- C8, the code at the failing input: three points whose last two carry the
same `idx`, budget 2.  The loop writes points 0 and 1, the final test
compares `idxs[2]` with `idxs[1]`, finds them equal, and the last point (the
one with `ts_ns = 30`) is not written. -/
theorem timeseries_drops_last :
    write_timeseries exact_ops
        [{ idx := 0, ts_ns := 10, wall_time := "", value := 0 },
         { idx := 1, ts_ns := 20, wall_time := "", value := 100 },
         { idx := 1, ts_ns := 30, wall_time := "", value := 150 }] 2 =
      some [{ idx := 0, ts_ns := 10, wall_time := "", value := 0 },
            { idx := 1, ts_ns := 20, wall_time := "", value := 100 }] := by
  decide

end Analyze


namespace Analyze

theorem mod_wrap (N x : Nat) (hx : x < 2 * N) : x % N = if x < N then x else x - N := by
  split_ifs with h
  · exact Nat.mod_eq_of_lt h
  · rw [Nat.mod_eq_sub_mod (by omega), Nat.mod_eq_of_lt (by omega)]

theorem cap_and (m : LiveMap) (hc : CapOk m) (x : Nat) : x &&& (m.cap - 1) = x % m.cap := by
  obtain ⟨p, hp⟩ := hc
  rw [hp, Nat.and_pow_two_sub_one_eq_mod]

theorem cap_pos (m : LiveMap) (hc : CapOk m) : 0 < m.cap := by
  obtain ⟨p, hp⟩ := hc
  rw [hp]; exact Nat.pos_pow_of_pos p (by decide)

theorem probe_succ (N i d : Nat) : ((i + 1) % N + d) % N = (i + (d + 1)) % N := by
  rw [Nat.mod_add_mod]; congr 1; omega

theorem probe_inj (N h d d' : Nat) (hh : h < N) (hd : d < N) (hd' : d' < N)
    (e : (h + d) % N = (h + d') % N) : d = d' := by
  rw [mod_wrap N (h + d) (by omega), mod_wrap N (h + d') (by omega)] at e
  split_ifs at e <;> omega

theorem probe_surj (N h x : Nat) (hh : h < N) (hx : x < N) : ∃ d, d < N ∧ (h + d) % N = x := by
  by_cases hle : h ≤ x
  · exact ⟨x - h, by omega, by rw [mod_wrap N _ (by omega)]; split_ifs <;> omega⟩
  · exact ⟨x + N - h, by omega, by rw [mod_wrap N _ (by omega)]; split_ifs <;> omega⟩

theorem skip_zero (a : Nat → LiveEnt) (N key h : Nat) : Skip a N key h 0 :=
  fun _ hd => absurd hd (Nat.not_lt_zero _)

theorem skip_succ (a : Nat → LiveEnt) (N key i d : Nat) (hi : i < N)
    (h0 : (a i).used = true ∧ (a i).key_ptr ≠ key) (h : Skip a N key ((i + 1) % N) d) :
    Skip a N key i (d + 1) := by
  intro d' hd'
  cases d' with
  | zero => simpa [Nat.mod_eq_of_lt hi] using h0
  | succ e =>
    have := h e (by omega)
    rw [probe_succ] at this
    exact this

/-- What the probe loop of `live_find` returns. -/
theorem find_loop_spec (m : LiveMap) (hc : CapOk m) (key : Nat) : ∀ fuel i, i < m.cap →
    (∃ d, d < fuel ∧ Skip m.a m.cap key i d ∧ (m.a ((i + d) % m.cap)).used = false ∧
      live_find_loop m key fuel i = none) ∨
    (∃ d, d < fuel ∧ Skip m.a m.cap key i d ∧ (m.a ((i + d) % m.cap)).used = true ∧
      (m.a ((i + d) % m.cap)).key_ptr = key ∧
      live_find_loop m key fuel i = some ((i + d) % m.cap)) ∨
    (Skip m.a m.cap key i fuel ∧ live_find_loop m key fuel i = none) := by
  intro fuel
  induction fuel with
  | zero => intro i _; exact Or.inr (Or.inr ⟨skip_zero _ _ _ _, rfl⟩)
  | succ fuel ih =>
    intro i hi
    have hi0 : (i + 0) % m.cap = i := by simp [Nat.mod_eq_of_lt hi]
    unfold live_find_loop
    by_cases hu : (m.a i).used = false
    · left
      exact ⟨0, by omega, skip_zero _ _ _ _, by rw [hi0]; exact hu, by rw [if_pos hu]⟩
    · have hu' : (m.a i).used = true := by simpa using hu
      by_cases hk : (m.a i).key_ptr = key
      · right; left
        exact ⟨0, by omega, skip_zero _ _ _ _, by rw [hi0]; exact hu', by rw [hi0]; exact hk,
          by rw [if_neg hu, if_pos hk, hi0]⟩
      · rw [if_neg hu, if_neg hk, cap_and m hc]
        have hi' : (i + 1) % m.cap < m.cap := Nat.mod_lt _ (cap_pos m hc)
        rcases ih ((i + 1) % m.cap) hi' with ⟨d, hd, hs, h1, h2⟩ | ⟨d, hd, hs, h1, h2, h3⟩ | ⟨hs, h2⟩
        · left
          refine ⟨d + 1, by omega, skip_succ _ _ _ _ _ hi ⟨hu', hk⟩ hs, ?_, h2⟩
          rw [← probe_succ m.cap i d]; exact h1
        · right; left
          refine ⟨d + 1, by omega, skip_succ _ _ _ _ _ hi ⟨hu', hk⟩ hs, ?_, ?_, ?_⟩
          · rw [← probe_succ m.cap i d]; exact h1
          · rw [← probe_succ m.cap i d]; exact h2
          · rw [← probe_succ m.cap i d]; exact h3
        · right; right
          exact ⟨skip_succ _ _ _ _ _ hi ⟨hu', hk⟩ hs, h2⟩

/-- What the probe loop of `live_upsert` returns. -/
theorem upsert_loop_spec (m : LiveMap) (hc : CapOk m) (key : Nat) : ∀ fuel i, i < m.cap →
    (∃ d, d < fuel ∧ Skip m.a m.cap key i d ∧ (m.a ((i + d) % m.cap)).used = false ∧
      live_upsert_loop m key fuel i =
        ({ m with a := set_slot m.a ((i + d) % m.cap)
                    (claim_ent (m.a ((i + d) % m.cap)) key),
                  cnt := (m.cnt + 1) % U64 }, some ((i + d) % m.cap))) ∨
    (∃ d, d < fuel ∧ Skip m.a m.cap key i d ∧ (m.a ((i + d) % m.cap)).used = true ∧
      (m.a ((i + d) % m.cap)).key_ptr = key ∧
      live_upsert_loop m key fuel i = (m, some ((i + d) % m.cap))) ∨
    (Skip m.a m.cap key i fuel ∧ live_upsert_loop m key fuel i = (m, none)) := by
  intro fuel
  induction fuel with
  | zero => intro i _; exact Or.inr (Or.inr ⟨skip_zero _ _ _ _, rfl⟩)
  | succ fuel ih =>
    intro i hi
    have hi0 : (i + 0) % m.cap = i := by simp [Nat.mod_eq_of_lt hi]
    unfold live_upsert_loop
    by_cases hu : (m.a i).used = false
    · left
      exact ⟨0, by omega, skip_zero _ _ _ _, by rw [hi0]; exact hu, by rw [if_pos hu, hi0]⟩
    · have hu' : (m.a i).used = true := by simpa using hu
      by_cases hk : (m.a i).key_ptr = key
      · right; left
        exact ⟨0, by omega, skip_zero _ _ _ _, by rw [hi0]; exact hu', by rw [hi0]; exact hk,
          by rw [if_neg hu, if_pos hk, hi0]⟩
      · rw [if_neg hu, if_neg hk, cap_and m hc]
        have hi' : (i + 1) % m.cap < m.cap := Nat.mod_lt _ (cap_pos m hc)
        rcases ih ((i + 1) % m.cap) hi' with ⟨d, hd, hs, h1, h2⟩ | ⟨d, hd, hs, h1, h2, h3⟩ | ⟨hs, h2⟩
        · left
          refine ⟨d + 1, by omega, skip_succ _ _ _ _ _ hi ⟨hu', hk⟩ hs, ?_, ?_⟩
          · rw [← probe_succ m.cap i d]; exact h1
          · rw [← probe_succ m.cap i d]; exact h2
        · right; left
          refine ⟨d + 1, by omega, skip_succ _ _ _ _ _ hi ⟨hu', hk⟩ hs, ?_, ?_, ?_⟩
          · rw [← probe_succ m.cap i d]; exact h1
          · rw [← probe_succ m.cap i d]; exact h2
          · rw [← probe_succ m.cap i d]; exact h3
        · right; right
          exact ⟨skip_succ _ _ _ _ _ hi ⟨hu', hk⟩ hs, h2⟩

end Analyze


namespace Analyze

theorem set_slot_same (a : Nat → LiveEnt) (i : Nat) (e : LiveEnt) : set_slot a i e i = e := by
  simp [set_slot]

theorem set_slot_ne (a : Nat → LiveEnt) (i j : Nat) (e : LiveEnt) (h : j ≠ i) :
    set_slot a i e j = a j := by
  simp [set_slot, h]

theorem set_slot_twice (a : Nat → LiveEnt) (i : Nat) (e e' : LiveEnt) :
    set_slot (set_slot a i e) i e' = set_slot a i e' := by
  funext j; simp only [set_slot]; split_ifs <;> rfl

theorem set_slot_self (a : Nat → LiveEnt) (i : Nat) : set_slot a i (a i) = a := by
  funext j; simp only [set_slot]; split_ifs with h
  · rw [h]
  · rfl

/-- In a table with probe-sequence continuity two used slots hold different keys. -/
theorem keys_unique (a : Nat → LiveEnt) (N : Nat)
    (hf : ∀ s, s < N → (a s).used = true → Found a N s) (s1 s2 : Nat) (h1 : s1 < N)
    (h2 : s2 < N) (u1 : (a s1).used = true) (u2 : (a s2).used = true)
    (hk : (a s1).key_ptr = (a s2).key_ptr) : s1 = s2 := by
  obtain ⟨d1, hd1, e1, k1⟩ := hf s1 h1 u1
  obtain ⟨d2, hd2, e2, k2⟩ := hf s2 h2 u2
  rw [hk] at e1 k1
  rcases Nat.lt_trichotomy d1 d2 with h | h | h
  · have := (k2 d1 h).2
    rw [e1] at this
    exact absurd hk this
  · rw [h] at e1; exact e1.symm.trans e2
  · have := (k1 d2 h).2
    rw [e2] at this
    exact absurd rfl this

/-- `live_find` returns only used slots below `cap` that hold the key. -/
theorem find_sound (m : LiveMap) (hc : CapOk m) (key s : Nat) (h : live_find m key = some s) :
    s < m.cap ∧ (m.a s).used = true ∧ (m.a s).key_ptr = key := by
  have hN := cap_pos m hc
  unfold live_find at h
  rw [cap_and m hc] at h
  rcases find_loop_spec m hc key m.cap (hmix key % m.cap) (Nat.mod_lt _ hN) with
    ⟨d, _, _, _, h2⟩ | ⟨d, _, _, h1, h2, h3⟩ | ⟨_, h2⟩
  · rw [h2] at h; exact absurd h (by simp)
  · rw [h3] at h
    simp only [Option.some.injEq] at h
    rw [← h]
    exact ⟨Nat.mod_lt _ hN, h1, h2⟩
  · rw [h2] at h; exact absurd h (by simp)

/-- In a well-formed table `live_find` returns the slot of every stored key. -/
theorem find_of_used (m : LiveMap) (hw : WF m) (s : Nat) (hs : s < m.cap)
    (hu : (m.a s).used = true) : live_find m (m.a s).key_ptr = some s := by
  obtain ⟨hc, hf⟩ := hw
  have hN := cap_pos m hc
  obtain ⟨d0, hd0, e0, k0⟩ := hf s hs hu
  unfold live_find
  rw [cap_and m hc]
  rcases find_loop_spec m hc (m.a s).key_ptr m.cap (hmix (m.a s).key_ptr % m.cap)
      (Nat.mod_lt _ hN) with ⟨d, hd, hs', h1, _⟩ | ⟨d, hd, hs', h1, h2, h3⟩ | ⟨hs', _⟩
  · rcases Nat.lt_trichotomy d d0 with h | h | h
    · have := (k0 d h).1; rw [h1] at this; exact absurd this (by simp)
    · rw [h, e0, hu] at h1; exact absurd h1 (by simp)
    · have := (hs' d0 h).2; rw [e0] at this; exact absurd rfl this
  · rcases Nat.lt_trichotomy d d0 with h | h | h
    · exact absurd h2 (k0 d h).2
    · rw [h3, h, e0]
    · have := (hs' d0 h).2; rw [e0] at this; exact absurd rfl this
  · have := (hs' d0 hd0).2; rw [e0] at this; exact absurd rfl this

/-- In a well-formed table `live_find` returns `NULL` exactly for the keys no used slot holds. -/
theorem find_none_iff (m : LiveMap) (hw : WF m) (key : Nat) :
    live_find m key = none ↔ ∀ s, s < m.cap → (m.a s).used = true → (m.a s).key_ptr ≠ key := by
  constructor
  · intro h s hs hu hk
    have := find_of_used m hw s hs hu
    rw [hk, h] at this
    exact absurd this (by simp)
  · intro h
    cases hfind : live_find m key with
    | none => rfl
    | some s =>
      obtain ⟨a, b, c⟩ := find_sound m hw.1 key s hfind
      exact absurd c (h s a b)

/-- The lookup of a well-formed table is the stored entry with that key. -/
theorem lookup_iff (m : LiveMap) (hw : WF m) (key : Nat) (e : LiveEnt) :
    lookup m key = some e ↔ (Holds m.a m.cap e ∧ e.key_ptr = key) := by
  unfold lookup
  constructor
  · intro h
    cases hfind : live_find m key with
    | none => rw [hfind] at h; exact absurd h (by simp)
    | some s =>
      rw [hfind] at h
      simp only [Option.map_some', Option.some.injEq] at h
      obtain ⟨a, b, c⟩ := find_sound m hw.1 key s hfind
      exact ⟨⟨s, a, b, h⟩, by rw [← h]; exact c⟩
  · rintro ⟨⟨s, hs, hu, he⟩, hk⟩
    have := find_of_used m hw s hs hu
    rw [he, hk] at this
    rw [this]
    simp [he]

theorem lookup_none_iff (m : LiveMap) (key : Nat) :
    lookup m key = none ↔ live_find m key = none := by
  unfold lookup; cases live_find m key <;> simp

/-- Probe-sequence continuity only reads the `used` flags and the keys. -/
theorem found_congr (a a' : Nat → LiveEnt) (N s : Nat)
    (h : ∀ x, (a' x).used = (a x).used ∧ (a' x).key_ptr = (a x).key_ptr)
    (hf : Found a N s) : Found a' N s := by
  obtain ⟨d, hd, e, k⟩ := hf
  refine ⟨d, hd, by rw [(h s).2]; exact e, ?_⟩
  intro d' hd'
  rw [(h s).2, (h _).1, (h _).2]
  exact k d' hd'

/-- Filling an unused slot keeps probe-sequence continuity of every other slot. -/
theorem found_fill (a : Nat → LiveEnt) (N s p : Nat) (e : LiveEnt) (hp : (a p).used = false)
    (hsp : s ≠ p) (hf : Found a N s) : Found (set_slot a p e) N s := by
  obtain ⟨d, hd, e0, k⟩ := hf
  rw [← set_slot_ne a p s e hsp] at e0 k
  refine ⟨d, hd, e0, ?_⟩
  intro d' hd'
  have hne : (hmix (set_slot a p e s).key_ptr % N + d') % N ≠ p := by
    intro hx
    have := (k d' hd').1
    rw [hx, hp] at this
    exact absurd this (by simp)
  rw [set_slot_ne a p _ e hne]
  exact k d' hd'

/-- The entry put into the first unused slot of its probe sequence has
probe-sequence continuity. -/
theorem found_new (a : Nat → LiveEnt) (N p d : Nat) (e : LiveEnt) (hd : d < N)
    (hp : (a p).used = false) (he : (hmix e.key_ptr % N + d) % N = p)
    (hs : Skip a N e.key_ptr (hmix e.key_ptr % N) d) : Found (set_slot a p e) N p := by
  rw [Found, set_slot_same]
  refine ⟨d, hd, he, ?_⟩
  intro d' hd'
  have hne : (hmix e.key_ptr % N + d') % N ≠ p := by
    intro hx
    have := (hs d' hd').1
    rw [hx, hp] at this
    exact absurd this (by simp)
  rw [set_slot_ne a p _ e hne]
  exact hs d' hd'

theorem upsert_loop_of_find (m : LiveMap) (key s : Nat) : ∀ fuel i,
    live_find_loop m key fuel i = some s → live_upsert_loop m key fuel i = (m, some s) := by
  intro fuel
  induction fuel with
  | zero => intro i h; simp [live_find_loop] at h
  | succ fuel ih =>
    intro i h
    unfold live_find_loop at h
    unfold live_upsert_loop
    split_ifs at h ⊢ with h1 h2
    · simp only [Option.some.injEq] at h; rw [h]
    · exact ih _ h

/-- `live_upsert` of a key `live_find` finds returns that slot and changes nothing. -/
theorem upsert_present (m : LiveMap) (key s : Nat) (h : live_find m key = some s) :
    live_upsert m key = (m, some s) :=
  upsert_loop_of_find m key s _ _ h

/-- `live_upsert` of an absent key into a table with an unused slot claims the
first unused slot of the key's probe sequence. -/
theorem upsert_absent (m : LiveMap) (hw : WF m) (key u : Nat) (hn : live_find m key = none)
    (hu : u < m.cap) (huu : (m.a u).used = false) :
    ∃ p d, p < m.cap ∧ d < m.cap ∧ (m.a p).used = false ∧ (hmix key % m.cap + d) % m.cap = p ∧
      Skip m.a m.cap key (hmix key % m.cap) d ∧
      live_upsert m key =
        ({ m with a := set_slot m.a p (claim_ent (m.a p) key),
                  cnt := (m.cnt + 1) % U64 }, some p) := by
  have hc := hw.1
  have hN := cap_pos m hc
  unfold live_upsert
  rw [cap_and m hc]
  rcases upsert_loop_spec m hc key m.cap (hmix key % m.cap) (Nat.mod_lt _ hN) with
    ⟨d, hd, hs, h1, h2⟩ | ⟨d, _, _, h1, h2, _⟩ | ⟨hs, _⟩
  · exact ⟨_, d, Nat.mod_lt _ hN, hd, h1, rfl, hs, h2⟩
  · have := (find_none_iff m hw key).1 hn _ (Nat.mod_lt _ hN) h1
    exact absurd h2 this
  · obtain ⟨d, hd, e⟩ := probe_surj m.cap (hmix key % m.cap) u (Nat.mod_lt _ hN) hu
    have := (hs d hd).1
    rw [e, huu] at this
    exact absurd this (by simp)

/-- `live_upsert` returns `NULL` when every slot is used and none holds the key. -/
theorem upsert_full (m : LiveMap) (hw : WF m) (key : Nat) (hn : live_find m key = none)
    (hfull : ∀ s, s < m.cap → (m.a s).used = true) : live_upsert m key = (m, none) := by
  have hc := hw.1
  have hN := cap_pos m hc
  unfold live_upsert
  rw [cap_and m hc]
  rcases upsert_loop_spec m hc key m.cap (hmix key % m.cap) (Nat.mod_lt _ hN) with
    ⟨d, _, _, h1, _⟩ | ⟨d, _, _, h1, h2, _⟩ | ⟨_, h2⟩
  · have := hfull _ (Nat.mod_lt (hmix key % m.cap + d) hN)
    rw [h1] at this
    exact absurd this (by simp)
  · have := (find_none_iff m hw key).1 hn _ (Nat.mod_lt _ hN) h1
    exact absurd h2 this
  · exact h2

end Analyze


namespace Analyze

theorem sum_used_set_ge (a : Nat → LiveEnt) (i : Nat) (e : LiveEnt) : ∀ n, n ≤ i →
    sum_used (set_slot a i e) n = sum_used a n := by
  intro n
  induction n with
  | zero => intro _; rfl
  | succ n ih =>
    intro h
    simp only [sum_used]
    rw [ih (by omega), set_slot_ne a i n e (by omega)]

theorem sum_used_set_lt (a : Nat → LiveEnt) (i : Nat) (e : LiveEnt) : ∀ n, i < n →
    sum_used (set_slot a i e) n + (if (a i).used then (a i).size else 0) =
      sum_used a n + (if e.used then e.size else 0) := by
  intro n
  induction n with
  | zero => intro h; omega
  | succ n ih =>
    intro h
    simp only [sum_used]
    by_cases hn : i = n
    · subst hn
      rw [sum_used_set_ge a i e i (Nat.le_refl _), set_slot_same]
      omega
    · rw [set_slot_ne a i n e (fun x => hn x.symm)]
      have := ih (by omega)
      omega

theorem count_used_set_ge (a : Nat → LiveEnt) (i : Nat) (e : LiveEnt) : ∀ n, n ≤ i →
    count_used (set_slot a i e) n = count_used a n := by
  intro n
  induction n with
  | zero => intro _; rfl
  | succ n ih =>
    intro h
    simp only [count_used]
    rw [ih (by omega), set_slot_ne a i n e (by omega)]

theorem count_used_set_lt (a : Nat → LiveEnt) (i : Nat) (e : LiveEnt) : ∀ n, i < n →
    count_used (set_slot a i e) n + (if (a i).used then 1 else 0) =
      count_used a n + (if e.used then 1 else 0) := by
  intro n
  induction n with
  | zero => intro h; omega
  | succ n ih =>
    intro h
    simp only [count_used]
    by_cases hn : i = n
    · subst hn
      rw [count_used_set_ge a i e i (Nat.le_refl _), set_slot_same]
      omega
    · rw [set_slot_ne a i n e (fun x => hn x.symm)]
      have := ih (by omega)
      omega

theorem count_used_le (a : Nat → LiveEnt) : ∀ n, count_used a n ≤ n := by
  intro n
  induction n with
  | zero => exact Nat.le_refl _
  | succ n ih => simp only [count_used]; split_ifs <;> omega

/-- A table with fewer used slots than slots has an unused slot. -/
theorem exists_unused (a : Nat → LiveEnt) : ∀ n, count_used a n < n →
    ∃ u, u < n ∧ (a u).used = false := by
  intro n
  induction n with
  | zero => intro h; omega
  | succ n ih =>
    intro h
    simp only [count_used] at h
    by_cases hu : (a n).used = true
    · rw [if_pos hu] at h
      obtain ⟨u, hu1, hu2⟩ := ih (by omega)
      exact ⟨u, by omega, hu2⟩
    · exact ⟨n, by omega, by simpa using hu⟩

/-- A table whose used-slot count equals the slot count has every slot used. -/
theorem all_used_of_count (a : Nat → LiveEnt) : ∀ n, count_used a n = n →
    ∀ s, s < n → (a s).used = true := by
  intro n
  induction n with
  | zero => intro _ s hs; omega
  | succ n ih =>
    intro h s hs
    simp only [count_used] at h
    have hle := count_used_le a n
    by_cases hu : (a n).used = true
    · rw [if_pos hu] at h
      rcases Nat.lt_or_ge s n with h1 | h1
      · exact ih (by omega) s h1
      · have : s = n := by omega
        rw [this]; exact hu
    · rw [if_neg hu] at h
      omega

theorem count_used_zero (a : Nat → LiveEnt) (h : ∀ s, (a s).used = false) : ∀ n,
    count_used a n = 0 := by
  intro n
  induction n with
  | zero => rfl
  | succ n ih => simp [count_used, ih, h n]

theorem sum_used_zero (a : Nat → LiveEnt) (h : ∀ s, (a s).used = false) : ∀ n,
    sum_used a n = 0 := by
  intro n
  induction n with
  | zero => rfl
  | succ n ih => simp [sum_used, ih, h n]

/-- Taking the entry out of slot `j` and putting it into an unused slot `p`
keeps the stored entries, their sum and their number. -/
theorem move_content (a : Nat → LiveEnt) (N j p : Nat) (hj : j < N) (hp : p < N)
    (hu : (a j).used = true)
    (hpu : (set_slot a j (clear_ent (a j)) p).used = false) :
    (∀ e, Holds (set_slot (set_slot a j (clear_ent (a j))) p (a j)) N e ↔ Holds a N e) ∧
    sum_used (set_slot (set_slot a j (clear_ent (a j))) p (a j)) N = sum_used a N ∧
    count_used (set_slot (set_slot a j (clear_ent (a j))) p (a j)) N =
      count_used a N := by
  refine ⟨?_, ?_, ?_⟩
  · intro e
    constructor
    · rintro ⟨s, hs, hsu, hse⟩
      by_cases hsp : s = p
      · subst hsp
        rw [set_slot_same] at hse
        exact ⟨j, hj, hu, hse⟩
      · rw [set_slot_ne _ _ _ _ hsp] at hsu hse
        have hsj : s ≠ j := by
          intro e'
          rw [e', set_slot_same] at hsu
          exact absurd hsu (by simp [clear_ent])
        rw [set_slot_ne _ _ _ _ hsj] at hsu hse
        exact ⟨s, hs, hsu, hse⟩
    · rintro ⟨s, hs, hsu, hse⟩
      by_cases hsj : s = j
      · subst hsj
        exact ⟨p, hp, by rw [set_slot_same]; exact hu, by rw [set_slot_same]; exact hse⟩
      · have hsp : s ≠ p := by
          intro e'
          rw [← e', set_slot_ne _ _ _ _ hsj, hsu] at hpu
          exact absurd hpu (by simp)
        exact ⟨s, hs, by rw [set_slot_ne _ _ _ _ hsp, set_slot_ne _ _ _ _ hsj]; exact hsu,
          by rw [set_slot_ne _ _ _ _ hsp, set_slot_ne _ _ _ _ hsj]; exact hse⟩
  · have h1 := sum_used_set_lt a j (clear_ent (a j)) N hj
    have h2 := sum_used_set_lt (set_slot a j (clear_ent (a j))) p (a j) N hp
    rw [hpu] at h2
    have hc : (clear_ent (a j)).used = false := rfl
    rw [hc] at h1
    simp only [hu, if_true, Bool.false_eq_true, if_false] at h1 h2
    omega
  · have h1 := count_used_set_lt a j (clear_ent (a j)) N hj
    have h2 := count_used_set_lt (set_slot a j (clear_ent (a j))) p (a j) N hp
    rw [hpu] at h2
    have hc : (clear_ent (a j)).used = false := rfl
    rw [hc] at h1
    simp only [hu, if_true, Bool.false_eq_true, if_false] at h1 h2
    omega

/-- Clearing slot `j` and moving the cursor past it keeps the loop invariant. -/
theorem clear_inv (a : Nat → LiveEnt) (N j : Nat) (hj : j < N) (hk : KeysUnique a N)
    (hp : ∀ s, s < N → (a s).used = true → Found a N s ∨ InRun a N j s) :
    KeysUnique (set_slot a j (clear_ent (a j))) N ∧
    ∀ s, s < N → (set_slot a j (clear_ent (a j)) s).used = true →
      Found (set_slot a j (clear_ent (a j))) N s ∨
      InRun (set_slot a j (clear_ent (a j))) N ((j + 1) % N) s := by
  have hused : ∀ s, (set_slot a j (clear_ent (a j)) s).used = true →
      s ≠ j ∧ (a s).used = true := by
    intro s hs
    by_cases e : s = j
    · rw [e, set_slot_same] at hs; exact absurd hs (by simp [clear_ent])
    · rw [set_slot_ne _ _ _ _ e] at hs; exact ⟨e, hs⟩
  constructor
  · intro s1 s2 h1 h2 u1 u2 e
    obtain ⟨n1, u1'⟩ := hused s1 u1
    obtain ⟨n2, u2'⟩ := hused s2 u2
    rw [set_slot_ne _ _ _ _ n1, set_slot_ne _ _ _ _ n2] at e
    exact hk s1 s2 h1 h2 u1' u2' e
  · intro s hs hsu
    obtain ⟨hsj, hsu'⟩ := hused s hsu
    have hmod0 : (j + 0) % N = j := by simp [Nat.mod_eq_of_lt hj]
    rcases hp s hs hsu' with ⟨d, hd, e0, k⟩ | ⟨c, hc, e0, k⟩
    · by_cases hex : ∃ d', d' < d ∧ (hmix (a s).key_ptr % N + d') % N = j
      · right
        obtain ⟨d', hd', ej⟩ := hex
        have hh : hmix (a s).key_ptr % N < N := Nat.mod_lt _ (by omega)
        have key : ∀ c', ((j + 1) % N + c') % N = (hmix (a s).key_ptr % N + (d' + c' + 1)) % N := by
          intro c'
          rw [probe_succ, ← ej, Nat.mod_add_mod]
          congr 1; omega
        refine ⟨d - d' - 1, by omega, ?_, ?_⟩
        · rw [key]
          have : d' + (d - d' - 1) + 1 = d := by omega
          rw [this]; exact e0
        · intro c' hc'
          rw [key]
          have hne : (hmix (a s).key_ptr % N + (d' + c' + 1)) % N ≠ j := by
            intro e'
            have := probe_inj N _ (d' + c' + 1) d' hh (by omega) (by omega) (e'.trans ej.symm)
            omega
          rw [set_slot_ne _ _ _ _ hne]
          rcases Nat.lt_or_ge (d' + c' + 1) d with h | h
          · exact (k _ h).1
          · have : d' + c' + 1 = d := by omega
            rw [this, e0]; exact hsu'
      · left
        refine ⟨d, hd, by rw [set_slot_ne _ _ _ _ hsj]; exact e0, ?_⟩
        intro d' hd'
        rw [set_slot_ne _ _ _ _ hsj]
        have hne : (hmix (a s).key_ptr % N + d') % N ≠ j := fun e' => hex ⟨d', hd', e'⟩
        rw [set_slot_ne _ _ _ _ hne]
        exact k d' hd'
    · right
      have hc0 : c ≠ 0 := by
        intro e'
        rw [e', hmod0] at e0
        exact hsj e0.symm
      refine ⟨c - 1, by omega, ?_, ?_⟩
      · rw [probe_succ]
        have : c - 1 + 1 = c := by omega
        rw [this]; exact e0
      · intro c' hc'
        rw [probe_succ]
        have hne : (j + (c' + 1)) % N ≠ j := by
          intro e'
          have := probe_inj N j (c' + 1) 0 hj (by omega) (by omega) (e'.trans hmod0.symm)
          omega
        rw [set_slot_ne _ _ _ _ hne]
        exact k (c' + 1) (by omega)

/-- Filling an unused slot with a used entry keeps runs of used slots. -/
theorem inrun_fill (a : Nat → LiveEnt) (N j s p : Nat) (e : LiveEnt) (he : e.used = true)
    (h : InRun a N j s) : InRun (set_slot a p e) N j s := by
  obtain ⟨c, hc, e0, k⟩ := h
  refine ⟨c, hc, e0, ?_⟩
  intro c' hc'
  by_cases hx : (j + c') % N = p
  · rw [hx, set_slot_same]; exact he
  · rw [set_slot_ne _ _ _ _ hx]; exact k c' hc'

end Analyze


namespace Analyze

/-- One round of the migration loop at a used cursor slot: `live_upsert` of the
cleared entry's key returns a slot `p` that was unused, the entry is written
there, and the loop invariant, the stored entries and a protected unused slot
are all kept. -/
theorem shift_step (m : LiveMap) (hc : CapOk m) (j : Nat) (hinv : ShiftInv m.a m.cap j)
    (hu : (m.a j).used = true) :
    ∃ p m2, live_upsert { m with a := set_slot m.a j (clear_ent (m.a j)) } (m.a j).key_ptr =
        (m2, some p) ∧ m2.cap = m.cap ∧
      set_slot m2.a p (m.a j) = set_slot (set_slot m.a j (clear_ent (m.a j))) p (m.a j) ∧
      p < m.cap ∧ (set_slot m.a j (clear_ent (m.a j)) p).used = false ∧
      ShiftInv (set_slot (set_slot m.a j (clear_ent (m.a j))) p (m.a j)) m.cap
        ((j + 1) % m.cap) ∧
      (∀ u, Avoids m.a m.cap u →
        Avoids (set_slot (set_slot m.a j (clear_ent (m.a j))) p (m.a j)) m.cap u) := by
  obtain ⟨hj, hk, hp⟩ := hinv
  have hN := cap_pos m hc
  obtain ⟨hk1, hp1⟩ := clear_inv m.a m.cap j hj hk hp
  have hc1 : CapOk { m with a := set_slot m.a j (clear_ent (m.a j)) } := hc
  have hh : hmix (m.a j).key_ptr % m.cap < m.cap := Nat.mod_lt _ hN
  have hju : (set_slot m.a j (clear_ent (m.a j)) j).used = false := by
    rw [set_slot_same]; rfl
  have hback : ∀ x, (set_slot m.a j (clear_ent (m.a j)) x).used = true →
      x ≠ j ∧ (m.a x).used = true ∧ set_slot m.a j (clear_ent (m.a j)) x = m.a x := by
    intro x hx
    by_cases e : x = j
    · rw [e, hju] at hx; exact absurd hx (by simp)
    · rw [set_slot_ne _ _ _ _ e] at hx; exact ⟨e, hx, set_slot_ne _ _ _ _ e⟩
  have hspec := upsert_loop_spec { m with a := set_slot m.a j (clear_ent (m.a j)) } hc1
    (m.a j).key_ptr m.cap (hmix (m.a j).key_ptr % m.cap) hh
  have hups : live_upsert { m with a := set_slot m.a j (clear_ent (m.a j)) } (m.a j).key_ptr =
      live_upsert_loop { m with a := set_slot m.a j (clear_ent (m.a j)) } (m.a j).key_ptr m.cap
        (hmix (m.a j).key_ptr % m.cap) := by
    unfold live_upsert
    rw [cap_and _ hc1]
  dsimp only at hspec
  rcases hspec with ⟨d, hd, hs, h1, h2⟩ | ⟨d, _, _, h1, h2, _⟩ | ⟨hs, _⟩
  · -- the entry goes to the first unused slot of its probe sequence
    have hpN : (hmix (m.a j).key_ptr % m.cap + d) % m.cap < m.cap := Nat.mod_lt _ hN
    refine ⟨_, _, hups.trans h2, rfl, ?_, hpN, h1, ⟨Nat.mod_lt _ hN, ?_, ?_⟩, ?_⟩
    · exact set_slot_twice _ _ _ _
    · -- keys stay unique
      intro s1 s2 l1 l2 u1 u2 e
      by_cases e1 : s1 = (hmix (m.a j).key_ptr % m.cap + d) % m.cap
      · by_cases e2 : s2 = (hmix (m.a j).key_ptr % m.cap + d) % m.cap
        · rw [e1, e2]
        · rw [set_slot_ne _ _ _ _ e2] at u2 e
          rw [e1, set_slot_same] at e
          obtain ⟨n2, u2', q2⟩ := hback s2 u2
          rw [q2] at e
          exact absurd (hk j s2 hj l2 hu u2' e).symm n2
      · rw [set_slot_ne _ _ _ _ e1] at u1 e
        by_cases e2 : s2 = (hmix (m.a j).key_ptr % m.cap + d) % m.cap
        · rw [e2, set_slot_same] at e
          obtain ⟨n1, u1', q1⟩ := hback s1 u1
          rw [q1] at e
          exact absurd (hk s1 j l1 hj u1' hu e) n1
        · rw [set_slot_ne _ _ _ _ e2] at u2 e
          exact hk1 s1 s2 l1 l2 u1 u2 e
    · -- every entry has continuity or lies in the run after the cursor
      intro s ls us
      by_cases e1 : s = (hmix (m.a j).key_ptr % m.cap + d) % m.cap
      · left
        rw [e1]
        exact found_new _ m.cap _ d (m.a j) hd h1 rfl hs
      · rw [set_slot_ne _ _ _ _ e1] at us
        rcases hp1 s ls us with hf | hr
        · exact Or.inl (found_fill _ m.cap s _ (m.a j) h1 e1 hf)
        · exact Or.inr (inrun_fill _ m.cap _ s _ (m.a j) hu hr)
    · -- a protected unused slot stays protected
      rintro u ⟨lu, uu, hav⟩
      have huj : u ≠ j := by intro e; rw [e, hu] at uu; exact absurd uu (by simp)
      obtain ⟨dj, hdj, ej⟩ := probe_surj m.cap (hmix (m.a j).key_ptr % m.cap) j hh hj
      have hle : d ≤ dj := by
        rcases Nat.lt_or_ge dj d with h | h
        · have := (hs dj h).1
          rw [ej, hju] at this
          exact absurd this (by simp)
        · exact h
      have hup : u ≠ (hmix (m.a j).key_ptr % m.cap + d) % m.cap := by
        rcases Nat.lt_or_ge d dj with h | h
        · exact fun e => hav j hj hu dj hdj ej d h e.symm
        · have : d = dj := by omega
          rw [this, ej]; exact huj
      refine ⟨lu, by rw [set_slot_ne _ _ _ _ hup, set_slot_ne _ _ _ _ huj]; exact uu, ?_⟩
      intro s ls us d0 hd0 e0 d' hd'
      by_cases e1 : s = (hmix (m.a j).key_ptr % m.cap + d) % m.cap
      · rw [e1, set_slot_same] at e0 ⊢
        have hdd : d0 = d := probe_inj m.cap _ d0 d hh hd0 hd e0
        rw [hdd] at hd'
        intro e
        have := (hs d' hd').1
        rw [e] at this
        obtain ⟨_, this', _⟩ := hback u this
        rw [uu] at this'
        exact absurd this' (by simp)
      · rw [set_slot_ne _ _ _ _ e1] at us e0 ⊢
        obtain ⟨n1, u1', q1⟩ := hback s us
        rw [q1] at e0 ⊢
        exact hav s ls u1' d0 hd0 e0 d' hd'
  · -- the key cannot sit in another used slot
    obtain ⟨n1, u1', q1⟩ := hback _ h1
    rw [q1] at h2
    exact absurd (hk _ j (Nat.mod_lt _ hN) hj u1' hu h2) n1
  · -- the cleared slot itself stops the probe
    obtain ⟨dj, hdj, ej⟩ := probe_surj m.cap (hmix (m.a j).key_ptr % m.cap) j hh hj
    have := (hs dj hdj).1
    rw [ej, hju] at this
    exact absurd this (by simp)

end Analyze


namespace Analyze

/-- Whenever the migration loop returns, the table has probe-sequence
continuity everywhere and stores the same entries as before. -/
theorem shift_partial : ∀ (fuel : Nat) (m : LiveMap) (j : Nat), CapOk m →
    ShiftInv m.a m.cap j → ∀ m', live_erase_shift fuel m j = some m' →
    m'.cap = m.cap ∧
    (∀ s, s < m.cap → (m'.a s).used = true → Found m'.a m.cap s) ∧
    (∀ e, Holds m'.a m.cap e ↔ Holds m.a m.cap e) ∧
    sum_used m'.a m.cap = sum_used m.a m.cap ∧
    count_used m'.a m.cap = count_used m.a m.cap := by
  intro fuel
  induction fuel with
  | zero => intro m j _ _ m' h; simp [live_erase_shift] at h
  | succ fuel ih =>
    intro m j hc hinv m' h
    unfold live_erase_shift at h
    by_cases hu : (m.a j).used = false
    · rw [if_pos hu] at h
      simp only [Option.some.injEq] at h
      subst h
      refine ⟨rfl, ?_, fun _ => Iff.rfl, rfl, rfl⟩
      intro s hs hsu
      rcases hinv.2.2 s hs hsu with hf | ⟨c, _, _, k⟩
      · exact hf
      · have := k 0 (Nat.zero_le _)
        rw [Nat.add_zero, Nat.mod_eq_of_lt hinv.1, hu] at this
        exact absurd this (by simp)
    · have hu' : (m.a j).used = true := by simpa using hu
      obtain ⟨p, m2, hups, hcap, haeq, hpN, hpu, hinv3, -⟩ := shift_step m hc j hinv hu'
      rw [if_neg hu, hups] at h
      dsimp only at h
      rw [cap_and m hc] at h
      have hc3 : CapOk { m2 with a := set_slot m2.a p (m.a j) } := by
        obtain ⟨q, hq⟩ := hc
        exact ⟨q, by show m2.cap = 2 ^ q; rw [hcap, hq]⟩
      have hi3 : ShiftInv ({ m2 with a := set_slot m2.a p (m.a j) } : LiveMap).a
          ({ m2 with a := set_slot m2.a p (m.a j) } : LiveMap).cap ((j + 1) % m.cap) := by
        show ShiftInv (set_slot m2.a p (m.a j)) m2.cap ((j + 1) % m.cap)
        rw [haeq, hcap]; exact hinv3
      obtain ⟨r1, r2, r3, r4, r5⟩ := ih _ _ hc3 hi3 m' h
      have e3 : ({ m2 with a := set_slot m2.a p (m.a j) } : LiveMap).cap = m.cap := hcap
      have a3 : ({ m2 with a := set_slot m2.a p (m.a j) } : LiveMap).a =
          set_slot (set_slot m.a j (clear_ent (m.a j))) p (m.a j) := haeq
      rw [e3] at r1 r2 r3 r4 r5
      rw [a3] at r3 r4 r5
      obtain ⟨c1, c2, c3⟩ := move_content m.a m.cap j p hinv.1 hpN hu' hpu
      exact ⟨r1, r2, fun e => (r3 e).trans (c1 e), r4.trans c2, r5.trans c3⟩

/-- The migration loop returns within `r + 1` rounds when an unused slot that
no probe path crosses lies `r` slots after the cursor. -/
theorem shift_total : ∀ (r fuel : Nat) (m : LiveMap) (j u : Nat), r < fuel → CapOk m →
    ShiftInv m.a m.cap j → Avoids m.a m.cap u → (j + r) % m.cap = u →
    ∃ m', live_erase_shift fuel m j = some m' := by
  intro r
  induction r with
  | zero =>
    intro fuel m j u hf hc hinv hav hu
    rw [Nat.add_zero, Nat.mod_eq_of_lt hinv.1] at hu
    obtain ⟨f, rfl⟩ : ∃ f, fuel = f + 1 := ⟨fuel - 1, by omega⟩
    unfold live_erase_shift
    rw [hu, if_pos hav.2.1]
    exact ⟨m, rfl⟩
  | succ r ih =>
    intro fuel m j u hf hc hinv hav hu
    obtain ⟨f, rfl⟩ : ∃ f, fuel = f + 1 := ⟨fuel - 1, by omega⟩
    unfold live_erase_shift
    by_cases huj : (m.a j).used = false
    · rw [if_pos huj]; exact ⟨m, rfl⟩
    · have hu' : (m.a j).used = true := by simpa using huj
      obtain ⟨p, m2, hups, hcap, haeq, hpN, hpu, hinv3, hav3⟩ := shift_step m hc j hinv hu'
      rw [if_neg huj, hups]
      dsimp only
      rw [cap_and m hc]
      have hc3 : CapOk { m2 with a := set_slot m2.a p (m.a j) } := by
        obtain ⟨q, hq⟩ := hc
        exact ⟨q, by show m2.cap = 2 ^ q; rw [hcap, hq]⟩
      have hi3 : ShiftInv ({ m2 with a := set_slot m2.a p (m.a j) } : LiveMap).a
          ({ m2 with a := set_slot m2.a p (m.a j) } : LiveMap).cap ((j + 1) % m.cap) := by
        show ShiftInv (set_slot m2.a p (m.a j)) m2.cap ((j + 1) % m.cap)
        rw [haeq, hcap]; exact hinv3
      have ha3 : Avoids ({ m2 with a := set_slot m2.a p (m.a j) } : LiveMap).a
          ({ m2 with a := set_slot m2.a p (m.a j) } : LiveMap).cap u := by
        show Avoids (set_slot m2.a p (m.a j)) m2.cap u
        rw [haeq, hcap]; exact hav3 u hav
      have hu3 : ((j + 1) % m.cap + r) %
          ({ m2 with a := set_slot m2.a p (m.a j) } : LiveMap).cap = u := by
        show ((j + 1) % m.cap + r) % m2.cap = u
        rw [hcap, probe_succ]; exact hu
      exact ih f _ _ u (by omega) hc3 hi3 ha3 hu3

theorem erase_loop_of_find_some (m : LiveMap) (key s : Nat) : ∀ fuel i,
    live_find_loop m key fuel i = some s →
    live_erase_loop m key fuel i =
      match live_erase_shift (shift_fuel m)
              { m with a := set_slot m.a s (clear_ent (m.a s)) }
              ((s + 1) &&& (m.cap - 1)) with
      | some m2 => some ({ m2 with cnt := (m2.cnt + U64 - 1) % U64 }, some (m.a s))
      | none => none := by
  intro fuel
  induction fuel with
  | zero => intro i h; simp [live_find_loop] at h
  | succ fuel ih =>
    intro i h
    unfold live_find_loop at h
    unfold live_erase_loop
    split_ifs at h ⊢ with h1 h2
    · simp only [Option.some.injEq] at h; subst h; rfl
    · exact ih _ h

/-- `live_erase` of a stored key on a well-formed table: when it returns, the
table is well-formed again, the entry returned is the stored one, and the
stored entries are the old ones without that key; it returns whenever the
table had an unused slot. -/
theorem erase_present (m : LiveMap) (hw : WF m) (key s : Nat) (hfind : live_find m key = some s) :
    (∀ r, live_erase m key = some r →
      WF r.1 ∧ r.2 = some (m.a s) ∧ r.1.cap = m.cap ∧
      (∀ e, Holds r.1.a m.cap e ↔ (Holds m.a m.cap e ∧ e.key_ptr ≠ key)) ∧
      sum_used r.1.a m.cap + (m.a s).size = sum_used m.a m.cap ∧
      count_used r.1.a m.cap + 1 = count_used m.a m.cap) ∧
    (count_used m.a m.cap < m.cap → ∃ r, live_erase m key = some r) := by
  obtain ⟨hc, hf⟩ := hw
  have hN := cap_pos m hc
  obtain ⟨hs, hsu, hsk⟩ := find_sound m hc key s hfind
  have hku := keys_unique m.a m.cap hf
  obtain ⟨hk1, hp1⟩ := clear_inv m.a m.cap s hs hku (fun x hx hxu => Or.inl (hf x hx hxu))
  have hj0 : (s + 1) % m.cap < m.cap := Nat.mod_lt _ hN
  have hc1 : CapOk { m with a := set_slot m.a s (clear_ent (m.a s)) } := hc
  have hinv1 : ShiftInv ({ m with a := set_slot m.a s (clear_ent (m.a s)) } : LiveMap).a
      ({ m with a := set_slot m.a s (clear_ent (m.a s)) } : LiveMap).cap ((s + 1) % m.cap) :=
    ⟨hj0, hk1, hp1⟩
  have herase : live_erase m key =
      match live_erase_shift (shift_fuel m)
              { m with a := set_slot m.a s (clear_ent (m.a s)) } ((s + 1) % m.cap) with
      | some m2 => some ({ m2 with cnt := (m2.cnt + U64 - 1) % U64 }, some (m.a s))
      | none => none := by
    rw [← cap_and m hc]
    exact erase_loop_of_find_some m key s _ _ hfind
  have hback : ∀ x, (set_slot m.a s (clear_ent (m.a s)) x).used = true →
      x ≠ s ∧ (m.a x).used = true ∧ set_slot m.a s (clear_ent (m.a s)) x = m.a x := by
    intro x hx
    by_cases e : x = s
    · rw [e, set_slot_same] at hx; exact absurd hx (by simp [clear_ent])
    · rw [set_slot_ne _ _ _ _ e] at hx; exact ⟨e, hx, set_slot_ne _ _ _ _ e⟩
  constructor
  · intro r hr
    obtain ⟨m', out⟩ := r
    rw [herase] at hr
    cases hsh : live_erase_shift (shift_fuel m)
        { m with a := set_slot m.a s (clear_ent (m.a s)) } ((s + 1) % m.cap) with
    | none => rw [hsh] at hr; exact absurd hr (by simp)
    | some m2 =>
      rw [hsh] at hr
      simp only [Option.some.injEq, Prod.mk.injEq] at hr
      obtain ⟨h1, h2⟩ := hr
      have ha : m'.a = m2.a := by rw [← h1]
      have hcap : m'.cap = m2.cap := by rw [← h1]
      obtain ⟨r1, r2, r3, r4, r5⟩ := shift_partial (shift_fuel m)
        { m with a := set_slot m.a s (clear_ent (m.a s)) } ((s + 1) % m.cap) hc1 hinv1 m2 hsh
      dsimp only at r1 r2 r3 r4 r5
      show WF m' ∧ out = some (m.a s) ∧ m'.cap = m.cap ∧
        (∀ e, Holds m'.a m.cap e ↔ (Holds m.a m.cap e ∧ e.key_ptr ≠ key)) ∧
        sum_used m'.a m.cap + (m.a s).size = sum_used m.a m.cap ∧
        count_used m'.a m.cap + 1 = count_used m.a m.cap
      rw [ha]
      refine ⟨⟨?_, ?_⟩, h2.symm, hcap.trans r1, ?_, ?_, ?_⟩
      · obtain ⟨q, hq⟩ := hc
        exact ⟨q, by rw [hcap, r1, hq]⟩
      · intro x hx hxu
        rw [hcap, r1] at hx
        rw [ha] at hxu ⊢
        rw [hcap, r1]
        exact r2 x hx hxu
      · intro e
        rw [r3 e]
        constructor
        · rintro ⟨x, hx, hxu, hxe⟩
          obtain ⟨n1, u1, q1⟩ := hback x hxu
          rw [q1] at hxe
          refine ⟨⟨x, hx, u1, hxe⟩, ?_⟩
          intro hk
          rw [← hxe, ← hsk] at hk
          exact n1 (hku x s hx hs u1 hsu hk)
        · rintro ⟨⟨x, hx, hxu, hxe⟩, hk⟩
          have n1 : x ≠ s := by
            intro e'
            rw [e'] at hxe
            rw [← hxe, hsk] at hk
            exact hk rfl
          exact ⟨x, hx, by rw [set_slot_ne _ _ _ _ n1]; exact hxu,
            by rw [set_slot_ne _ _ _ _ n1]; exact hxe⟩
      · rw [r4]
        have := sum_used_set_lt m.a s (clear_ent (m.a s)) m.cap hs
        have hcu : (clear_ent (m.a s)).used = false := rfl
        rw [hcu] at this
        simp only [hsu, if_true, Bool.false_eq_true, if_false] at this
        omega
      · rw [r5]
        have := count_used_set_lt m.a s (clear_ent (m.a s)) m.cap hs
        have hcu : (clear_ent (m.a s)).used = false := rfl
        rw [hcu] at this
        simp only [hsu, if_true, Bool.false_eq_true, if_false] at this
        omega
  · intro hcount
    obtain ⟨u, hu, huu⟩ := exists_unused m.a m.cap hcount
    have hus : u ≠ s := by intro e; rw [e, hsu] at huu; exact absurd huu (by simp)
    have hav : Avoids ({ m with a := set_slot m.a s (clear_ent (m.a s)) } : LiveMap).a
        ({ m with a := set_slot m.a s (clear_ent (m.a s)) } : LiveMap).cap u := by
      refine ⟨hu, by show (set_slot m.a s (clear_ent (m.a s)) u).used = false;
                     rw [set_slot_ne _ _ _ _ hus]; exact huu, ?_⟩
      intro x hx hxu d hd e0 d' hd'
      obtain ⟨n1, u1, q1⟩ := hback x hxu
      have q1' : ({ m with a := set_slot m.a s (clear_ent (m.a s)) } : LiveMap).a x = m.a x := q1
      rw [q1'] at e0 ⊢
      obtain ⟨dF, hdF, eF, kF⟩ := hf x hx u1
      have hh : hmix (m.a x).key_ptr % m.cap < m.cap := Nat.mod_lt _ hN
      have : d = dF := probe_inj m.cap _ d dF hh hd hdF (e0.trans eF.symm)
      rw [this] at hd'
      intro e
      have := (kF d' hd').1
      rw [e, huu] at this
      exact absurd this (by simp)
    obtain ⟨r, hr, er⟩ := probe_surj m.cap ((s + 1) % m.cap) u hj0 hu
    have hfuel : r < shift_fuel m := by
      unfold shift_fuel
      have : 0 ≤ m.cap * m.cap * m.cap := Nat.zero_le _
      omega
    obtain ⟨m2, hm2⟩ := shift_total r (shift_fuel m)
      { m with a := set_slot m.a s (clear_ent (m.a s)) } ((s + 1) % m.cap) u hfuel hc1 hinv1 hav er
    rw [herase, hm2]
    exact ⟨_, rfl⟩

end Analyze


namespace Analyze

theorem wf_init : WF live_init := by
  refine ⟨⟨20, rfl⟩, ?_⟩
  intro s _ hu
  simp [live_init, zero_ent] at hu

theorem fill_claim (e : LiveEnt) (r : Row) : fill_ent (claim_ent e r.ptr) r = ent_of r := rfl

theorem fill_present (e : LiveEnt) (r : Row) (hu : e.used = true) (hk : e.key_ptr = r.ptr) :
    fill_ent e r = ent_of r := by
  cases e
  simp only [fill_ent, ent_of] at *
  simp [hu, hk]

/-- The table after the insertion block: the slot returned by `live_upsert`
holds the row's entry, every other slot is as before. -/
theorem add_new_live (s s' : Replay) (r : Row) (hw : WF s.live) (h : add_new s r = some s') :
    ∃ p, p < s.live.cap ∧ s'.live.a = set_slot s.live.a p (ent_of r) ∧
      s'.live.cap = s.live.cap ∧
      ((live_find s.live r.ptr = some p ∧ (s.live.a p).used = true ∧
          (s.live.a p).key_ptr = r.ptr) ∨
        (live_find s.live r.ptr = none ∧ (s.live.a p).used = false ∧
          ∃ d, d < s.live.cap ∧ (hmix r.ptr % s.live.cap + d) % s.live.cap = p ∧
            Skip s.live.a s.live.cap r.ptr (hmix r.ptr % s.live.cap) d)) := by
  have hc := hw.1
  have hN := cap_pos _ hc
  unfold add_new at h
  cases hfind : live_find s.live r.ptr with
  | some i =>
    rw [upsert_present _ _ _ hfind] at h
    simp only [Option.some.injEq] at h
    subst h
    obtain ⟨a, b, c⟩ := find_sound _ hc _ _ hfind
    refine ⟨i, a, ?_, rfl, Or.inl ⟨rfl, b, c⟩⟩
    show set_slot s.live.a i (fill_ent (s.live.a i) r) = _
    rw [fill_present _ r b c]
  | none =>
    have hups : live_upsert s.live r.ptr =
        live_upsert_loop s.live r.ptr s.live.cap (hmix r.ptr % s.live.cap) := by
      unfold live_upsert; rw [cap_and _ hc]
    rcases upsert_loop_spec s.live hc r.ptr s.live.cap (hmix r.ptr % s.live.cap)
        (Nat.mod_lt _ hN) with ⟨d, hd, hs, h1, h2⟩ | ⟨d, _, _, h1, h2, _⟩ | ⟨_, h2⟩
    · rw [hups, h2] at h
      simp only [Option.some.injEq] at h
      subst h
      refine ⟨_, Nat.mod_lt _ hN, ?_, rfl, Or.inr ⟨rfl, h1, d, hd, rfl, hs⟩⟩
      show set_slot (set_slot s.live.a _ _) _ (fill_ent (set_slot s.live.a _ _ _) r) = _
      rw [set_slot_same, fill_claim, set_slot_twice]
    · exact absurd h2 ((find_none_iff _ hw _).1 hfind _ (Nat.mod_lt _ hN) h1)
    · rw [hups, h2] at h
      exact absurd h (by simp)

/-- Writing a row's entry into the slot `live_upsert` returned keeps the table
well-formed, and tells what is stored afterwards. -/
theorem insert_spec (a : Nat → LiveEnt) (N p : Nat) (r : Row) (hp : p < N)
    (hf : ∀ s, s < N → (a s).used = true → Found a N s)
    (hcase : ((a p).used = true ∧ (a p).key_ptr = r.ptr) ∨
      ((a p).used = false ∧ (∀ s, s < N → (a s).used = true → (a s).key_ptr ≠ r.ptr) ∧
        ∃ d, d < N ∧ (hmix r.ptr % N + d) % N = p ∧ Skip a N r.ptr (hmix r.ptr % N) d)) :
    (∀ s, s < N → (set_slot a p (ent_of r) s).used = true → Found (set_slot a p (ent_of r)) N s) ∧
    (∀ e, Holds (set_slot a p (ent_of r)) N e ↔ (e = ent_of r ∨ (Holds a N e ∧ e.key_ptr ≠ r.ptr))) ∧
    sum_used (set_slot a p (ent_of r)) N + (if (a p).used then (a p).size else 0) =
      sum_used a N + r.arg ∧
    count_used (set_slot a p (ent_of r)) N + (if (a p).used then 1 else 0) =
      count_used a N + 1 := by
  have hsum := sum_used_set_lt a p (ent_of r) N hp
  have hcnt := count_used_set_lt a p (ent_of r) N hp
  have hused : (ent_of r).used = true := rfl
  have hsize : (ent_of r).size = r.arg := rfl
  rw [hused, hsize] at hsum
  rw [hused] at hcnt
  simp only [if_true] at hsum hcnt
  have hku := keys_unique a N hf
  refine ⟨?_, ?_, hsum, hcnt⟩
  · rcases hcase with ⟨hu, hk⟩ | ⟨hu, _, d, hd, e0, hskip⟩
    · intro s hs hsu
      have hsu' : (a s).used = true := by
        by_cases e : s = p
        · rw [e]; exact hu
        · rw [set_slot_ne _ _ _ _ e] at hsu; exact hsu
      refine found_congr a _ N s ?_ (hf s hs hsu')
      intro x
      by_cases e : x = p
      · rw [e, set_slot_same]; exact ⟨hu.symm ▸ rfl, hk.symm ▸ rfl⟩
      · rw [set_slot_ne _ _ _ _ e]; exact ⟨rfl, rfl⟩
    · intro s hs hsu
      by_cases e : s = p
      · rw [e]; exact found_new a N p d (ent_of r) hd hu e0 hskip
      · rw [set_slot_ne _ _ _ _ e] at hsu
        exact found_fill a N s p (ent_of r) hu e (hf s hs hsu)
  · intro e
    constructor
    · rintro ⟨x, hx, hxu, hxe⟩
      by_cases e1 : x = p
      · rw [e1, set_slot_same] at hxe; exact Or.inl hxe.symm
      · rw [set_slot_ne _ _ _ _ e1] at hxu hxe
        refine Or.inr ⟨⟨x, hx, hxu, hxe⟩, ?_⟩
        rw [← hxe]
        rcases hcase with ⟨hu, hk⟩ | ⟨_, hab, _⟩
        · intro hk'
          exact e1 (hku x p hx hp hxu hu (hk'.trans hk.symm))
        · exact hab x hx hxu
    · rintro (rfl | ⟨⟨x, hx, hxu, hxe⟩, hk⟩)
      · exact ⟨p, hp, by rw [set_slot_same]; rfl, set_slot_same _ _ _⟩
      · have e1 : x ≠ p := by
          intro e'
          rcases hcase with ⟨_, hk'⟩ | ⟨hu, _⟩
          · rw [← hxe, e', hk'] at hk; exact hk rfl
          · rw [e', hu] at hxu; exact absurd hxu (by simp)
        exact ⟨x, hx, by rw [set_slot_ne _ _ _ _ e1]; exact hxu,
          by rw [set_slot_ne _ _ _ _ e1]; exact hxe⟩

/-- Two well-formed tables of the same capacity: the lookup of one is read off
from what the other one holds. -/
theorem lookup_of_holds (m m' : LiveMap) (hw : WF m) (hw' : WF m') (hcap : m'.cap = m.cap)
    (key : Nat) (h : ∀ e, e.key_ptr = key → (Holds m'.a m.cap e ↔ Holds m.a m.cap e)) :
    lookup m' key = lookup m key := by
  cases hl : lookup m key with
  | some e =>
    obtain ⟨a, b⟩ := (lookup_iff m hw key e).1 hl
    exact (lookup_iff m' hw' key e).2 ⟨by rw [hcap]; exact (h e b).2 a, b⟩
  | none =>
    cases hl' : lookup m' key with
    | none => rfl
    | some e =>
      obtain ⟨a, b⟩ := (lookup_iff m' hw' key e).1 hl'
      rw [hcap] at a
      have := (lookup_iff m hw key e).2 ⟨(h e b).1 a, b⟩
      rw [hl] at this
      exact absurd this (by simp)

/-- The insertion block on a well-formed table: the table stays well-formed,
the row's address now maps to the row's entry, every other address maps to
what it mapped to, and the sum and number of the stored entries change as for
a map update. -/
theorem add_new_spec (s s' : Replay) (r : Row) (hw : WF s.live) (h : add_new s r = some s') :
    WF s'.live ∧ s'.live.cap = s.live.cap ∧
    lookup s'.live r.ptr = some (ent_of r) ∧
    (∀ k, k ≠ r.ptr → lookup s'.live k = lookup s.live k) ∧
    (∀ old, lookup s.live r.ptr = some old →
      sum_used s'.live.a s.live.cap + old.size = sum_used s.live.a s.live.cap + r.arg ∧
      count_used s'.live.a s.live.cap = count_used s.live.a s.live.cap) ∧
    (lookup s.live r.ptr = none →
      sum_used s'.live.a s.live.cap = sum_used s.live.a s.live.cap + r.arg ∧
      count_used s'.live.a s.live.cap = count_used s.live.a s.live.cap + 1) := by
  obtain ⟨p, hp, ha, hcap, hcase⟩ := add_new_live s s' r hw h
  have hcase' : ((s.live.a p).used = true ∧ (s.live.a p).key_ptr = r.ptr) ∨
      ((s.live.a p).used = false ∧
        (∀ x, x < s.live.cap → (s.live.a x).used = true → (s.live.a x).key_ptr ≠ r.ptr) ∧
        ∃ d, d < s.live.cap ∧ (hmix r.ptr % s.live.cap + d) % s.live.cap = p ∧
          Skip s.live.a s.live.cap r.ptr (hmix r.ptr % s.live.cap) d) := by
    rcases hcase with ⟨_, b, c⟩ | ⟨a, b, c⟩
    · exact Or.inl ⟨b, c⟩
    · exact Or.inr ⟨b, (find_none_iff _ hw _).1 a, c⟩
  obtain ⟨i1, i2, i3, i4⟩ := insert_spec s.live.a s.live.cap p r hp hw.2 hcase'
  rw [← ha] at i1 i2 i3 i4
  have hw' : WF s'.live := by
    refine ⟨?_, ?_⟩
    · obtain ⟨q, hq⟩ := hw.1
      exact ⟨q, by rw [hcap, hq]⟩
    · intro x hx hxu
      rw [hcap] at hx ⊢
      exact i1 x hx hxu
  refine ⟨hw', hcap, ?_, ?_, ?_, ?_⟩
  · exact (lookup_iff s'.live hw' r.ptr (ent_of r)).2
      ⟨by rw [hcap]; exact (i2 _).2 (Or.inl rfl), rfl⟩
  · intro k hk
    apply lookup_of_holds s.live s'.live hw hw' hcap
    intro e he
    rw [i2]
    constructor
    · rintro (rfl | ⟨a, _⟩)
      · exact absurd he.symm hk
      · exact a
    · intro a
      exact Or.inr ⟨a, by rw [he]; exact hk⟩
  · intro old hold
    obtain ⟨⟨x, hx, hxu, hxe⟩, hk⟩ := (lookup_iff _ hw _ _).1 hold
    rcases hcase with ⟨a, b, c⟩ | ⟨a, _, _⟩
    · have hxp : x = p := by
        have := find_of_used _ hw x hx hxu
        rw [hxe, hk, a] at this
        exact (Option.some.inj this).symm
      rw [hxp] at hxe
      rw [b, hxe] at i3
      rw [b] at i4
      simp only [if_true] at i3 i4
      exact ⟨i3, by omega⟩
    · rw [(lookup_none_iff _ _).2 a] at hold
      exact absurd hold (by simp)
  · intro hnone
    rcases hcase with ⟨a, _, _⟩ | ⟨_, b, _⟩
    · rw [(lookup_none_iff _ _).1 hnone] at a
      exact absurd a (by simp)
    · rw [b] at i3 i4
      simp only [Bool.false_eq_true, if_false, Nat.add_zero] at i3 i4
      exact ⟨i3, i4⟩

end Analyze


namespace Analyze

/-- `live_erase` of a stored key returns when, after the entry is cleared, some
unused slot lies on no probe path. -/
theorem erase_total_avoids (m : LiveMap) (hw : WF m) (key s u : Nat)
    (hfind : live_find m key = some s)
    (hav : Avoids (set_slot m.a s (clear_ent (m.a s))) m.cap u) :
    ∃ r, live_erase m key = some r := by
  obtain ⟨hc, hf⟩ := hw
  have hN := cap_pos m hc
  obtain ⟨hs, hsu, hsk⟩ := find_sound m hc key s hfind
  have hku := keys_unique m.a m.cap hf
  obtain ⟨hk1, hp1⟩ := clear_inv m.a m.cap s hs hku (fun x hx hxu => Or.inl (hf x hx hxu))
  have hj0 : (s + 1) % m.cap < m.cap := Nat.mod_lt _ hN
  have hc1 : CapOk { m with a := set_slot m.a s (clear_ent (m.a s)) } := hc
  have hinv1 : ShiftInv ({ m with a := set_slot m.a s (clear_ent (m.a s)) } : LiveMap).a
      ({ m with a := set_slot m.a s (clear_ent (m.a s)) } : LiveMap).cap ((s + 1) % m.cap) :=
    ⟨hj0, hk1, hp1⟩
  have herase : live_erase m key =
      match live_erase_shift (shift_fuel m)
              { m with a := set_slot m.a s (clear_ent (m.a s)) } ((s + 1) % m.cap) with
      | some m2 => some ({ m2 with cnt := (m2.cnt + U64 - 1) % U64 }, some (m.a s))
      | none => none := by
    rw [← cap_and m hc]
    exact erase_loop_of_find_some m key s _ _ hfind
  obtain ⟨r, hr, er⟩ := probe_surj m.cap ((s + 1) % m.cap) u hj0 hav.1
  have hfuel : r < shift_fuel m := by
    unfold shift_fuel
    have : 0 ≤ m.cap * m.cap * m.cap := Nat.zero_le _
    omega
  obtain ⟨m2, hm2⟩ := shift_total r (shift_fuel m)
    { m with a := set_slot m.a s (clear_ent (m.a s)) } ((s + 1) % m.cap) u hfuel hc1 hinv1 hav er
  rw [herase, hm2]
  exact ⟨_, rfl⟩

/-- The insertion block returns unless the table is full and the address is new. -/
theorem add_new_total (s : Replay) (r : Row) (hw : WF s.live)
    (h : lookup s.live r.ptr ≠ none ∨ count_used s.live.a s.live.cap < s.live.cap) :
    ∃ s', add_new s r = some s' := by
  unfold add_new
  cases hfind : live_find s.live r.ptr with
  | some i => rw [upsert_present _ _ _ hfind]; exact ⟨_, rfl⟩
  | none =>
    rcases h with h | h
    · exact absurd ((lookup_none_iff _ _).2 hfind) h
    · obtain ⟨u, hu, huu⟩ := exists_unused _ _ h
      obtain ⟨p, d, _, _, _, _, _, e⟩ := upsert_absent _ hw r.ptr u hfind hu huu
      rw [e]; exact ⟨_, rfl⟩

/-- The insertion block dereferences `NULL` when every slot is used and the
address is new. -/
theorem add_new_full (s : Replay) (r : Row) (hw : WF s.live)
    (habs : lookup s.live r.ptr = none)
    (hfull : count_used s.live.a s.live.cap = s.live.cap) : add_new s r = none := by
  unfold add_new
  rw [upsert_full _ hw r.ptr ((lookup_none_iff _ _).1 habs) (all_used_of_count _ _ hfull)]

/-- The removal block on a well-formed table: the table stays well-formed, the
row's address maps to nothing afterwards, every other address maps to what it
mapped to; an absent address leaves the state alone, a present one runs the
clamped subtractions with the stored entry. -/
theorem remove_old_spec (s s' : Replay) (r : Row) (hw : WF s.live)
    (h : remove_old s r = some s') :
    WF s'.live ∧ s'.live.cap = s.live.cap ∧
    lookup s'.live r.ptr = none ∧
    (∀ k, k ≠ r.ptr → lookup s'.live k = lookup s.live k) ∧
    (lookup s.live r.ptr = none → s' = s) ∧
    (∀ old, lookup s.live r.ptr = some old →
      (∃ m, s' = sub_old s m old) ∧
      sum_used s'.live.a s.live.cap + old.size = sum_used s.live.a s.live.cap ∧
      count_used s'.live.a s.live.cap + 1 = count_used s.live.a s.live.cap) := by
  unfold remove_old at h
  cases hfind : live_find s.live r.ptr with
  | none =>
    rw [erase_of_find_none _ _ hfind] at h
    simp only [Option.some.injEq] at h
    subst h
    refine ⟨hw, rfl, (lookup_none_iff _ _).2 hfind, fun _ _ => rfl, fun _ => rfl, ?_⟩
    intro old hold
    rw [(lookup_none_iff _ _).2 hfind] at hold
    exact absurd hold (by simp)
  | some i =>
    obtain ⟨hpart, -⟩ := erase_present s.live hw r.ptr i hfind
    cases he : live_erase s.live r.ptr with
    | none => rw [he] at h; exact absurd h (by simp)
    | some res =>
      obtain ⟨m, out⟩ := res
      obtain ⟨e1, e2, e3, e4, e5, e6⟩ := hpart _ he
      dsimp only at e1 e2 e3 e4 e5 e6
      subst e2
      rw [he] at h
      simp only [Option.some.injEq] at h
      subst h
      have hl : (sub_old s m (s.live.a i)).live = m := rfl
      rw [hl]
      have hlook : lookup s.live r.ptr = some (s.live.a i) := by
        unfold lookup; rw [hfind]; rfl
      refine ⟨e1, e3, ?_, ?_, ?_, ?_⟩
      · rw [lookup_none_iff]
        rw [find_none_iff m e1]
        intro x hx hxu hk
        rw [e3] at hx
        exact ((e4 (m.a x)).1 ⟨x, hx, hxu, rfl⟩).2 hk
      · intro k hk
        apply lookup_of_holds s.live m hw e1 e3
        intro e hek
        rw [e4]
        exact ⟨fun a => a.1, fun a => ⟨a, by rw [hek]; exact hk⟩⟩
      · intro hnone
        rw [hlook] at hnone
        exact absurd hnone (by simp)
      · intro old hold
        rw [hlook] at hold
        simp only [Option.some.injEq] at hold
        subst hold
        exact ⟨⟨m, rfl⟩, e5, e6⟩

/-- The removal block returns on a well-formed table that has an unused slot. -/
theorem remove_old_total (s : Replay) (r : Row) (hw : WF s.live)
    (h : count_used s.live.a s.live.cap < s.live.cap) : ∃ s', remove_old s r = some s' := by
  unfold remove_old
  cases hfind : live_find s.live r.ptr with
  | none => rw [erase_of_find_none _ _ hfind]; exact ⟨_, rfl⟩
  | some i =>
    obtain ⟨res, hres⟩ := (erase_present s.live hw r.ptr i hfind).2 h
    obtain ⟨m, out⟩ := res
    rw [hres]
    cases out with
    | none => exact ⟨_, rfl⟩
    | some old => exact ⟨_, rfl⟩

/-- Every state the row loop reaches has a well-formed live table of capacity `2 ^ 20`. -/
theorem reach_wf (T : Nat) : ∀ rows s, replay T rows = some s →
    WF s.live ∧ s.live.cap = 2 ^ 20 := by
  apply replay_induction
  · exact ⟨wf_init, rfl⟩
  · intro l s r s' _ ih hstep
    unfold step at hstep
    cases hop : apply_op (push_series s r) r with
    | none => rw [hop] at hstep; simp at hstep
    | some s1 =>
      rw [hop] at hstep
      simp only [Option.some.injEq] at hstep
      subst hstep
      obtain ⟨-, -, -, -, p5, -, -, -⟩ := post_fields T s1 r
      show WF (update_cross T (update_peak s1 r) r).live ∧
        (update_cross T (update_peak s1 r) r).live.cap = 2 ^ 20
      rw [p5]
      have base : WF (push_series s r).live ∧ (push_series s r).live.cap = 2 ^ 20 := ih
      unfold apply_op at hop
      split_ifs at hop
      · obtain ⟨a, b, -⟩ := add_new_spec _ _ r base.1 hop
        exact ⟨a, b.trans base.2⟩
      · cases h1 : remove_old (push_series s r) r with
        | none => rw [h1] at hop; simp at hop
        | some s2 =>
          rw [h1] at hop
          obtain ⟨a, b, -⟩ := remove_old_spec _ _ r base.1 h1
          obtain ⟨c, d, -⟩ := add_new_spec _ _ r a hop
          exact ⟨c, d.trans (b.trans base.2)⟩
      · obtain ⟨a, b, -⟩ := remove_old_spec _ _ r base.1 hop
        exact ⟨a, b.trans base.2⟩
      · simp only [Option.some.injEq] at hop
        subst hop
        exact base

end Analyze


namespace Leakhook

theorem u64_val : U64 = 18446744073709551616 := by decide

theorem bucket_lt (p : Nat) : h32 p &&& (HSIZE - 1) < HSIZE := by
  have h : h32 p &&& (HSIZE - 1) ≤ HSIZE - 1 := Nat.and_le_right
  have : HSIZE = 65536 := rfl
  omega

/-- The chain walk finds nothing exactly when no node of the chain has the address. -/
theorem unlink_none (l : List Node) (p : Nat) :
    unlink l p = none ↔ ∀ n, n ∈ l → n.ptr ≠ p := by
  induction l with
  | nil => simp [unlink]
  | cons n rest ih =>
    unfold unlink
    by_cases h : n.ptr = p
    · simp [h]
    · rw [if_neg h]
      cases hu : unlink rest p with
      | none =>
        simp only [true_iff]
        intro x hx
        rcases List.mem_cons.1 hx with e | e
        · rw [e]; exact h
        · exact (ih.1 hu) x e
      | some r =>
        obtain ⟨l', d⟩ := r
        constructor
        · intro hc; exact absurd hc (by simp)
        intro hall
        have : unlink rest p = none := ih.2 (fun x hx => hall x (List.mem_cons_of_mem _ hx))
        rw [hu] at this
        exact absurd this (by simp)

/-- The chain walk unlinks the first node with the address and keeps every
other node in place and in order. -/
theorem unlink_some (l : List Node) (p : Nat) (l' : List Node) (d : Node)
    (h : unlink l p = some (l', d)) :
    ∃ pre post, l = pre ++ d :: post ∧ l' = pre ++ post ∧ d.ptr = p ∧
      ∀ n, n ∈ pre → n.ptr ≠ p := by
  induction l generalizing l' with
  | nil => simp [unlink] at h
  | cons n rest ih =>
    unfold unlink at h
    by_cases hn : n.ptr = p
    · rw [if_pos hn] at h
      simp only [Option.some.injEq, Prod.mk.injEq] at h
      obtain ⟨h1, h2⟩ := h
      subst h1 h2
      exact ⟨[], rest, rfl, rfl, hn, by simp⟩
    · rw [if_neg hn] at h
      cases hu : unlink rest p with
      | none => rw [hu] at h; simp at h
      | some r =>
        obtain ⟨l2, d2⟩ := r
        rw [hu] at h
        simp only [Option.some.injEq, Prod.mk.injEq] at h
        obtain ⟨h1, h2⟩ := h
        subst h1 h2
        obtain ⟨pre, post, e1, e2, e3, e4⟩ := ih l2 hu
        refine ⟨n :: pre, post, by rw [e1]; rfl, by rw [e2]; rfl, e3, ?_⟩
        intro x hx
        rcases List.mem_cons.1 hx with e | e
        · rw [e]; exact hn
        · exact e4 x e

theorem chain_bytes_append (a b : List Node) :
    chain_bytes (a ++ b) = chain_bytes a + chain_bytes b := by
  simp [chain_bytes]

theorem chain_bytes_cons (n : Node) (l : List Node) :
    chain_bytes (n :: l) = n.size + chain_bytes l := by
  simp [chain_bytes]

/-- Replacing the chain of one bucket below `n` changes the byte sum by the
difference of the two chains. -/
theorem table_bytes_set (g : Nat → List Node) (b : Nat) (l : List Node) :
    ∀ n, b < n →
      table_bytes (fun i => if i = b then l else g i) n + chain_bytes (g b) =
        table_bytes g n + chain_bytes l := by
  have hlow : ∀ n, n ≤ b → table_bytes (fun i => if i = b then l else g i) n = table_bytes g n := by
    intro n
    induction n with
    | zero => intro _; rfl
    | succ n ih =>
      intro hn
      have hne : n ≠ b := by omega
      simp only [table_bytes, if_neg hne]
      rw [ih (by omega)]
  intro n
  induction n with
  | zero => intro h; omega
  | succ n ih =>
    intro hn
    by_cases e : n = b
    · simp only [table_bytes]
      rw [hlow n (by omega), if_pos e, e]
      omega
    · have := ih (by omega)
      simp only [table_bytes, if_neg e]
      omega

theorem placed_empty : Placed empty := by
  refine ⟨by decide, ?_⟩
  intro i n h
  simp [empty] at h

theorem placed_alloc (t : Table) (env : Env) (p sz : Nat) (h : Placed t) :
    Placed (record_alloc t env p sz) := by
  unfold record_alloc
  by_cases hp : p = 0
  · rw [if_pos hp]; exact h
  · rw [if_neg hp]
    by_cases he : env.node_ok = false
    · rw [if_pos he]; exact h
    · rw [if_neg he]
      refine ⟨Nat.mod_lt _ (by decide), ?_⟩
      intro i n hn
      dsimp only at hn
      by_cases hi : i = h32 p &&& (HSIZE - 1)
      · rw [if_pos hi] at hn
        rcases List.mem_cons.1 hn with e | e
        · rw [e]; exact ⟨hp, hi.symm⟩
        · rw [hi]; exact h.2 _ n e
      · rw [if_neg hi] at hn
        exact h.2 i n hn

theorem placed_free (t : Table) (p : Nat) (h : Placed t) : Placed (record_free t p) := by
  unfold record_free
  by_cases hp : p = 0
  · rw [if_pos hp]; exact h
  · rw [if_neg hp]
    cases hu : unlink (t.g_tab (h32 p &&& (HSIZE - 1))) p with
    | none => exact h
    | some r =>
      obtain ⟨l, d⟩ := r
      obtain ⟨pre, post, e1, e2, -, -⟩ := unlink_some _ _ _ _ hu
      refine ⟨Nat.mod_lt _ (by decide), ?_⟩
      intro i n hn
      dsimp only at hn
      by_cases hi : i = h32 p &&& (HSIZE - 1)
      · rw [if_pos hi, e2] at hn
        rw [hi]
        apply h.2 _ n
        rw [e1]
        rcases List.mem_append.1 hn with e | e
        · exact List.mem_append_left _ e
        · exact List.mem_append_right _ (List.mem_cons_of_mem _ e)
      · rw [if_neg hi] at hn
        exact h.2 i n hn

theorem run_calls_snoc (calls : List Call) (c : Call) :
    run_calls (calls ++ [c]) = apply_call (run_calls calls) c := by
  simp [run_calls, List.foldl_append]

theorem placed_run (calls : List Call) : Placed (run_calls calls) := by
  induction calls using List.reverseRecOn with
  | nil => exact placed_empty
  | append_singleton l c ih =>
    rw [run_calls_snoc]
    cases c with
    | alloc env p sz => exact placed_alloc _ _ _ _ ih
    | release p => exact placed_free _ _ ih

/-- The counter after `record_alloc` follows the byte sum of the table. -/
theorem alloc_bytes (t : Table) (env : Env) (p sz : Nat)
    (h : t.g_inuse = table_bytes t.g_tab HSIZE % U64) :
    (record_alloc t env p sz).g_inuse =
      table_bytes (record_alloc t env p sz).g_tab HSIZE % U64 := by
  unfold record_alloc
  by_cases hp : p = 0
  · rw [if_pos hp]; exact h
  · rw [if_neg hp]
    by_cases he : env.node_ok = false
    · rw [if_pos he]; exact h
    · rw [if_neg he]
      dsimp only
      have hs := table_bytes_set t.g_tab (h32 p &&& (HSIZE - 1))
        ({ ptr := p, size := sz, tid := env.tid, hash := h32 p, bt_n := env.bt_n, bt := env.bt }
          :: t.g_tab (h32 p &&& (HSIZE - 1))) HSIZE (bucket_lt p)
      rw [chain_bytes_cons] at hs
      dsimp only at hs
      rw [h, u64_val]
      omega

/-- The counter after `record_free` follows the byte sum of the table. -/
theorem free_bytes (t : Table) (p : Nat)
    (h : t.g_inuse = table_bytes t.g_tab HSIZE % U64) :
    (record_free t p).g_inuse = table_bytes (record_free t p).g_tab HSIZE % U64 := by
  unfold record_free
  by_cases hp : p = 0
  · rw [if_pos hp]; exact h
  · rw [if_neg hp]
    cases hu : unlink (t.g_tab (h32 p &&& (HSIZE - 1))) p with
    | none => exact h
    | some r =>
      obtain ⟨l, d⟩ := r
      obtain ⟨pre, post, e1, e2, -, -⟩ := unlink_some _ _ _ _ hu
      dsimp only
      have hs := table_bytes_set t.g_tab (h32 p &&& (HSIZE - 1)) l HSIZE (bucket_lt p)
      rw [e1, e2, chain_bytes_append, chain_bytes_append, chain_bytes_cons] at hs
      rw [h, u64_val]
      rw [e2]
      omega

end Leakhook


namespace Leakhook

/-- C21: in a table reached by any sequential run of calls, `record_free(p)`
for `p = NULL` or an address with no node leaves the table (every chain and
`g_inuse`) as it is; for a tracked address it unlinks the first node with
`ptr = p` from the bucket `h32(p) & (HSIZE-1)`, keeps every other node of that
chain in place and in order and every other bucket as it is, and subtracts the
node's size from `g_inuse` in `size_t` arithmetic. -/
theorem record_free_effect (calls : List Call) (p : Nat) :
    ((p = 0 ∨ ¬ Tracked (run_calls calls) p) →
      record_free (run_calls calls) p = run_calls calls) ∧
    (Tracked (run_calls calls) p →
      ∃ pre del post,
        (run_calls calls).g_tab (h32 p &&& (HSIZE - 1)) = pre ++ del :: post ∧
        del.ptr = p ∧ (∀ n, n ∈ pre → n.ptr ≠ p) ∧
        (∀ i, (record_free (run_calls calls) p).g_tab i =
          if i = h32 p &&& (HSIZE - 1) then pre ++ post else (run_calls calls).g_tab i) ∧
        ((record_free (run_calls calls) p).g_inuse + del.size) % U64 =
          (run_calls calls).g_inuse) := by
  have hpl := placed_run calls
  generalize run_calls calls = t at hpl
  constructor
  · intro h
    unfold record_free
    by_cases hp : p = 0
    · rw [if_pos hp]
    · rw [if_neg hp]
      rcases h with h | h
      · exact absurd h hp
      · have : unlink (t.g_tab (h32 p &&& (HSIZE - 1))) p = none := by
          rw [unlink_none]
          intro n hn e
          exact h ⟨_, n, hn, e⟩
        rw [this]
  · rintro ⟨i, n, hn, hnp⟩
    obtain ⟨hn0, hb⟩ := hpl.2 i n hn
    rw [hnp] at hn0 hb
    cases hu : unlink (t.g_tab (h32 p &&& (HSIZE - 1))) p with
    | none =>
      rw [unlink_none] at hu
      rw [← hb] at hn
      exact absurd hnp (hu n hn)
    | some r =>
      obtain ⟨l, d⟩ := r
      obtain ⟨pre, post, e1, e2, e3, e4⟩ := unlink_some _ _ _ _ hu
      refine ⟨pre, d, post, e1, e3, e4, ?_, ?_⟩
      · intro j
        unfold record_free
        rw [if_neg hn0, hu, e2]
      · unfold record_free
        rw [if_neg hn0, hu]
        dsimp only
        have hlt := hpl.1
        rw [u64_val] at hlt ⊢
        omega

theorem table_bytes_nil : ∀ n, table_bytes (fun _ => []) n = 0 := by
  intro n
  induction n with
  | zero => rfl
  | succ n ih => simp only [table_bytes, ih]; rfl

theorem empty_bytes : empty.g_inuse = table_bytes empty.g_tab HSIZE % U64 := by
  have h := table_bytes_nil HSIZE
  have e : empty.g_tab = fun _ => [] := rfl
  rw [e, h]
  rfl

/-- C22: after every sequential run of `record_alloc` and `record_free` calls
from the empty table, `g_inuse` is the sum of the `size` fields of all nodes
in the table modulo `2 ^ 64`, and no node lies outside the `HSIZE` buckets. -/
theorem inuse_is_table_bytes (calls : List Call) :
    (run_calls calls).g_inuse = table_bytes (run_calls calls).g_tab HSIZE % U64 ∧
    ∀ i, HSIZE ≤ i → (run_calls calls).g_tab i = [] := by
  constructor
  · induction calls using List.reverseRecOn with
    | nil =>
      have e : run_calls [] = empty := rfl
      rw [e]
      exact empty_bytes
    | append_singleton l c ih =>
      rw [run_calls_snoc]
      cases c with
      | alloc env p sz =>
        have e : apply_call (run_calls l) (Call.alloc env p sz) =
            record_alloc (run_calls l) env p sz := rfl
        rw [e]
        exact alloc_bytes _ _ _ _ ih
      | release p =>
        have e : apply_call (run_calls l) (Call.release p) = record_free (run_calls l) p := rfl
        rw [e]
        exact free_bytes _ _ ih
  · intro i hi
    have hpl := placed_run calls
    apply List.eq_nil_iff_forall_not_mem.2
    intro n hn
    have := (hpl.2 i n hn).2
    have hb := bucket_lt n.ptr
    omega

end Leakhook


theorem dump_apply_op_cnt (st : Dump.State) (r : Dump.rec_v1) (w : Nat) :
    (Dump.apply_op st r w).cnt0 = st.cnt0 ∧ (Dump.apply_op st r w).cnt1 = st.cnt1 ∧
    (Dump.apply_op st r w).cnt2 = st.cnt2 ∧ (Dump.apply_op st r w).cnt3 = st.cnt3 ∧
    (Dump.apply_op st r w).idx = st.idx := by
  unfold Dump.apply_op
  split_ifs
  · exact ⟨rfl, rfl, rfl, rfl, rfl⟩
  · exact ⟨rfl, rfl, rfl, rfl, rfl⟩
  · cases h : Dump.del_live st.live_head r.ptr with
    | mk l o => cases o <;> exact ⟨rfl, rfl, rfl, rfl, rfl⟩
  · cases h : Dump.del_live st.live_head r.ptr with
    | mk l o => cases o <;> exact ⟨rfl, rfl, rfl, rfl, rfl⟩
  · exact ⟨rfl, rfl, rfl, rfl, rfl⟩

theorem dump_count_op_fields (st : Dump.State) (op : Nat) :
    (Dump.count_op st op).cnt0 = (if op = 0 then (st.cnt0 + 1) % U64 else st.cnt0) ∧
    (Dump.count_op st op).cnt1 = (if op = 1 then (st.cnt1 + 1) % U64 else st.cnt1) ∧
    (Dump.count_op st op).cnt2 = (if op = 2 then (st.cnt2 + 1) % U64 else st.cnt2) ∧
    (Dump.count_op st op).cnt3 = (if op = 3 then (st.cnt3 + 1) % U64 else st.cnt3) ∧
    (Dump.count_op st op).idx = st.idx := by
  match op with
  | 0 => exact ⟨rfl, rfl, rfl, rfl, rfl⟩
  | 1 => exact ⟨rfl, rfl, rfl, rfl, rfl⟩
  | 2 => exact ⟨rfl, rfl, rfl, rfl, rfl⟩
  | 3 => exact ⟨rfl, rfl, rfl, rfl, rfl⟩
  | n + 4 =>
    have e : Dump.count_op st (n + 4) = st := rfl
    rw [e]
    simp

theorem dump_count_op_unknown (st : Dump.State) (op : Nat) (h : 4 ≤ op) :
    Dump.count_op st op = st := by
  obtain ⟨k, rfl⟩ : ∃ k, op = k + 4 := ⟨op - 4, by omega⟩
  rfl

theorem dump_replay_snoc (recs : List (Dump.rec_v1 × Nat)) (r : Dump.rec_v1 × Nat) :
    Dump.replay (recs ++ [r]) = Dump.process (Dump.replay recs) r := by
  simp [Dump.replay, List.foldl_append]

theorem dump_process_counts (st : Dump.State) (r : Dump.rec_v1 × Nat) :
    (Dump.process st r).cnt0 = (if r.1.op = 0 then (st.cnt0 + 1) % U64 else st.cnt0) ∧
    (Dump.process st r).cnt1 = (if r.1.op = 1 then (st.cnt1 + 1) % U64 else st.cnt1) ∧
    (Dump.process st r).cnt2 = (if r.1.op = 2 then (st.cnt2 + 1) % U64 else st.cnt2) ∧
    (Dump.process st r).cnt3 = (if r.1.op = 3 then (st.cnt3 + 1) % U64 else st.cnt3) ∧
    (Dump.process st r).idx = st.idx + 1 := by
  unfold Dump.process
  dsimp only
  obtain ⟨a0, a1, a2, a3, a4⟩ := dump_apply_op_cnt
    (Dump.count_op { st with first_ts := if st.first_ts = 0 then r.1.ts_ns else st.first_ts,
                             last_ts := r.1.ts_ns } r.1.op) r.1 r.2
  obtain ⟨b0, b1, b2, b3, b4⟩ := dump_count_op_fields
    { st with first_ts := if st.first_ts = 0 then r.1.ts_ns else st.first_ts,
              last_ts := r.1.ts_ns } r.1.op
  rw [a0, a1, a2, a3, a4, b0, b1, b2, b3, b4]
  exact ⟨rfl, rfl, rfl, rfl, rfl⟩

/-- The number of records of a list that carry operation code `k`. -/
theorem dump_replay_counts (recs : List (Dump.rec_v1 × Nat)) :
    (Dump.replay recs).cnt0 = (recs.filter (fun r => decide (r.1.op = 0))).length % U64 ∧
    (Dump.replay recs).cnt1 = (recs.filter (fun r => decide (r.1.op = 1))).length % U64 ∧
    (Dump.replay recs).cnt2 = (recs.filter (fun r => decide (r.1.op = 2))).length % U64 ∧
    (Dump.replay recs).cnt3 = (recs.filter (fun r => decide (r.1.op = 3))).length % U64 ∧
    (Dump.replay recs).idx = recs.length := by
  induction recs using List.reverseRecOn with
  | nil => exact ⟨rfl, rfl, rfl, rfl, rfl⟩
  | append_singleton l r ih =>
    obtain ⟨i0, i1, i2, i3, i4⟩ := ih
    obtain ⟨p0, p1, p2, p3, p4⟩ := dump_process_counts (Dump.replay l) r
    rw [dump_replay_snoc, p0, p1, p2, p3, p4, i0, i1, i2, i3, i4]
    simp only [List.filter_append, List.length_append, List.filter_cons, List.filter_nil]
    have hU : U64 = 18446744073709551616 := by decide
    rw [hU]
    refine ⟨?_, ?_, ?_, ?_, ?_⟩
    · by_cases h : r.1.op = 0 <;> simp [h]
    · by_cases h : r.1.op = 1 <;> simp [h]
    · by_cases h : r.1.op = 2 <;> simp [h]
    · by_cases h : r.1.op = 3 <;> simp [h]
    · simp


theorem dumpv1_apply_op_cnt (st : DumpV1.State) (r : DumpV1.rec_t) :
    (DumpV1.apply_op st r).cnt0 = st.cnt0 ∧ (DumpV1.apply_op st r).cnt1 = st.cnt1 ∧
    (DumpV1.apply_op st r).cnt2 = st.cnt2 ∧ (DumpV1.apply_op st r).cnt3 = st.cnt3 ∧
    (DumpV1.apply_op st r).idx = st.idx := by
  unfold DumpV1.apply_op
  split_ifs
  · exact ⟨rfl, rfl, rfl, rfl, rfl⟩
  · exact ⟨rfl, rfl, rfl, rfl, rfl⟩
  · cases h : DumpV1.del_live st.live_head r.ptr with
    | mk l o => cases o <;> exact ⟨rfl, rfl, rfl, rfl, rfl⟩
  · cases h : DumpV1.del_live st.live_head r.ptr with
    | mk l o => cases o <;> exact ⟨rfl, rfl, rfl, rfl, rfl⟩
  · exact ⟨rfl, rfl, rfl, rfl, rfl⟩

theorem dumpv1_count_op_fields (st : DumpV1.State) (op : Nat) :
    (DumpV1.count_op st op).cnt0 = (if op = 0 then (st.cnt0 + 1) % U64 else st.cnt0) ∧
    (DumpV1.count_op st op).cnt1 = (if op = 1 then (st.cnt1 + 1) % U64 else st.cnt1) ∧
    (DumpV1.count_op st op).cnt2 = (if op = 2 then (st.cnt2 + 1) % U64 else st.cnt2) ∧
    (DumpV1.count_op st op).cnt3 = (if op = 3 then (st.cnt3 + 1) % U64 else st.cnt3) ∧
    (DumpV1.count_op st op).idx = st.idx := by
  match op with
  | 0 => exact ⟨rfl, rfl, rfl, rfl, rfl⟩
  | 1 => exact ⟨rfl, rfl, rfl, rfl, rfl⟩
  | 2 => exact ⟨rfl, rfl, rfl, rfl, rfl⟩
  | 3 => exact ⟨rfl, rfl, rfl, rfl, rfl⟩
  | n + 4 =>
    have e : DumpV1.count_op st (n + 4) = st := rfl
    rw [e]
    simp

theorem dumpv1_count_op_unknown (st : DumpV1.State) (op : Nat) (h : 4 ≤ op) :
    DumpV1.count_op st op = st := by
  obtain ⟨k, rfl⟩ : ∃ k, op = k + 4 := ⟨op - 4, by omega⟩
  rfl

theorem dumpv1_replay_snoc (recs : List (DumpV1.rec_t)) (r : DumpV1.rec_t) :
    DumpV1.replay (recs ++ [r]) = DumpV1.process (DumpV1.replay recs) r := by
  simp [DumpV1.replay, List.foldl_append]

theorem dumpv1_process_counts (st : DumpV1.State) (r : DumpV1.rec_t) :
    (DumpV1.process st r).cnt0 = (if r.op = 0 then (st.cnt0 + 1) % U64 else st.cnt0) ∧
    (DumpV1.process st r).cnt1 = (if r.op = 1 then (st.cnt1 + 1) % U64 else st.cnt1) ∧
    (DumpV1.process st r).cnt2 = (if r.op = 2 then (st.cnt2 + 1) % U64 else st.cnt2) ∧
    (DumpV1.process st r).cnt3 = (if r.op = 3 then (st.cnt3 + 1) % U64 else st.cnt3) ∧
    (DumpV1.process st r).idx = st.idx + 1 := by
  unfold DumpV1.process
  dsimp only
  obtain ⟨a0, a1, a2, a3, a4⟩ := dumpv1_apply_op_cnt
    (DumpV1.count_op { st with first_ts := if st.first_ts = 0 then r.ts_ns else st.first_ts,
                               last_ts := r.ts_ns } r.op) r
  obtain ⟨b0, b1, b2, b3, b4⟩ := dumpv1_count_op_fields
    { st with first_ts := if st.first_ts = 0 then r.ts_ns else st.first_ts,
              last_ts := r.ts_ns } r.op
  rw [a0, a1, a2, a3, a4, b0, b1, b2, b3, b4]
  exact ⟨rfl, rfl, rfl, rfl, rfl⟩

/-- The number of records of a list that carry operation code `k`. -/
theorem dumpv1_replay_counts (recs : List (DumpV1.rec_t)) :
    (DumpV1.replay recs).cnt0 = (recs.filter (fun r => decide (r.op = 0))).length % U64 ∧
    (DumpV1.replay recs).cnt1 = (recs.filter (fun r => decide (r.op = 1))).length % U64 ∧
    (DumpV1.replay recs).cnt2 = (recs.filter (fun r => decide (r.op = 2))).length % U64 ∧
    (DumpV1.replay recs).cnt3 = (recs.filter (fun r => decide (r.op = 3))).length % U64 ∧
    (DumpV1.replay recs).idx = recs.length := by
  induction recs using List.reverseRecOn with
  | nil => exact ⟨rfl, rfl, rfl, rfl, rfl⟩
  | append_singleton l r ih =>
    obtain ⟨i0, i1, i2, i3, i4⟩ := ih
    obtain ⟨p0, p1, p2, p3, p4⟩ := dumpv1_process_counts (DumpV1.replay l) r
    rw [dumpv1_replay_snoc, p0, p1, p2, p3, p4, i0, i1, i2, i3, i4]
    simp only [List.filter_append, List.length_append, List.filter_cons, List.filter_nil]
    have hU : U64 = 18446744073709551616 := by decide
    rw [hU]
    refine ⟨?_, ?_, ?_, ?_, ?_⟩
    · by_cases h : r.op = 0 <;> simp [h]
    · by_cases h : r.op = 1 <;> simp [h]
    · by_cases h : r.op = 2 <;> simp [h]
    · by_cases h : r.op = 3 <;> simp [h]
    · simp

theorem dump_process_unknown (st : Dump.State) (r : Dump.rec_v1 × Nat) (h : 4 ≤ r.1.op) :
    Dump.process st r =
      { st with first_ts := if st.first_ts = 0 then r.1.ts_ns else st.first_ts,
                last_ts := r.1.ts_ns, idx := st.idx + 1 } := by
  unfold Dump.process
  dsimp only
  rw [dump_count_op_unknown _ _ h]
  unfold Dump.apply_op
  rw [if_neg (by omega), if_neg (by omega), if_neg (by omega), if_neg (by omega)]

theorem dumpv1_process_unknown (st : DumpV1.State) (r : DumpV1.rec_t) (h : 4 ≤ r.op) :
    DumpV1.process st r =
      { st with first_ts := if st.first_ts = 0 then r.ts_ns else st.first_ts,
                last_ts := r.ts_ns, idx := st.idx + 1 } := by
  unfold DumpV1.process
  dsimp only
  rw [dumpv1_count_op_unknown _ _ h]
  unfold DumpV1.apply_op
  rw [if_neg (by omega), if_neg (by omega), if_neg (by omega), if_neg (by omega)]

theorem dump_op_name_unknown (op : Nat) (h : 4 ≤ op) : Dump.op_name op = "?" := by
  obtain ⟨k, rfl⟩ : ∃ k, op = k + 4 := ⟨op - 4, by omega⟩
  rfl

/-- C23 (as the code has it): both binary decoders process every record they
read whatever its operation code (`idx` ends as the number of records); the
four counters hold the numbers of records with code 0, 1, 2 and 3 modulo
`2 ^ 64`; a record with any other code is counted in none of them, leaves
the live list and the four byte totals as they were, and shows only as the
name `?` in the CSV projection. -/
theorem op_counts (recs : List (Dump.rec_v1 × Nat)) (recs1 : List DumpV1.rec_t) :
    ((Dump.replay recs).idx = recs.length ∧
      (Dump.replay recs).cnt0 = (recs.filter (fun r => decide (r.1.op = 0))).length % U64 ∧
      (Dump.replay recs).cnt1 = (recs.filter (fun r => decide (r.1.op = 1))).length % U64 ∧
      (Dump.replay recs).cnt2 = (recs.filter (fun r => decide (r.1.op = 2))).length % U64 ∧
      (Dump.replay recs).cnt3 = (recs.filter (fun r => decide (r.1.op = 3))).length % U64) ∧
    ((DumpV1.replay recs1).idx = recs1.length ∧
      (DumpV1.replay recs1).cnt0 = (recs1.filter (fun r => decide (r.op = 0))).length % U64 ∧
      (DumpV1.replay recs1).cnt1 = (recs1.filter (fun r => decide (r.op = 1))).length % U64 ∧
      (DumpV1.replay recs1).cnt2 = (recs1.filter (fun r => decide (r.op = 2))).length % U64 ∧
      (DumpV1.replay recs1).cnt3 = (recs1.filter (fun r => decide (r.op = 3))).length % U64) ∧
    (∀ (st : Dump.State) (r : Dump.rec_v1 × Nat), 4 ≤ r.1.op →
      (Dump.process st r).live_head = st.live_head ∧
      (Dump.process st r).total_malloc = st.total_malloc ∧
      (Dump.process st r).total_calloc = st.total_calloc ∧
      (Dump.process st r).total_realloc_new = st.total_realloc_new ∧
      (Dump.process st r).total_freed = st.total_freed ∧
      (Dump.process st r).cnt0 = st.cnt0 ∧ (Dump.process st r).cnt1 = st.cnt1 ∧
      (Dump.process st r).cnt2 = st.cnt2 ∧ (Dump.process st r).cnt3 = st.cnt3 ∧
      (Dump.process st r).idx = st.idx + 1 ∧ Dump.op_name r.1.op = "?") ∧
    (∀ (st : DumpV1.State) (r : DumpV1.rec_t), 4 ≤ r.op →
      (DumpV1.process st r).live_head = st.live_head ∧
      (DumpV1.process st r).total_malloc = st.total_malloc ∧
      (DumpV1.process st r).total_calloc = st.total_calloc ∧
      (DumpV1.process st r).total_realloc_new = st.total_realloc_new ∧
      (DumpV1.process st r).total_freed = st.total_freed ∧
      (DumpV1.process st r).cnt0 = st.cnt0 ∧ (DumpV1.process st r).cnt1 = st.cnt1 ∧
      (DumpV1.process st r).cnt2 = st.cnt2 ∧ (DumpV1.process st r).cnt3 = st.cnt3 ∧
      (DumpV1.process st r).idx = st.idx + 1) := by
  obtain ⟨a0, a1, a2, a3, a4⟩ := dump_replay_counts recs
  obtain ⟨b0, b1, b2, b3, b4⟩ := dumpv1_replay_counts recs1
  refine ⟨⟨a4, a0, a1, a2, a3⟩, ⟨b4, b0, b1, b2, b3⟩, ?_, ?_⟩
  · intro st r h
    rw [dump_process_unknown st r h]
    exact ⟨rfl, rfl, rfl, rfl, rfl, rfl, rfl, rfl, rfl, rfl, dump_op_name_unknown _ h⟩
  · intro st r h
    rw [dumpv1_process_unknown st r h]
    exact ⟨rfl, rfl, rfl, rfl, rfl, rfl, rfl, rfl, rfl, rfl⟩

/-- C23 fails as stated: a single record with operation code 7 is processed
(`idx = 1`) while the four per-operation counters, the only counters the
decoders keep, stay at zero, so the counts do not sum to the number of records. -/
theorem unknown_op_uncounted :
    (Dump.replay [({ ts_ns := 1, tid := 1, op := 7, pad := 0, ptr := 16, arg := 8, retaddr := 0 }, 0)]).idx = 1 ∧
    (Dump.replay [({ ts_ns := 1, tid := 1, op := 7, pad := 0, ptr := 16, arg := 8, retaddr := 0 }, 0)]).cnt0 +
      (Dump.replay [({ ts_ns := 1, tid := 1, op := 7, pad := 0, ptr := 16, arg := 8, retaddr := 0 }, 0)]).cnt1 +
      (Dump.replay [({ ts_ns := 1, tid := 1, op := 7, pad := 0, ptr := 16, arg := 8, retaddr := 0 }, 0)]).cnt2 +
      (Dump.replay [({ ts_ns := 1, tid := 1, op := 7, pad := 0, ptr := 16, arg := 8, retaddr := 0 }, 0)]).cnt3 = 0 ∧
    (DumpV1.replay [{ ts_ns := 1, tid := 1, op := 7, pad := 0, ptr := 16, arg := 8, retaddr := 0 }]).idx = 1 ∧
    (DumpV1.replay [{ ts_ns := 1, tid := 1, op := 7, pad := 0, ptr := 16, arg := 8, retaddr := 0 }]).cnt0 +
      (DumpV1.replay [{ ts_ns := 1, tid := 1, op := 7, pad := 0, ptr := 16, arg := 8, retaddr := 0 }]).cnt1 +
      (DumpV1.replay [{ ts_ns := 1, tid := 1, op := 7, pad := 0, ptr := 16, arg := 8, retaddr := 0 }]).cnt2 +
      (DumpV1.replay [{ ts_ns := 1, tid := 1, op := 7, pad := 0, ptr := 16, arg := 8, retaddr := 0 }]).cnt3 = 0 := by
  decide


theorem dumpv1_read_loop (f : DumpV1.File) : ∀ (fuel pos : Nat) (acc : List DumpV1.rec_t),
    (f.sz - pos) / 40 < fuel →
    DumpV1.read_loop f fuel pos acc =
      acc.reverse ++ (List.range ((f.sz - pos) / 40)).map (fun i => f.at_off (pos + 40 * i)) := by
  intro fuel
  induction fuel with
  | zero => intro pos acc h; omega
  | succ fuel ih =>
    intro pos acc h
    unfold DumpV1.read_loop
    by_cases hp : pos + 40 ≤ f.sz
    · rw [if_pos hp, ih (pos + 40) _ (by omega)]
      have e : (f.sz - pos) / 40 = (f.sz - (pos + 40)) / 40 + 1 := by omega
      rw [e, List.range_succ_eq_map, List.map_cons, List.map_map, List.reverse_cons,
        List.append_assoc]
      congr 1
      rw [List.singleton_append]
      congr 1
      apply List.map_congr_left
      intro i _
      show f.at_off (pos + 40 + 40 * i) = f.at_off (pos + 40 * (i + 1))
      congr 1
      omega
    · rw [if_neg hp]
      have e : (f.sz - pos) / 40 = 0 := by omega
      rw [e]
      simp

theorem dumpv1_read_file (f : DumpV1.File) :
    DumpV1.read_file f = (List.range (f.sz / 40)).map (fun i => f.at_off (40 * i)) := by
  unfold DumpV1.read_file
  rw [dumpv1_read_loop f _ _ _ (by simp only [Nat.sub_zero]; omega)]
  simp

/-- C26: the 48/40-byte decoder hands exactly `sz / R` records to the replay,
`R` being the record size of the layout finally used, namely the records at
offsets `0, R, 2R, ...` in file order; bytes after the last whole record are
never decoded; `nrec` is that number and so is the number of records replayed
(`idx`).  The same holds for the 40-byte-only decoder with `R = 40`. -/
theorem decode_whole_records (f : Dump.File) (g : DumpV1.File) :
    ((Dump.read_file f).is_v2 = true →
      (Dump.read_file f).recs =
        (List.range (f.sz / 48)).map (fun i => Dump.of_v2 (f.v2 (48 * i))) ∧
      (Dump.read_file f).nrec = f.sz / 48 ∧ (Dump.run f).idx = f.sz / 48) ∧
    ((Dump.read_file f).is_v2 = false →
      (Dump.read_file f).recs = (List.range (f.sz / 40)).map (fun i => (f.v1 (40 * i), 0)) ∧
      (Dump.read_file f).nrec = f.sz / 40 ∧ (Dump.run f).idx = f.sz / 40) ∧
    (DumpV1.read_file g = (List.range (g.sz / 40)).map (fun i => g.at_off (40 * i)) ∧
      DumpV1.nrec_of g.sz = g.sz / 40 ∧ (DumpV1.run g).idx = g.sz / 40) := by
  have hidx : (Dump.run f).idx = (Dump.read_file f).recs.length :=
    (dump_replay_counts (Dump.read_file f).recs).2.2.2.2
  refine ⟨?_, ?_, ?_, ?_, ?_⟩
  · intro h
    rw [hidx]
    cases hg : Dump.guess_v2 f.sz
    · rw [read_file_v1 f hg] at h; exact absurd h (by simp)
    · by_cases h48 : 48 ≤ f.sz
      · rw [read_file_v2 f hg h48]; simp
      · rw [read_file_fallback f hg (by omega)] at h; exact absurd h (by simp)
  · intro h
    rw [hidx]
    cases hg : Dump.guess_v2 f.sz
    · rw [read_file_v1 f hg]; simp
    · by_cases h48 : 48 ≤ f.sz
      · rw [read_file_v2 f hg h48] at h; exact absurd h (by simp)
      · rw [read_file_fallback f hg (by omega)]; simp
  · exact dumpv1_read_file g
  · unfold DumpV1.nrec_of
    split_ifs with h
    · rfl
    · omega
  · have := (dumpv1_replay_counts (DumpV1.read_file g)).2.2.2.2
    unfold DumpV1.run
    rw [this, dumpv1_read_file]
    simp


namespace Analyze

theorem find_field_some (hdr : List String) (name : String) :
    ∀ i, (find_field hdr name i).isSome = true ↔ name ∈ hdr := by
  induction hdr with
  | nil => intro i; simp [find_field]
  | cons h rest ih =>
    intro i
    unfold find_field
    by_cases e : h = name
    · rw [if_pos e]; simp [e]
    · rw [if_neg e, ih (i + 1)]
      constructor
      · intro hm; exact List.mem_cons_of_mem _ hm
      · intro hm
        rcases List.mem_cons.1 hm with e2 | e2
        · exact absurd e2.symm e
        · exact e2

/-- C25 (as the code has it): `find_cols` succeeds exactly on the headers that
contain every one of the nine column names; on the nine-column header it
finds the columns at positions 0 to 8 in the order written. -/
theorem find_cols_needs_all (hdr : List String) :
    ((find_cols hdr).isSome = true ↔
      ("idx" ∈ hdr ∧ "ts_ns" ∈ hdr ∧ "wall_ns" ∈ hdr ∧ "wall_time" ∈ hdr ∧ "tid" ∈ hdr ∧
        "op" ∈ hdr ∧ "ptr" ∈ hdr ∧ "arg" ∈ hdr ∧ "retaddr" ∈ hdr)) ∧
    find_cols (split_csv_line "idx,ts_ns,wall_ns,wall_time,tid,op,ptr,arg,retaddr") =
      some { idx := 0, ts_ns := 1, wall_ns := 2, wall_time := 3, tid := 4, op := 5, ptr := 6,
             arg := 7, retaddr := 8 } := by
  constructor
  · rw [← find_field_some hdr "idx" 0, ← find_field_some hdr "ts_ns" 0,
      ← find_field_some hdr "wall_ns" 0, ← find_field_some hdr "wall_time" 0,
      ← find_field_some hdr "tid" 0, ← find_field_some hdr "op" 0,
      ← find_field_some hdr "ptr" 0, ← find_field_some hdr "arg" 0,
      ← find_field_some hdr "retaddr" 0]
    unfold find_cols
    cases find_field hdr "idx" 0 <;> cases find_field hdr "ts_ns" 0 <;>
    cases find_field hdr "wall_ns" 0 <;> cases find_field hdr "wall_time" 0 <;>
    cases find_field hdr "tid" 0 <;> cases find_field hdr "op" 0 <;>
    cases find_field hdr "ptr" 0 <;> cases find_field hdr "arg" 0 <;>
    cases find_field hdr "retaddr" 0 <;> simp
  · decide

/-- C25 fails as stated: on the header without the wall-clock columns, the one
the 40-byte dump tool writes, `find_cols` returns 0 (column `wall_ns` is
missing) and the replayer leaves with status 2 before reading any row. -/
theorem short_header_rejected :
    find_cols (split_csv_line "idx,ts_ns,tid,op,ptr,arg,retaddr") = none ∧
    ∀ (cv : Conv) (approx_mem : Nat) (lines : List String),
      replay_csv cv approx_mem "idx,ts_ns,tid,op,ptr,arg,retaddr\n" lines = none := by
  have h : find_cols (split_csv_line (strip_eol "idx,ts_ns,tid,op,ptr,arg,retaddr\n")) = none := by
    decide
  refine ⟨by decide, ?_⟩
  intro cv T lines
  unfold replay_csv
  rw [h]

end Analyze


namespace Analyze

theorem replay_lines_append (cv : Conv) (T ncol : Nat) (ix : ColIx) :
    ∀ (pre post : List String) (s : Replay),
      replay_lines cv T ncol ix s (pre ++ post) =
        match replay_lines cv T ncol ix s pre with
        | none => none
        | some s1 => replay_lines cv T ncol ix s1 post := by
  intro pre
  induction pre with
  | nil => intro post s; rfl
  | cons l rest ih =>
    intro post s
    simp only [List.cons_append, replay_lines]
    cases line_step cv T ncol ix s l with
    | none => rfl
    | some s1 => exact ih post s1

/-- C24: a data line that splits into fewer fields than the header has is
skipped: the loop body returns the replay state it was given, whole, and the
run over the lines equals the run over the lines without that one, so the
lines after it are processed as if it were not there. -/
theorem short_row_skipped (cv : Conv) (approx_mem ncol : Nat) (ix : ColIx)
    (pre post : List String) (line : String) (s0 : Replay)
    (h : (split_csv_line (strip_eol line)).length < ncol) :
    (∀ s, line_step cv approx_mem ncol ix s line = some s) ∧
    replay_lines cv approx_mem ncol ix s0 (pre ++ line :: post) =
      replay_lines cv approx_mem ncol ix s0 (pre ++ post) := by
  have hstep : ∀ s, line_step cv approx_mem ncol ix s line = some s := by
    intro s
    unfold line_step
    rw [if_pos h]
  refine ⟨hstep, ?_⟩
  rw [replay_lines_append, replay_lines_append]
  cases replay_lines cv approx_mem ncol ix s0 pre with
  | none => rfl
  | some s1 =>
    show (match line_step cv approx_mem ncol ix s1 line with
      | none => none
      | some s2 => replay_lines cv approx_mem ncol ix s2 post) = _
    rw [hstep]

/-- C24 at a concrete input: the three-field line `7,1000,malloc` under a
nine-column header, between two full lines. -/
theorem short_row_skipped_witness :
    (split_csv_line (strip_eol "7,1000,malloc\n")).length < 9 ∧
    replay_lines ⟨fun _ => 0, fun _ => 0, fun _ => 0, fun _ => 0⟩ 0 9
        { idx := 0, ts_ns := 1, wall_ns := 2, wall_time := 3, tid := 4, op := 5, ptr := 6,
          arg := 7, retaddr := 8 } init
        (["0,10,0,-,1,malloc,0x10,64,0x400\n"] ++
          "7,1000,malloc\n" :: ["1,20,0,-,1,free,0x10,0,0x404\n"]) =
      replay_lines ⟨fun _ => 0, fun _ => 0, fun _ => 0, fun _ => 0⟩ 0 9
        { idx := 0, ts_ns := 1, wall_ns := 2, wall_time := 3, tid := 4, op := 5, ptr := 6,
          arg := 7, retaddr := 8 } init
        (["0,10,0,-,1,malloc,0x10,64,0x400\n"] ++ ["1,20,0,-,1,free,0x10,0,0x404\n"]) :=
  ⟨by decide, (short_row_skipped _ 0 9 _ _ _ "7,1000,malloc\n" init (by decide)).2⟩

end Analyze


namespace Analyze

/-- C27: when the removal block of a `free` or `realloc` row finds the row's
address live with stored entry `old`, the clamped subtraction of `old.size`
is applied to the counters of `old.tid` and `old.ra`, the thread and call site
stored in the block, and the counters of every other thread and call site are
as before, whatever thread and return address the removing row carries; the
stored entry is the one the insertion block wrote from the allocating row. -/
theorem removal_charges_owner (s s' : Replay) (r : Row) (old : LiveEnt) (hw : WF s.live)
    (hl : lookup s.live r.ptr = some old) (h : remove_old s r = some s') :
    stat_get s'.tstats old.tid = stat_sub old.size (stat_get s.tstats old.tid) ∧
    stat_get s'.rstats old.ra = stat_sub old.size (stat_get s.rstats old.ra) ∧
    (∀ t, t ≠ old.tid → stat_get s'.tstats t = stat_get s.tstats t) ∧
    (∀ a, a ≠ old.ra → stat_get s'.rstats a = stat_get s.rstats a) ∧
    (∀ (s0 s1 : Replay) (r1 : Row), WF s0.live → add_new s0 r1 = some s1 →
      ∃ e, lookup s1.live r1.ptr = some e ∧ e.tid = r1.tid ∧ e.ra = r1.ra ∧ e.size = r1.arg) := by
  obtain ⟨-, -, -, -, -, hold⟩ := remove_old_spec s s' r hw h
  obtain ⟨⟨m, hm⟩, -, -⟩ := hold old hl
  have ht : s'.tstats = modify_at (stat_sub old.size) (get_stat s.tstats old.tid).1
      (get_stat s.tstats old.tid).2 := by rw [hm]; rfl
  have hr : s'.rstats = modify_at (stat_sub old.size) (get_stat s.rstats old.ra).1
      (get_stat s.rstats old.ra).2 := by rw [hm]; rfl
  rw [ht, hr]
  refine ⟨?_, ?_, ?_, ?_, ?_⟩
  · rw [stat_get_upd _ (stat_sub_id old.size), if_pos rfl]
  · rw [stat_get_upd _ (stat_sub_id old.size), if_pos rfl]
  · intro t hne
    rw [stat_get_upd _ (stat_sub_id old.size), if_neg hne]
  · intro a hne
    rw [stat_get_upd _ (stat_sub_id old.size), if_neg hne]
  · intro s0 s1 r1 hw0 hadd
    exact ⟨ent_of r1, (add_new_spec s0 s1 r1 hw0 hadd).2.2.1, rfl, rfl, rfl⟩

/-- C27 at a concrete input: a block of 100 bytes allocated by thread 1 at
call site 7 and freed by thread 2 at call site 9. -/
theorem removal_charges_owner_witness :
    (stat_get (Option.get (remove_old
        (Option.get (replay 0 [mk_row 0 "malloc" 16 100 1 7]) (by decide))
        (mk_row 1 "free" 16 0 2 9)) (by decide)).tstats 1).cur = 0 ∧
    (stat_get (Option.get (replay 0 [mk_row 0 "malloc" 16 100 1 7]) (by decide)).tstats 1).cur
      = 100 ∧
    stat_get (Option.get (remove_old
        (Option.get (replay 0 [mk_row 0 "malloc" 16 100 1 7]) (by decide))
        (mk_row 1 "free" 16 0 2 9)) (by decide)).tstats 2 =
      stat_get (Option.get (replay 0 [mk_row 0 "malloc" 16 100 1 7]) (by decide)).tstats 2 := by
  have h := removal_charges_owner
    (Option.get (replay 0 [mk_row 0 "malloc" 16 100 1 7]) (by decide))
    (Option.get (remove_old
        (Option.get (replay 0 [mk_row 0 "malloc" 16 100 1 7]) (by decide))
        (mk_row 1 "free" 16 0 2 9)) (by decide))
    (mk_row 1 "free" 16 0 2 9) (ent_of (mk_row 0 "malloc" 16 100 1 7))
    (reach_wf 0 _ _ (Option.some_get _).symm).1 (by decide) (Option.some_get _).symm
  exact ⟨(congrArg Stat.cur h.1).trans (by decide), by decide, h.2.2.1 2 (by decide)⟩

end Analyze


namespace Analyze

theorem ref_get_cons (e : LiveEnt) (l : List LiveEnt) (k : Nat) :
    ref_get (e :: l) k = if e.key_ptr = k then some e else ref_get l k := by
  unfold ref_get
  by_cases h : e.key_ptr = k
  · simp [List.find?, h]
  · simp [List.find?, h]

theorem ref_get_del (l : List LiveEnt) (k k' : Nat) :
    ref_get (ref_del l k) k' = if k' = k then none else ref_get l k' := by
  induction l with
  | nil => simp [ref_get, ref_del]
  | cons e rest ih =>
    unfold ref_del at ih ⊢
    by_cases hk : e.key_ptr = k
    · rw [List.filter_cons_of_neg (by simp [hk]), ih, ref_get_cons]
      by_cases hk' : k' = k
      · simp [hk']
      · have : ¬ e.key_ptr = k' := by rw [hk]; exact fun h => hk' h.symm
        simp [hk', this]
    · rw [List.filter_cons_of_pos (by simp [hk]), ref_get_cons, ref_get_cons, ih]
      by_cases hk' : k' = k
      · have : ¬ e.key_ptr = k' := by rw [hk']; exact hk
        simp only [if_neg this, if_pos hk']
      · simp only [if_neg hk']

theorem ref_get_none (l : List LiveEnt) (k : Nat) :
    ref_get l k = none ↔ k ∉ l.map LiveEnt.key_ptr := by
  induction l with
  | nil => simp [ref_get]
  | cons e rest ih =>
    rw [ref_get_cons]
    by_cases h : e.key_ptr = k
    · simp [h]
    · rw [if_neg h, ih]
      simp only [List.map_cons, List.mem_cons, not_or]
      exact ⟨fun a => ⟨fun b => h b.symm, a⟩, fun a => a.2⟩

theorem ref_del_keys (l : List LiveEnt) (k x : Nat) :
    x ∈ (ref_del l k).map LiveEnt.key_ptr ↔ (x ∈ l.map LiveEnt.key_ptr ∧ x ≠ k) := by
  unfold ref_del
  simp only [List.mem_map, List.mem_filter, decide_eq_true_eq]
  constructor
  · rintro ⟨e, ⟨he, hk⟩, rfl⟩; exact ⟨⟨e, he, rfl⟩, hk⟩
  · rintro ⟨⟨e, he, rfl⟩, hk⟩; exact ⟨e, ⟨he, hk⟩, rfl⟩

theorem ref_del_nodup (l : List LiveEnt) (k : Nat) (h : (l.map LiveEnt.key_ptr).Nodup) :
    ((ref_del l k).map LiveEnt.key_ptr).Nodup := by
  unfold ref_del
  exact List.Nodup.sublist (List.Sublist.map _ (List.filter_sublist _)) h

theorem ref_del_length (l : List LiveEnt) (k : Nat) (h : (l.map LiveEnt.key_ptr).Nodup) :
    (ref_del l k).length + (if ref_get l k = none then 0 else 1) = l.length := by
  induction l with
  | nil => simp [ref_del, ref_get]
  | cons e rest ih =>
    simp only [List.map_cons, List.nodup_cons] at h
    have ih' := ih h.2
    rw [ref_get_cons]
    unfold ref_del at ih' ⊢
    by_cases hk : e.key_ptr = k
    · rw [List.filter_cons_of_neg (by simp [hk]), if_pos hk]
      have hn : ref_get rest k = none := by
        rw [ref_get_none, ← hk]; exact h.1
      rw [hn] at ih'
      simp only [if_true] at ih'
      simp only [List.length_cons]
      have e1 : (if some e = none then 0 else 1) = 1 := by simp
      rw [e1]
      omega
    · rw [List.filter_cons_of_pos (by simp [hk]), if_neg hk]
      simp only [List.length_cons]
      omega

theorem ref_step_nodup (l : List LiveEnt) (o : MapOp) (h : (l.map LiveEnt.key_ptr).Nodup) :
    ((ref_step l o).map LiveEnt.key_ptr).Nodup := by
  cases o with
  | put r =>
    show ((ent_of r :: ref_del l r.ptr).map LiveEnt.key_ptr).Nodup
    rw [List.map_cons, List.nodup_cons]
    refine ⟨?_, ref_del_nodup l _ h⟩
    intro hm
    exact ((ref_del_keys l r.ptr _).1 hm).2 rfl
  | del k => exact ref_del_nodup l k h

theorem ref_run_snoc (ops : List MapOp) (o : MapOp) :
    ref_run (ops ++ [o]) = ref_step (ref_run ops) o := by
  simp [ref_run, List.foldl_append]

theorem ref_run_nodup (ops : List MapOp) : ((ref_run ops).map LiveEnt.key_ptr).Nodup := by
  induction ops using List.reverseRecOn with
  | nil => exact List.nodup_nil
  | append_singleton l o ih => rw [ref_run_snoc]; exact ref_step_nodup _ o ih

theorem map_run_snoc (m : LiveMap) (ops : List MapOp) (o : MapOp) :
    map_run m (ops ++ [o]) =
      match map_run m ops with
      | none => none
      | some m1 => map_step m1 o := by
  induction ops generalizing m with
  | nil =>
    show (match map_step m o with | none => none | some m1 => map_run m1 []) = map_step m o
    cases map_step m o <;> rfl
  | cons a rest ih =>
    simp only [List.cons_append, map_run]
    cases map_step m a with
    | none => rfl
    | some m1 => exact ih m1

end Analyze


namespace Analyze

/-- The invariant reads only the slot array and the capacity. -/
theorem wf_congr (m m' : LiveMap) (ha : m'.a = m.a) (hc : m'.cap = m.cap) (hw : WF m) :
    WF m' := by
  obtain ⟨⟨q, hq⟩, hf⟩ := hw
  refine ⟨⟨q, by rw [hc, hq]⟩, ?_⟩
  intro s hs hu
  rw [ha, hc] at *
  exact hf s hs hu

theorem lookup_congr (m m' : LiveMap) (ha : m'.a = m.a) (hc : m'.cap = m.cap) (k : Nat) :
    lookup m' k = lookup m k := by
  have hloop : ∀ fuel i, live_find_loop m' k fuel i = live_find_loop m k fuel i := by
    intro fuel
    induction fuel with
    | zero => intro i; rfl
    | succ fuel ih =>
      intro i
      unfold live_find_loop
      rw [ha, hc, ih]
  unfold lookup live_find
  rw [hloop, ha, hc]

/-- The table part of the insertion block is `upsert_assign`. -/
theorem add_new_table (s : Replay) (r : Row) :
    (∀ s', add_new s r = some s' → upsert_assign s.live r = some s'.live) ∧
    (∀ m1, upsert_assign s.live r = some m1 → ∃ s', add_new s r = some s' ∧ s'.live = m1) := by
  unfold add_new upsert_assign
  cases h : live_upsert s.live r.ptr with
  | mk m o =>
    cases o with
    | none => exact ⟨fun s' hs => absurd hs (by simp), fun m1 hm => absurd hm (by simp)⟩
    | some e =>
      constructor
      · intro s' hs
        simp only [Option.some.injEq] at hs
        rw [← hs]
      · intro m1 hm
        simp only [Option.some.injEq] at hm
        exact ⟨_, rfl, hm⟩

/-- The pair `live_upsert` + field writes on a well-formed table, in terms of
lookups and of the number and byte sum of the used slots. -/
theorem upsert_assign_spec (m m1 : LiveMap) (r : Row) (hw : WF m)
    (h : upsert_assign m r = some m1) :
    WF m1 ∧ m1.cap = m.cap ∧ lookup m1 r.ptr = some (ent_of r) ∧
    (∀ k, k ≠ r.ptr → lookup m1 k = lookup m k) ∧
    (∀ old, lookup m r.ptr = some old →
      sum_used m1.a m.cap + old.size = sum_used m.a m.cap + r.arg ∧
      count_used m1.a m.cap = count_used m.a m.cap) ∧
    (lookup m r.ptr = none →
      sum_used m1.a m.cap = sum_used m.a m.cap + r.arg ∧
      count_used m1.a m.cap = count_used m.a m.cap + 1) := by
  obtain ⟨s', hs', hl⟩ := (add_new_table { init with live := m } r).2 m1 h
  have := add_new_spec { init with live := m } s' r hw hs'
  rw [hl] at this
  exact this

theorem upsert_assign_total (m : LiveMap) (r : Row) (hw : WF m)
    (h : lookup m r.ptr ≠ none ∨ count_used m.a m.cap < m.cap) :
    ∃ m1, upsert_assign m r = some m1 := by
  obtain ⟨s', hs'⟩ := add_new_total { init with live := m } r hw h
  exact ⟨s'.live, (add_new_table { init with live := m } r).1 s' hs'⟩

/-- Routine `live_erase` on a well-formed table, in terms of lookups and of
the number and byte sum of the used slots. -/
theorem erase_spec (m m' : LiveMap) (out : Option LiveEnt) (key : Nat) (hw : WF m)
    (h : live_erase m key = some (m', out)) :
    WF m' ∧ m'.cap = m.cap ∧ out = lookup m key ∧ lookup m' key = none ∧
    (∀ k, k ≠ key → lookup m' k = lookup m k) ∧
    (out = none → m' = m) ∧
    (∀ old, out = some old →
      sum_used m'.a m.cap + old.size = sum_used m.a m.cap ∧
      count_used m'.a m.cap + 1 = count_used m.a m.cap) := by
  cases hfind : live_find m key with
  | none =>
    rw [erase_of_find_none _ _ hfind] at h
    simp only [Option.some.injEq, Prod.mk.injEq] at h
    obtain ⟨h1, h2⟩ := h
    subst h1 h2
    have hl : lookup m key = none := (lookup_none_iff _ _).2 hfind
    refine ⟨hw, rfl, hl.symm, hl, fun _ _ => rfl, fun _ => rfl, ?_⟩
    intro old ho
    exact absurd ho (by simp)
  | some i =>
    obtain ⟨e1, e2, e3, e4, e5, e6⟩ := (erase_present m hw key i hfind).1 _ h
    dsimp only at e1 e2 e3 e4 e5 e6
    have hlook : lookup m key = some (m.a i) := by
      unfold lookup; rw [hfind]; rfl
    refine ⟨e1, e3, by rw [hlook]; exact e2, ?_, ?_, ?_, ?_⟩
    · rw [lookup_none_iff, find_none_iff m' e1]
      intro x hx hxu hk
      rw [e3] at hx
      exact ((e4 (m'.a x)).1 ⟨x, hx, hxu, rfl⟩).2 hk
    · intro k hk
      apply lookup_of_holds m m' hw e1 e3
      intro e hek
      rw [e4]
      exact ⟨fun a => a.1, fun a => ⟨a, by rw [hek]; exact hk⟩⟩
    · intro ho
      rw [ho] at e2
      exact absurd e2 (by simp)
    · intro old ho
      rw [ho] at e2
      simp only [Option.some.injEq] at e2
      rw [e2]
      exact ⟨e5, e6⟩

theorem erase_total (m : LiveMap) (key : Nat) (hw : WF m)
    (h : count_used m.a m.cap < m.cap) : ∃ m', live_erase m key = some (m', lookup m key) := by
  cases hfind : live_find m key with
  | none =>
    rw [erase_of_find_none _ _ hfind, (lookup_none_iff _ _).2 hfind]
    exact ⟨m, rfl⟩
  | some i =>
    obtain ⟨res, hres⟩ := (erase_present m hw key i hfind).2 h
    obtain ⟨m', out⟩ := res
    have := (erase_spec m m' out key hw hres).2.2.1
    rw [← this]
    exact ⟨m', hres⟩

end Analyze


namespace Analyze

/-- With an unused slot in the array, `live_upsert` never returns `NULL`
(no invariant of the table is needed for this). -/
theorem upsert_some_of_unused (m : LiveMap) (hc : CapOk m) (u : Nat) (hu : u < m.cap)
    (huu : (m.a u).used = false) (key : Nat) : (live_upsert m key).2 ≠ none := by
  have hN := cap_pos m hc
  unfold live_upsert
  rw [cap_and m hc]
  rcases upsert_loop_spec m hc key m.cap (hmix key % m.cap) (Nat.mod_lt _ hN) with
    ⟨d, _, _, _, h2⟩ | ⟨d, _, _, _, _, h2⟩ | ⟨h1, _⟩
  · rw [h2]; simp
  · rw [h2]; simp
  · obtain ⟨d, hd, e⟩ := probe_surj m.cap (hmix key % m.cap) u (Nat.mod_lt _ hN) hu
    have := (h1 d hd).1
    rw [e, huu] at this
    exact absurd this (by simp)

theorem claim_is_ent (e : LiveEnt) (key : Nat) :
    claim_ent e key =
      ent_of { idx := 0, ts_ns := e.ts_ns, wall_ns := 0, wall_time := e.wall_time, tid := e.tid,
               op := "", ptr := key, arg := e.size, ra := e.ra } := by
  cases e; rfl

/-- Routine `live_upsert` alone on a well-formed table. -/
theorem upsert_raw_spec (m : LiveMap) (hw : WF m) (key : Nat) :
    WF (live_upsert m key).1 ∧ (live_upsert m key).1.cap = m.cap ∧
    (lookup m key ≠ none → live_upsert m key = (m, live_find m key)) ∧
    (lookup m key = none → count_used m.a m.cap < m.cap →
      ∃ p, p < m.cap ∧ (m.a p).used = false ∧
        live_upsert m key = ({ m with a := set_slot m.a p (claim_ent (m.a p) key),
                                      cnt := (m.cnt + 1) % U64 }, some p) ∧
        count_used (set_slot m.a p (claim_ent (m.a p) key)) m.cap = count_used m.a m.cap + 1) ∧
    (lookup m key = none → count_used m.a m.cap = m.cap → live_upsert m key = (m, none)) := by
  cases hfind : live_find m key with
  | some s =>
    have hl : lookup m key ≠ none := by rw [Ne, lookup_none_iff, hfind]; simp
    rw [upsert_present m key s hfind]
    exact ⟨hw, rfl, fun _ => rfl, fun h => absurd h hl, fun h => absurd h hl⟩
  | none =>
    have hl : lookup m key = none := (lookup_none_iff _ _).2 hfind
    by_cases hcount : count_used m.a m.cap < m.cap
    · obtain ⟨u, hu, huu⟩ := exists_unused _ _ hcount
      obtain ⟨p, d, hp, hd, hpu, hpe, hsk, e⟩ := upsert_absent m hw key u hfind hu huu
      rw [e]
      have habs := (find_none_iff m hw key).1 hfind
      have hins := insert_spec m.a m.cap p
        { idx := 0, ts_ns := (m.a p).ts_ns, wall_ns := 0, wall_time := (m.a p).wall_time,
          tid := (m.a p).tid, op := "", ptr := key, arg := (m.a p).size, ra := (m.a p).ra }
        hp hw.2 (Or.inr ⟨hpu, habs, d, hd, hpe, hsk⟩)
      rw [← claim_is_ent] at hins
      obtain ⟨i1, -, -, i4⟩ := hins
      rw [hpu] at i4
      simp only [Bool.false_eq_true, if_false, Nat.add_zero] at i4
      refine ⟨⟨hw.1, i1⟩, rfl, fun h => absurd hl h, ?_, ?_⟩
      · intro _ _
        exact ⟨p, hp, hpu, rfl, i4⟩
      · intro _ hfull
        omega
    · have hfull : count_used m.a m.cap = m.cap := by
        have := count_used_le m.a m.cap
        omega
      rw [upsert_full m hw key hfind (all_used_of_count _ _ hfull)]
      exact ⟨hw, rfl, fun h => absurd hl h, fun _ h => absurd h hcount, fun _ _ => rfl⟩

/-- A write to the value fields of a used slot keeps the table well-formed. -/
theorem assign_wf (m : LiveMap) (hw : WF m) (e : Nat) (r : Row) (he : e < m.cap)
    (hu : (m.a e).used = true) :
    WF { m with a := set_slot m.a e (fill_ent (m.a e) r) } ∧
    count_used (set_slot m.a e (fill_ent (m.a e) r)) m.cap = count_used m.a m.cap := by
  have hfill : fill_ent (m.a e) r = ent_of { r with ptr := (m.a e).key_ptr } :=
    fill_present (m.a e) { r with ptr := (m.a e).key_ptr } hu rfl
  rw [hfill]
  obtain ⟨i1, -, -, i4⟩ := insert_spec m.a m.cap e { r with ptr := (m.a e).key_ptr } he hw.2
    (Or.inl ⟨hu, rfl⟩)
  rw [hu] at i4
  simp only [if_true] at i4
  exact ⟨⟨hw.1, i1⟩, by omega⟩

/-- Every reachable table is well-formed with capacity `2 ^ 20`. -/
theorem reachable_wf (m : LiveMap) (hr : Reachable m) : WF m ∧ m.cap = 2 ^ 20 := by
  induction hr with
  | init => exact ⟨wf_init, rfl⟩
  | upsert m key _ ih =>
    obtain ⟨a, b, -⟩ := upsert_raw_spec m ih.1 key
    exact ⟨a, b.trans ih.2⟩
  | assign m e r _ he hu ih => exact ⟨(assign_wf m ih.1 e r he hu).1, ih.2⟩
  | erase m key m' out _ h ih =>
    obtain ⟨a, b, -⟩ := erase_spec m m' out key ih.1 h
    exact ⟨a, b.trans ih.2⟩

end Analyze


namespace Analyze

theorem ref_del_sum (l : List LiveEnt) (k : Nat) (h : (l.map LiveEnt.key_ptr).Nodup) :
    ((ref_del l k).map LiveEnt.size).sum +
      (match ref_get l k with
        | none => 0
        | some e => e.size) = (l.map LiveEnt.size).sum := by
  induction l with
  | nil => simp [ref_del, ref_get]
  | cons e rest ih =>
    simp only [List.map_cons, List.nodup_cons] at h
    have ih' := ih h.2
    rw [ref_get_cons]
    unfold ref_del at ih' ⊢
    by_cases hk : e.key_ptr = k
    · rw [List.filter_cons_of_neg (by simp [hk]), if_pos hk]
      have hn : ref_get rest k = none := by
        rw [ref_get_none, ← hk]; exact h.1
      rw [hn] at ih'
      simp only [List.map_cons, List.sum_cons]
      dsimp only at ih' ⊢
      omega
    · rw [List.filter_cons_of_pos (by simp [hk]), if_neg hk]
      simp only [List.map_cons, List.sum_cons]
      omega

/-- The correspondence between a table and a reference map. -/
theorem put_refines (m m1 : LiveMap) (l : List LiveEnt) (r : Row) (hw : WF m)
    (hl : ∀ k, lookup m k = ref_get l k) (hn : (l.map LiveEnt.key_ptr).Nodup)
    (hc : count_used m.a m.cap = l.length)
    (hs : sum_used m.a m.cap = (l.map LiveEnt.size).sum)
    (h : upsert_assign m r = some m1) :
    WF m1 ∧ m1.cap = m.cap ∧
    (∀ k, lookup m1 k = ref_get (ref_step l (MapOp.put r)) k) ∧
    count_used m1.a m1.cap = (ref_step l (MapOp.put r)).length ∧
    sum_used m1.a m1.cap = ((ref_step l (MapOp.put r)).map LiveEnt.size).sum := by
  obtain ⟨a1, a2, a3, a4, a5, a6⟩ := upsert_assign_spec m m1 r hw h
  have hlen := ref_del_length l r.ptr hn
  have hsum := ref_del_sum l r.ptr hn
  have hstep : ref_step l (MapOp.put r) = ent_of r :: ref_del l r.ptr := rfl
  rw [hstep, a2]
  refine ⟨a1, rfl, ?_, ?_, ?_⟩
  · intro k
    rw [ref_get_cons]
    by_cases hk : k = r.ptr
    · have e1 : (ent_of r).key_ptr = r.ptr := rfl
      rw [hk, a3, if_pos e1]
    · have : ¬ (ent_of r).key_ptr = k := fun e => hk e.symm
      rw [if_neg this, a4 k hk, ref_get_del, if_neg hk, hl]
  · rw [List.length_cons]
    cases hlook : lookup m r.ptr with
    | none =>
      rw [← hl, hlook] at hlen
      simp only [if_true] at hlen
      rw [(a6 hlook).2]
      omega
    | some old =>
      rw [← hl, hlook] at hlen
      have e1 : (if some old = none then 0 else 1) = 1 := by simp
      rw [e1] at hlen
      rw [(a5 old hlook).2]
      omega
  · rw [List.map_cons, List.sum_cons]
    have hsz : (ent_of r).size = r.arg := rfl
    rw [hsz]
    cases hlook : lookup m r.ptr with
    | none =>
      rw [← hl, hlook] at hsum
      dsimp only at hsum
      rw [(a6 hlook).1]
      omega
    | some old =>
      rw [← hl, hlook] at hsum
      dsimp only at hsum
      have := (a5 old hlook).1
      omega

theorem del_refines (m m' : LiveMap) (out : Option LiveEnt) (l : List LiveEnt) (key : Nat)
    (hw : WF m) (hl : ∀ k, lookup m k = ref_get l k) (hn : (l.map LiveEnt.key_ptr).Nodup)
    (hc : count_used m.a m.cap = l.length)
    (hs : sum_used m.a m.cap = (l.map LiveEnt.size).sum)
    (h : live_erase m key = some (m', out)) :
    WF m' ∧ m'.cap = m.cap ∧ out = ref_get l key ∧
    (∀ k, lookup m' k = ref_get (ref_step l (MapOp.del key)) k) ∧
    count_used m'.a m'.cap = (ref_step l (MapOp.del key)).length ∧
    sum_used m'.a m'.cap = ((ref_step l (MapOp.del key)).map LiveEnt.size).sum := by
  obtain ⟨a1, a2, a3, a4, a5, a6, a7⟩ := erase_spec m m' out key hw h
  have hlen := ref_del_length l key hn
  have hsum := ref_del_sum l key hn
  have hstep : ref_step l (MapOp.del key) = ref_del l key := rfl
  rw [hstep, a2]
  refine ⟨a1, rfl, by rw [a3, hl], ?_, ?_, ?_⟩
  · intro k
    rw [ref_get_del]
    by_cases hk : k = key
    · rw [hk, a4, if_pos rfl]
    · rw [a5 k hk, if_neg hk, hl]
  · cases hout : out with
    | none =>
      rw [a6 hout]
      rw [← hl, ← a3, hout] at hlen
      simp only [if_true] at hlen
      omega
    | some old =>
      rw [← hl, ← a3, hout] at hlen
      have e1 : (if some old = none then 0 else 1) = 1 := by simp
      rw [e1] at hlen
      have := (a7 old hout).2
      omega
  · cases hout : out with
    | none =>
      rw [a6 hout]
      rw [← hl, ← a3, hout] at hsum
      dsimp only at hsum
      omega
    | some old =>
      rw [← hl, ← a3, hout] at hsum
      dsimp only at hsum
      have := (a7 old hout).1
      omega

/-- Whenever a run of table operations from `live_init` returns, the table
agrees with the reference map: same lookups, as many used slots as reference
entries, and the same byte sum. -/
theorem map_run_refines (ops : List MapOp) : ∀ m, map_run live_init ops = some m →
    WF m ∧ m.cap = 2 ^ 20 ∧ (∀ k, lookup m k = ref_get (ref_run ops) k) ∧
    count_used m.a m.cap = (ref_run ops).length ∧
    sum_used m.a m.cap = ((ref_run ops).map LiveEnt.size).sum := by
  induction ops using List.reverseRecOn with
  | nil =>
    intro m h
    have e : m = live_init := by
      have : map_run live_init [] = some live_init := rfl
      rw [this] at h
      exact (Option.some.inj h).symm
    subst e
    refine ⟨wf_init, rfl, ?_, ?_, ?_⟩
    · intro k
      have hf := (find_none_iff live_init wf_init k).2 (fun s _ hu => by
        simp [live_init, zero_ent] at hu)
      rw [(lookup_none_iff _ _).2 hf]
      rfl
    · exact count_used_zero _ (fun _ => rfl) _
    · exact sum_used_zero _ (fun _ => rfl) _
  | append_singleton l o ih =>
    intro m h
    rw [map_run_snoc] at h
    cases hrun : map_run live_init l with
    | none => rw [hrun] at h; exact absurd h (by simp)
    | some m0 =>
      rw [hrun] at h
      dsimp only at h
      obtain ⟨i1, i2, i3, i4, i5⟩ := ih m0 hrun
      have hn := ref_run_nodup l
      rw [ref_run_snoc]
      cases o with
      | put r =>
        obtain ⟨b1, b2, b3, b4, b5⟩ := put_refines m0 m (ref_run l) r i1 i3 hn i4 i5 h
        exact ⟨b1, b2.trans i2, b3, b4, b5⟩
      | del key =>
        cases he : live_erase m0 key with
        | none =>
          have : map_step m0 (MapOp.del key) = none := by
            show (live_erase m0 key).map Prod.fst = none
            rw [he]; rfl
          rw [this] at h
          exact absurd h (by simp)
        | some res =>
          obtain ⟨m', out⟩ := res
          have hm : m' = m := by
            have : map_step m0 (MapOp.del key) = some m' := by
              show (live_erase m0 key).map Prod.fst = some m'
              rw [he]; rfl
            rw [this] at h
            exact Option.some.inj h
          subst hm
          obtain ⟨b1, b2, -, b3, b4, b5⟩ :=
            del_refines m0 m' out (ref_run l) key i1 i3 hn i4 i5 he
          exact ⟨b1, b2.trans i2, b3, b4, b5⟩

end Analyze


namespace Analyze

/-- The slot `live_upsert` returns on a well-formed table is a used slot
below `cap` that holds the key. -/
theorem upsert_result (m m1 : LiveMap) (key e : Nat) (hw : WF m)
    (h : live_upsert m key = (m1, some e)) :
    e < m1.cap ∧ (m1.a e).used = true ∧ (m1.a e).key_ptr = key := by
  obtain ⟨-, -, c1, c2, c3⟩ := upsert_raw_spec m hw key
  cases hl : lookup m key with
  | some old =>
    have hne : lookup m key ≠ none := by rw [hl]; simp
    rw [c1 hne] at h
    simp only [Prod.mk.injEq] at h
    obtain ⟨h1, h2⟩ := h
    subst h1
    exact find_sound m hw.1 key e h2
  | none =>
    by_cases hcount : count_used m.a m.cap < m.cap
    · obtain ⟨p, hp, -, hup, -⟩ := c2 hl hcount
      rw [hup] at h
      simp only [Prod.mk.injEq, Option.some.injEq] at h
      obtain ⟨h1, h2⟩ := h
      subst h2
      rw [← h1]
      exact ⟨hp, by show (set_slot m.a p (claim_ent (m.a p) key) p).used = true;
                    rw [set_slot_same]; rfl,
        by show (set_slot m.a p (claim_ent (m.a p) key) p).key_ptr = key;
           rw [set_slot_same]; rfl⟩
    · have hfull : count_used m.a m.cap = m.cap := by
        have := count_used_le m.a m.cap
        omega
      rw [c3 hl hfull] at h
      simp at h

theorem count_lt_of_unused (a : Nat → LiveEnt) (n u : Nat) (hu : u < n)
    (huu : (a u).used = false) : count_used a n < n := by
  have hle := count_used_le a n
  by_contra hc
  have := all_used_of_count a n (by omega) u hu
  rw [huu] at this
  exact absurd this (by simp)

/-- C30: on a reachable table that has an unused slot or already holds key
`k`, `live_upsert(m, k)` returns a slot, which is used and holds `k`; it
returns `NULL` exactly when all `cap` slots are used and `k` is in none of
them; and the call inside the migration loop of `live_erase`, made right after
slot `j` was marked unused, never returns `NULL` whatever the other slots hold. -/
theorem upsert_non_null (m : LiveMap) (hr : Reachable m) (k : Nat) :
    (((∃ u, u < m.cap ∧ (m.a u).used = false) ∨
        (∃ s, s < m.cap ∧ (m.a s).used = true ∧ (m.a s).key_ptr = k)) →
      ∃ i, (live_upsert m k).2 = some i ∧ i < m.cap ∧
        ((live_upsert m k).1.a i).used = true ∧ ((live_upsert m k).1.a i).key_ptr = k) ∧
    ((live_upsert m k).2 = none ↔
      ((∀ s, s < m.cap → (m.a s).used = true) ∧ ∀ s, s < m.cap → (m.a s).key_ptr ≠ k)) ∧
    (∀ (a : Nat → LiveEnt) (cnt j key : Nat), j < m.cap →
      (live_upsert { a := set_slot a j (clear_ent (a j)), cap := m.cap, cnt := cnt } key).2
        ≠ none) := by
  obtain ⟨hw, hcap⟩ := reachable_wf m hr
  obtain ⟨-, c0, c1, c2, c3⟩ := upsert_raw_spec m hw k
  have hsome : ∀ i, (live_upsert m k).2 = some i →
      i < m.cap ∧ ((live_upsert m k).1.a i).used = true ∧
        ((live_upsert m k).1.a i).key_ptr = k := by
    intro i hi
    have := upsert_result m (live_upsert m k).1 k i hw (by rw [← hi])
    rw [c0] at this
    exact this
  have hnone : (live_upsert m k).2 = none ↔
      (lookup m k = none ∧ count_used m.a m.cap = m.cap) := by
    constructor
    · intro h
      cases hl : lookup m k with
      | some old =>
        have hne : lookup m k ≠ none := by rw [hl]; simp
        rw [c1 hne] at h
        have hf : live_find m k = none := h
        exact absurd ((lookup_none_iff _ _).2 hf) hne
      | none =>
        refine ⟨rfl, ?_⟩
        by_contra hc
        have hlt : count_used m.a m.cap < m.cap := by
          have := count_used_le m.a m.cap
          omega
        obtain ⟨p, -, -, hup, -⟩ := c2 hl hlt
        rw [hup] at h
        simp at h
    · rintro ⟨h1, h2⟩
      rw [c3 h1 h2]
  refine ⟨?_, ?_, ?_⟩
  · intro h
    cases hres : (live_upsert m k).2 with
    | some i => exact ⟨i, rfl, hsome i hres⟩
    | none =>
      obtain ⟨h1, h2⟩ := hnone.1 hres
      rcases h with ⟨u, hu, huu⟩ | ⟨s, hs, hsu, hsk⟩
      · have := count_lt_of_unused m.a m.cap u hu huu
        omega
      · rw [lookup_none_iff, find_none_iff m hw] at h1
        exact absurd hsk (h1 s hs hsu)
  · rw [hnone, lookup_none_iff, find_none_iff m hw]
    constructor
    · rintro ⟨h1, h2⟩
      have hall := all_used_of_count m.a m.cap h2
      exact ⟨hall, fun s hs => h1 s hs (hall s hs)⟩
    · rintro ⟨h1, h2⟩
      refine ⟨fun s hs _ => h2 s hs, ?_⟩
      have hle := count_used_le m.a m.cap
      by_contra hc
      obtain ⟨u, hu, huu⟩ := exists_unused m.a m.cap (by omega)
      rw [h1 u hu] at huu
      exact absurd huu (by simp)
  · intro a cnt j key hj
    have hu : (set_slot a j (clear_ent (a j)) j).used = false := by
      rw [set_slot_same]; rfl
    exact upsert_some_of_unused
      { a := set_slot a j (clear_ent (a j)), cap := m.cap, cnt := cnt } ⟨20, hcap⟩ j hj hu key

/-- C30 on the empty table and key 16. -/
theorem upsert_non_null_witness :
    (((∃ u, u < live_init.cap ∧ (live_init.a u).used = false) ∨
        (∃ s, s < live_init.cap ∧ (live_init.a s).used = true ∧ (live_init.a s).key_ptr = 16)) →
      ∃ i, (live_upsert live_init 16).2 = some i ∧ i < live_init.cap ∧
        ((live_upsert live_init 16).1.a i).used = true ∧
        ((live_upsert live_init 16).1.a i).key_ptr = 16) ∧
    ((live_upsert live_init 16).2 = none ↔
      ((∀ s, s < live_init.cap → (live_init.a s).used = true) ∧
        ∀ s, s < live_init.cap → (live_init.a s).key_ptr ≠ 16)) ∧
    (∀ (a : Nat → LiveEnt) (cnt j key : Nat), j < live_init.cap →
      (live_upsert { a := set_slot a j (clear_ent (a j)), cap := live_init.cap, cnt := cnt }
        key).2 ≠ none) :=
  upsert_non_null live_init Reachable.init 16

theorem map_run_append (m : LiveMap) (a b : List MapOp) :
    map_run m (a ++ b) =
      match map_run m a with
      | none => none
      | some m1 => map_run m1 b := by
  induction a generalizing m with
  | nil => rfl
  | cons o rest ih =>
    simp only [List.cons_append, map_run]
    cases map_step m o with
    | none => rfl
    | some m1 => exact ih m1

/-- C28: for every sequence of store and erase operations from `live_init`
during which the reference map holds fewer than `cap` keys, every call
returns, `live_find` then yields for every key exactly the entry the
reference map holds (`NULL` when it holds none), and `live_erase` of any key
returns the entry the reference map holds for it (return value 1) or nothing
(return value 0) when it holds none. -/
theorem livemap_refines (ops : List MapOp)
    (hb : ∀ n, n ≤ ops.length → (ref_run (ops.take n)).length < 2 ^ 20) :
    ∃ m, map_run live_init ops = some m ∧
      (∀ k, lookup m k = ref_get (ref_run ops) k) ∧
      (∀ k, ∃ m', live_erase m k = some (m', ref_get (ref_run ops) k)) := by
  have hrun : ∃ m, map_run live_init ops = some m := by
    induction ops using List.reverseRecOn with
    | nil => exact ⟨live_init, rfl⟩
    | append_singleton l o ih =>
      have hb' : ∀ n, n ≤ l.length → (ref_run (l.take n)).length < 2 ^ 20 := by
        intro n hn
        have := hb n (by rw [List.length_append]; omega)
        rw [List.take_append_of_le_length hn] at this
        exact this
      obtain ⟨m0, hm0⟩ := ih hb'
      obtain ⟨i1, i2, i3, i4, -⟩ := map_run_refines l m0 hm0
      have hlt : count_used m0.a m0.cap < m0.cap := by
        have := hb' l.length (Nat.le_refl _)
        rw [List.take_length] at this
        rw [i4, i2]
        exact this
      rw [map_run_snoc, hm0]
      cases o with
      | put r => exact upsert_assign_total m0 r i1 (Or.inr hlt)
      | del key =>
        obtain ⟨m', hm'⟩ := erase_total m0 key i1 hlt
        refine ⟨m', ?_⟩
        show (live_erase m0 key).map Prod.fst = some m'
        rw [hm']
        rfl
  obtain ⟨m, hm⟩ := hrun
  obtain ⟨i1, i2, i3, i4, -⟩ := map_run_refines ops m hm
  refine ⟨m, hm, i3, ?_⟩
  intro k
  have hlt : count_used m.a m.cap < m.cap := by
    have := hb ops.length (Nat.le_refl _)
    rw [List.take_length] at this
    rw [i4, i2]
    exact this
  obtain ⟨m', hm'⟩ := erase_total m k i1 hlt
  rw [i3] at hm'
  exact ⟨m', hm'⟩

/-- C28 on a run of two stores and one erase. -/
theorem livemap_refines_witness :
    ∃ m, map_run live_init [MapOp.put (mk_row 0 "malloc" 16304 8 1 7),
        MapOp.put (mk_row 1 "malloc" 864 24 1 7), MapOp.del 16304] = some m ∧
      (∀ k, lookup m k = ref_get (ref_run [MapOp.put (mk_row 0 "malloc" 16304 8 1 7),
        MapOp.put (mk_row 1 "malloc" 864 24 1 7), MapOp.del 16304]) k) ∧
      (∀ k, ∃ m', live_erase m k = some (m', ref_get (ref_run
        [MapOp.put (mk_row 0 "malloc" 16304 8 1 7),
         MapOp.put (mk_row 1 "malloc" 864 24 1 7), MapOp.del 16304]) k)) :=
  livemap_refines _ (by decide)

end Analyze


namespace Analyze

theorem remove_old_table (s s' : Replay) (r : Row) (hw : WF s.live)
    (h : remove_old s r = some s') :
    ∃ out, live_erase s.live r.ptr = some (s'.live, out) := by
  unfold remove_old at h
  cases he : live_erase s.live r.ptr with
  | none => rw [he] at h; exact absurd h (by simp)
  | some res =>
    obtain ⟨m', out⟩ := res
    rw [he] at h
    cases out with
    | none =>
      simp only [Option.some.injEq] at h
      have hm := (erase_spec s.live m' none r.ptr hw he).2.2.2.2.2.1 rfl
      rw [← h, hm]
      exact ⟨none, rfl⟩
    | some old =>
      simp only [Option.some.injEq] at h
      rw [← h]
      exact ⟨some old, rfl⟩

theorem map_run_one (m : LiveMap) (o : MapOp) : map_run m [o] = map_step m o := by
  show (match map_step m o with | none => none | some m1 => map_run m1 []) = map_step m o
  cases map_step m o <;> rfl

/-- The table after the branch chain is the table after the row's operations. -/
theorem apply_op_table (s s' : Replay) (r : Row) (hw : WF s.live)
    (h : apply_op s r = some s') : map_run s.live (row_ops r) = some s'.live := by
  unfold apply_op at h
  unfold row_ops
  split_ifs at h ⊢
  · rw [map_run_one]
    exact (add_new_table s r).1 s' h
  · cases h1 : remove_old s r with
    | none => rw [h1] at h; simp at h
    | some s1 =>
      rw [h1] at h
      dsimp only at h
      obtain ⟨out, he⟩ := remove_old_table s s1 r hw h1
      have hs1 : map_step s.live (MapOp.del r.ptr) = some s1.live := by
        show (live_erase s.live r.ptr).map Prod.fst = some s1.live
        rw [he]; rfl
      have hs2 : map_step s1.live (MapOp.put r) = some s'.live := (add_new_table s1 r).1 s' h
      show (match map_step s.live (MapOp.del r.ptr) with
        | none => none
        | some m1 => map_run m1 [MapOp.put r]) = some s'.live
      rw [hs1]
      dsimp only
      rw [map_run_one, hs2]
  · obtain ⟨out, he⟩ := remove_old_table s s' r hw h
    rw [map_run_one]
    show (live_erase s.live r.ptr).map Prod.fst = some s'.live
    rw [he]; rfl
  · simp only [Option.some.injEq] at h
    rw [← h]
    rfl

theorem step_table (T : Nat) (s s' : Replay) (r : Row) (hw : WF s.live)
    (h : step T s r = some s') : map_run s.live (row_ops r) = some s'.live := by
  unfold step at h
  cases hop : apply_op (push_series s r) r with
  | none => rw [hop] at h; simp at h
  | some s1 =>
    rw [hop] at h
    simp only [Option.some.injEq] at h
    have hl : s'.live = s1.live := by
      rw [← h]
      exact (post_fields T s1 r).2.2.2.2.1
    rw [hl]
    exact apply_op_table (push_series s r) s1 r hw hop

theorem trace_ops_append (l : List Row) (r : Row) :
    trace_ops (l ++ [r]) = trace_ops l ++ row_ops r := by
  induction l with
  | nil => simp [trace_ops]
  | cons a rest ih => simp [trace_ops, ih, List.append_assoc]

/-- The live table of a reached replay state is the table after the table
operations of the rows. -/
theorem replay_table (T : Nat) : ∀ rows s, replay T rows = some s →
    map_run live_init (trace_ops rows) = some s.live := by
  apply replay_induction
  · rfl
  · intro l s r s' hl ih hstep
    rw [trace_ops_append, map_run_append, ih]
    exact step_table T s s' r (reach_wf T l s hl).1 hstep

/-- The live table of a reached replay state against the reference map of the rows. -/
theorem replay_refines (T : Nat) (rows : List Row) (s : Replay) (h : replay T rows = some s) :
    (∀ k, lookup s.live k = ref_get (ref_run (trace_ops rows)) k) ∧
    count_used s.live.a s.live.cap = (ref_run (trace_ops rows)).length ∧
    sum_used s.live.a s.live.cap = ((ref_run (trace_ops rows)).map LiveEnt.size).sum :=
  (map_run_refines _ s.live (replay_table T rows s h)).2.2

theorem map_run_reachable (ops : List MapOp) : ∀ m m', Reachable m → map_run m ops = some m' →
    Reachable m' := by
  induction ops with
  | nil =>
    intro m m' hr h
    have : map_run m [] = some m := rfl
    rw [this] at h
    rw [← Option.some.inj h]
    exact hr
  | cons o rest ih =>
    intro m m' hr h
    have hw := (reachable_wf m hr).1
    simp only [map_run] at h
    cases hs : map_step m o with
    | none => rw [hs] at h; simp at h
    | some m1 =>
      rw [hs] at h
      dsimp only at h
      refine ih m1 m' ?_ h
      cases o with
      | put r =>
        have hs' : upsert_assign m r = some m1 := hs
        unfold upsert_assign at hs'
        cases hu : live_upsert m r.ptr with
        | mk m2 o2 =>
          rw [hu] at hs'
          cases o2 with
          | none => simp at hs'
          | some e =>
            simp only [Option.some.injEq] at hs'
            rw [← hs']
            obtain ⟨e1, e2, -⟩ := upsert_result m m2 r.ptr e hw hu
            have hr2 : Reachable m2 := by
              have := Reachable.upsert m r.ptr hr
              rw [hu] at this
              exact this
            exact Reachable.assign m2 e r hr2 e1 e2
      | del key =>
        have hs' : (live_erase m key).map Prod.fst = some m1 := hs
        cases he : live_erase m key with
        | none => rw [he] at hs'; simp at hs'
        | some res =>
          obtain ⟨m2, out⟩ := res
          rw [he] at hs'
          simp only [Option.map_some', Option.some.injEq] at hs'
          rw [← hs']
          exact Reachable.erase m key m2 out hr he

theorem replay_reachable (T : Nat) (rows : List Row) (s : Replay) (h : replay T rows = some s) :
    Reachable s.live :=
  map_run_reachable _ _ _ Reachable.init (replay_table T rows s h)

/-- C29 fails on the code: after the rows `malloc 0x3fb0`, `malloc 0x360`,
`free 0x3fb0`, whose addresses have neighbouring home slots, the erase migrates
the second entry through `live_upsert`, which counts it again: `cnt` is 2 in a
reachable table with one used slot. -/
theorem cnt_drifts :
    ∃ s, replay 0 [mk_row 0 "malloc" 16304 8 1 7, mk_row 1 "malloc" 864 24 1 7,
        mk_row 2 "free" 16304 0 1 7] = some s ∧
      Reachable s.live ∧ s.live.cnt = 2 ∧ count_used s.live.a s.live.cap = 1 := by
  refine ⟨Option.get (replay 0 [mk_row 0 "malloc" 16304 8 1 7, mk_row 1 "malloc" 864 24 1 7,
      mk_row 2 "free" 16304 0 1 7]) (by decide), (Option.some_get _).symm,
    replay_reachable 0 _ _ (Option.some_get _).symm, by decide, ?_⟩
  rw [(replay_refines 0 _ _ (Option.some_get _).symm).2.1]
  decide

end Analyze


namespace Analyze

/-- The loop body after the branch chain: the table and `cur_live` are those
the branch chain left, the peak is raised to `cur_live` when that is larger. -/
theorem step_of_apply (T : Nat) (s s1 : Replay) (r : Row)
    (h : apply_op (push_series s r) r = some s1) :
    ∃ s', step T s r = some s' ∧ s'.live = s1.live ∧ s'.cur_live = s1.cur_live ∧
      s'.peak_live = max s1.peak_live s1.cur_live ∧
      s'.peak_idx = (if s1.cur_live > s1.peak_live then r.idx else s1.peak_idx) := by
  unfold step
  rw [h]
  refine ⟨_, rfl, ?_, ?_, ?_, ?_⟩
  · exact (post_fields T s1 r).2.2.2.2.1
  · exact (post_fields T s1 r).1
  · exact (post_fields T s1 r).2.1
  · show (update_cross T (update_peak s1 r) r).peak_idx = _
    unfold update_cross update_peak
    split_ifs <;> rfl

theorem apply_op_alloc (s : Replay) (r : Row) (hop : r.op = "malloc" ∨ r.op = "calloc") :
    apply_op s r = add_new s r := by
  unfold apply_op
  rw [if_pos hop]

theorem apply_op_free (s : Replay) (r : Row) (hop : r.op = "free") :
    apply_op s r = remove_old s r := by
  unfold apply_op
  rw [hop]
  rfl

theorem apply_op_realloc (s : Replay) (r : Row) (hop : r.op = "realloc") :
    apply_op s r =
      match remove_old s r with
      | none => none
      | some s1 => add_new s1 r := by
  unfold apply_op
  rw [hop]
  rfl

/-- An allocation row on a reached state with room in the table. -/
theorem step_alloc (T : Nat) (s : Replay) (r : Row) (hw : WF s.live)
    (hop : r.op = "malloc" ∨ r.op = "calloc")
    (hroom : lookup s.live r.ptr ≠ none ∨ count_used s.live.a s.live.cap < s.live.cap) :
    ∃ s1 s', add_new (push_series s r) r = some s1 ∧ step T s r = some s' ∧
      s'.live = s1.live ∧ s'.cur_live = (s.cur_live + r.arg) % U64 ∧
      s'.peak_live = max s.peak_live ((s.cur_live + r.arg) % U64) ∧
      s'.peak_idx = (if (s.cur_live + r.arg) % U64 > s.peak_live then r.idx else s.peak_idx) := by
  obtain ⟨s1, hs1⟩ := add_new_total (push_series s r) r hw hroom
  have hf := add_new_frame (push_series s r) s1 r hs1
  obtain ⟨a1, a2, -, -, -, -, -, -, -, -, -, -, a3, -, -⟩ := hf
  have hcur : s1.cur_live = (s.cur_live + r.arg) % U64 := a3
  have hpk : s1.peak_live = s.peak_live := a1
  have hpi : s1.peak_idx = s.peak_idx := a2
  obtain ⟨s', b1, b2, b3, b4, b5⟩ := step_of_apply T s s1 r
    (by rw [apply_op_alloc _ _ hop]; exact hs1)
  rw [hcur, hpk] at b4 b5
  rw [hcur] at b3
  rw [hpi] at b5
  exact ⟨s1, s', hs1, b1, b2, b3, b4, b5⟩

/-- A `free` row whose removal block returns. -/
theorem step_free (T : Nat) (s s1 : Replay) (r : Row) (hop : r.op = "free")
    (h : remove_old (push_series s r) r = some s1) :
    ∃ s', step T s r = some s' ∧ s'.live = s1.live ∧ s'.cur_live = s1.cur_live ∧
      s'.peak_live = max s.peak_live s1.cur_live ∧
      s'.peak_idx = (if s1.cur_live > s.peak_live then r.idx else s.peak_idx) := by
  obtain ⟨a1, a2, -⟩ := remove_old_frame (push_series s r) s1 r h
  have hpk : s1.peak_live = s.peak_live := a1
  have hpi : s1.peak_idx = s.peak_idx := a2
  obtain ⟨s', b1, b2, b3, b4, b5⟩ := step_of_apply T s s1 r
    (by rw [apply_op_free _ _ hop]; exact h)
  rw [hpk] at b4 b5
  rw [hpi] at b5
  exact ⟨s', b1, b2, b3, b4, b5⟩

/-- The value of `cur_live` after the removal block. -/
theorem remove_old_cur (s s' : Replay) (r : Row) (hw : WF s.live)
    (h : remove_old s r = some s') :
    (lookup s.live r.ptr = none → s'.cur_live = s.cur_live) ∧
    (∀ old, lookup s.live r.ptr = some old → s'.cur_live = s.cur_live - old.size) := by
  obtain ⟨-, -, -, -, c1, c2⟩ := remove_old_spec s s' r hw h
  constructor
  · intro hn; rw [c1 hn]
  · intro old ho
    obtain ⟨⟨m, hm⟩, -, -⟩ := c2 old ho
    rw [hm]
    show (if s.cur_live ≥ old.size then s.cur_live - old.size else 0) = _
    split_ifs <;> omega

end Analyze


namespace Analyze

theorem replay_snoc_of (T : Nat) (l : List Row) (s s' : Replay) (r : Row)
    (hl : replay T l = some s) (hs : step T s r = some s') :
    replay T (l ++ [r]) = some s' := by
  rw [replay_append, hl]; exact hs

theorem lookup_some_find (m : LiveMap) (key : Nat) (e : LiveEnt) (hw : WF m)
    (h : lookup m key = some e) :
    ∃ i, live_find m key = some i ∧ m.a i = e ∧ e.key_ptr = key := by
  have hk := ((lookup_iff m hw key e).1 h).2
  unfold lookup at h
  cases hf : live_find m key with
  | none => rw [hf] at h; simp at h
  | some i =>
    rw [hf] at h
    simp only [Option.map_some', Option.some.injEq] at h
    exact ⟨i, rfl, h, hk⟩

/-- C2: on a reachable table with an unused slot, `live_erase(m, k)` returns,
handing out the entry stored for `k` if there was one; afterwards `live_find`
of `k` is `NULL`, and every other key that was present is still found, in a
slot holding the entry it had before (same key, size, tid, ra, ts_ns and
wall_time); absent keys stay absent. -/
theorem erase_keeps_others (m : LiveMap) (hr : Reachable m)
    (hcount : count_used m.a m.cap < m.cap) (k : Nat) :
    ∃ m', live_erase m k = some (m', lookup m k) ∧ live_find m' k = none ∧
      (∀ k', k' ≠ k → lookup m' k' = lookup m k') ∧
      (∀ k' e, k' ≠ k → lookup m k' = some e →
        ∃ i, live_find m' k' = some i ∧ m'.a i = e ∧ e.key_ptr = k') := by
  obtain ⟨hw, -⟩ := reachable_wf m hr
  obtain ⟨m', hm'⟩ := erase_total m k hw hcount
  obtain ⟨a1, -, -, a4, a5, -, -⟩ := erase_spec m m' _ k hw hm'
  refine ⟨m', hm', (lookup_none_iff _ _).1 a4, a5, ?_⟩
  intro k' e hk he
  exact lookup_some_find m' k' e a1 (by rw [a5 k' hk]; exact he)

/-- C2 on the table after `malloc 0x3fb0`, `malloc 0x360` (neighbouring home
slots), erasing the first key. -/
theorem erase_keeps_others_witness :
    ∃ m', live_erase (Option.get (replay 0 [mk_row 0 "malloc" 16304 8 1 7,
        mk_row 1 "malloc" 864 24 1 7]) (by decide)).live 16304 =
        some (m', lookup (Option.get (replay 0 [mk_row 0 "malloc" 16304 8 1 7,
          mk_row 1 "malloc" 864 24 1 7]) (by decide)).live 16304) ∧
      live_find m' 16304 = none ∧
      (∀ k', k' ≠ 16304 → lookup m' k' = lookup (Option.get (replay 0
        [mk_row 0 "malloc" 16304 8 1 7, mk_row 1 "malloc" 864 24 1 7]) (by decide)).live k') ∧
      (∀ k' e, k' ≠ 16304 → lookup (Option.get (replay 0 [mk_row 0 "malloc" 16304 8 1 7,
          mk_row 1 "malloc" 864 24 1 7]) (by decide)).live k' = some e →
        ∃ i, live_find m' k' = some i ∧ m'.a i = e ∧ e.key_ptr = k') :=
  erase_keeps_others _ (replay_reachable 0 _ _ (Option.some_get _).symm)
    (by rw [(replay_refines 0 _ _ (Option.some_get _).symm).2.1,
          (reach_wf 0 _ _ (Option.some_get _).symm).2]
        decide) 16304

end Analyze


namespace Analyze

theorem row_ops_alloc (r : Row) (h : r.op = "malloc" ∨ r.op = "calloc") :
    row_ops r = [MapOp.put r] := by
  unfold row_ops; rw [if_pos h]

theorem row_ops_free (r : Row) (h : r.op = "free") : row_ops r = [MapOp.del r.ptr] := by
  unfold row_ops; rw [h]; rfl

theorem row_ops_realloc (r : Row) (h : r.op = "realloc") :
    row_ops r = [MapOp.del r.ptr, MapOp.put r] := by
  unfold row_ops; rw [h]; rfl

theorem ref_del_cons_ne (e : LiveEnt) (l : List LiveEnt) (k : Nat) (h : e.key_ptr ≠ k) :
    ref_del (e :: l) k = e :: ref_del l k := by
  unfold ref_del
  rw [List.filter_cons_of_pos (by simp [h])]

theorem ref_del_cons_eq (e : LiveEnt) (l : List LiveEnt) (k : Nat) (h : e.key_ptr = k) :
    ref_del (e :: l) k = ref_del l k := by
  unfold ref_del
  rw [List.filter_cons_of_neg (by simp [h])]

theorem ref_del_nil (k : Nat) : ref_del [] k = [] := rfl

theorem init_room : count_used init.live.a init.live.cap < init.live.cap := by
  have : count_used init.live.a init.live.cap = 0 := count_used_zero _ (fun _ => rfl) _
  rw [this]
  decide

/-- C5: for allocation rows `r0` (address `p`, size `a`) and `r1` (address
`q ≠ p`, size `b > 0`, index 1) with `a + b < 2 ^ 64`, followed by a `free` row
of `q`, the replay from the empty state returns; at the end exactly one slot
is used, `p` maps to the block of `r0` and no other address is live,
`peak_live = a + b` was set at index 1, and `cur_live = a`. -/
theorem alloc_alloc_free (T : Nat) (r0 r1 r2 : Row)
    (h0 : r0.op = "malloc" ∨ r0.op = "calloc") (h1 : r1.op = "malloc" ∨ r1.op = "calloc")
    (h2 : r2.op = "free") (hq : r2.ptr = r1.ptr) (hpq : r0.ptr ≠ r1.ptr)
    (hb : 0 < r1.arg) (hab : r0.arg + r1.arg < U64) (hi : r1.idx = 1) :
    ∃ s, replay T [r0, r1, r2] = some s ∧
      end_cnt s.live = 1 ∧ lookup s.live r0.ptr = some (ent_of r0) ∧
      (∀ k, k ≠ r0.ptr → lookup s.live k = none) ∧
      s.peak_live = r0.arg + r1.arg ∧ s.peak_idx = 1 ∧ s.cur_live = r0.arg := by
  have hU : U64 = 18446744073709551616 := by decide
  have hk0 : (ent_of r0).key_ptr = r0.ptr := rfl
  have hk1 : (ent_of r1).key_ptr = r1.ptr := rfl
  -- first row
  obtain ⟨t1, s1, -, hs1, -, c1, p1, -⟩ := step_alloc T init r0 wf_init h0 (Or.inr init_room)
  have hr1 : replay T [r0] = some s1 := replay_snoc_of T [] init s1 r0 rfl hs1
  have hcur0 : init.cur_live = 0 := rfl
  have hpk0 : init.peak_live = 0 := rfl
  rw [hcur0, Nat.zero_add] at c1 p1
  rw [hpk0] at p1
  obtain ⟨w1, cap1⟩ := reach_wf T _ _ hr1
  obtain ⟨l1, n1, -⟩ := replay_refines T _ _ hr1
  have ops1 : trace_ops [r0] = [MapOp.put r0] := by
    simp only [trace_ops, row_ops_alloc r0 h0, List.append_nil]
  have ref1 : ref_run [MapOp.put r0] = [ent_of r0] := rfl
  rw [ops1, ref1] at l1 n1
  -- second row
  have room1 : count_used s1.live.a s1.live.cap < s1.live.cap := by
    rw [n1, cap1]; show (1 : Nat) < 2 ^ 20; decide
  obtain ⟨t2, s2, ht2, hs2, hl2, c2, p2, i2⟩ := step_alloc T s1 r1 w1 h1 (Or.inr room1)
  have hr2 : replay T [r0, r1] = some s2 := replay_snoc_of T [r0] s1 s2 r1 hr1 hs2
  obtain ⟨w2, cap2⟩ := reach_wf T _ _ hr2
  obtain ⟨l2, n2, -⟩ := replay_refines T _ _ hr2
  have ops2 : trace_ops [r0, r1] = [MapOp.put r0, MapOp.put r1] := by
    simp only [trace_ops, row_ops_alloc r0 h0, row_ops_alloc r1 h1, List.append_nil,
      List.singleton_append]
  have ref2 : ref_run [MapOp.put r0, MapOp.put r1] = [ent_of r1, ent_of r0] := by
    show ent_of r1 :: ref_del (ent_of r0 :: ref_del [] r0.ptr) r1.ptr = _
    rw [ref_del_nil, ref_del_cons_ne _ _ _ (by rw [hk0]; exact hpq), ref_del_nil]
  rw [ops2, ref2] at l2 n2
  -- third row
  have room2 : count_used s2.live.a s2.live.cap < s2.live.cap := by
    rw [n2, cap2]; show (2 : Nat) < 2 ^ 20; decide
  obtain ⟨t3, ht3⟩ := remove_old_total (push_series s2 r2) r2 w2 room2
  obtain ⟨s3, hs3, hl3, c3, p3, i3⟩ := step_free T s2 t3 r2 h2 ht3
  have hr3 : replay T [r0, r1, r2] = some s3 := replay_snoc_of T [r0, r1] s2 s3 r2 hr2 hs3
  obtain ⟨l3, n3, -⟩ := replay_refines T _ _ hr3
  have ops3 : trace_ops [r0, r1, r2] = [MapOp.put r0, MapOp.put r1, MapOp.del r1.ptr] := by
    simp only [trace_ops, row_ops_alloc r0 h0, row_ops_alloc r1 h1, row_ops_free r2 h2,
      List.append_nil, List.singleton_append, hq]
  have ref3 : ref_run [MapOp.put r0, MapOp.put r1, MapOp.del r1.ptr] = [ent_of r0] := by
    show ref_del (ent_of r1 :: ref_del (ent_of r0 :: ref_del [] r0.ptr) r1.ptr) r1.ptr = _
    rw [ref_del_nil, ref_del_cons_ne (ent_of r0) [] r1.ptr (by rw [hk0]; exact hpq),
      ref_del_nil, ref_del_cons_eq (ent_of r1) [ent_of r0] r1.ptr hk1,
      ref_del_cons_ne (ent_of r0) [] r1.ptr (by rw [hk0]; exact hpq), ref_del_nil]
  rw [ops3, ref3] at l3 n3
  have hlook2 : lookup (push_series s2 r2).live r2.ptr = some (ent_of r1) := by
    show lookup s2.live r2.ptr = _
    rw [l2, hq, ref_get_cons, if_pos hk1]
  have hc3 := (remove_old_cur (push_series s2 r2) t3 r2 w2 ht3).2 _ hlook2
  have hcur3 : t3.cur_live = s2.cur_live - r1.arg := hc3
  refine ⟨s3, hr3, n3, ?_, ?_, ?_, ?_, ?_⟩
  · rw [l3, ref_get_cons, if_pos hk0]
  · intro k hk
    rw [l3, ref_get_cons, if_neg (by rw [hk0]; exact fun e => hk e.symm)]
    rfl
  · rw [p3, hcur3, c2, p2, c1, p1, hU]
    omega
  · rw [i3, hcur3, c2, p2, c1, p1, i2, c1, p1, hi, hU]
    have e1 : (r0.arg % 18446744073709551616 + r1.arg) % 18446744073709551616 - r1.arg ≤
        max (max 0 (r0.arg % 18446744073709551616))
          ((r0.arg % 18446744073709551616 + r1.arg) % 18446744073709551616) := by omega
    rw [if_neg (by omega)]
    rw [if_pos (by omega)]
  · rw [c3, hcur3, c2, c1, hU]
    omega

/-- C5 at the input of the claim: `p = 0x1`, `a = 100`, `q = 0x2`, `b = 50`. -/
theorem alloc_alloc_free_witness :
    ∃ s, replay 0 [mk_row 0 "malloc" 1 100 1 7, mk_row 1 "malloc" 2 50 1 7,
        mk_row 2 "free" 2 0 1 7] = some s ∧
      end_cnt s.live = 1 ∧
      lookup s.live (mk_row 0 "malloc" 1 100 1 7).ptr = some (ent_of (mk_row 0 "malloc" 1 100 1 7)) ∧
      (∀ k, k ≠ (mk_row 0 "malloc" 1 100 1 7).ptr → lookup s.live k = none) ∧
      s.peak_live = (mk_row 0 "malloc" 1 100 1 7).arg + (mk_row 1 "malloc" 2 50 1 7).arg ∧
      s.peak_idx = 1 ∧ s.cur_live = (mk_row 0 "malloc" 1 100 1 7).arg :=
  alloc_alloc_free 0 _ _ _ (Or.inl rfl) (Or.inl rfl) rfl rfl (by decide) (by decide)
    (by decide) rfl

end Analyze


namespace Analyze

/-- A `realloc` row on a reached state with room in the table: the removal
block, then the insertion block. -/
theorem step_realloc (T : Nat) (s : Replay) (r : Row) (hw : WF s.live)
    (hop : r.op = "realloc") (hroom : count_used s.live.a s.live.cap < s.live.cap) :
    ∃ t t2 s', remove_old (push_series s r) r = some t ∧ add_new t r = some t2 ∧
      step T s r = some s' ∧ s'.live = t2.live ∧
      s'.cur_live = (t.cur_live + r.arg) % U64 := by
  obtain ⟨t, ht⟩ := remove_old_total (push_series s r) r hw hroom
  obtain ⟨w1, cap1, -, -, e1, e2⟩ := remove_old_spec (push_series s r) t r hw ht
  have hroom1 : count_used t.live.a t.live.cap < t.live.cap := by
    rw [cap1]
    cases hl : lookup (push_series s r).live r.ptr with
    | none => rw [e1 hl]; exact hroom
    | some old =>
      have := (e2 old hl).2.2
      have h' : count_used s.live.a s.live.cap < s.live.cap := hroom
      have hc : (push_series s r).live = s.live := rfl
      rw [hc] at this ⊢
      omega
  obtain ⟨t2, ht2⟩ := add_new_total t r w1 (Or.inr hroom1)
  have hcur : t2.cur_live = (t.cur_live + r.arg) % U64 :=
    (add_new_frame t t2 r ht2).2.2.2.2.2.2.2.2.2.2.2.2.1
  obtain ⟨s', b1, b2, b3, -, -⟩ := step_of_apply T s t2 r
    (by rw [apply_op_realloc _ _ hop, ht]; exact ht2)
  rw [hcur] at b3
  exact ⟨t, t2, s', ht, ht2, b1, b2, b3⟩

/-- C3 (as the code has it): a `realloc` row carries one address.  After an
allocation row `r0` and a `realloc` row `r1` from the empty state: when `r1`
names the address of `r0`, that address stays live, now with the block of `r1`,
and `cur_live` is the new size; when it names another address, the block of
`r0` stays live beside the new one and `cur_live` is the sum of both sizes
modulo `2 ^ 64`. -/
theorem realloc_single_address (T : Nat) (r0 r1 : Row)
    (h0 : r0.op = "malloc" ∨ r0.op = "calloc") (h1 : r1.op = "realloc")
    (ht : r1.arg < U64) :
    ∃ s, replay T [r0, r1] = some s ∧
      (r1.ptr = r0.ptr →
        s.cur_live = r1.arg ∧ end_cnt s.live = 1 ∧
        lookup s.live r0.ptr = some (ent_of r1) ∧
        ∀ k, k ≠ r0.ptr → lookup s.live k = none) ∧
      (r1.ptr ≠ r0.ptr →
        s.cur_live = (r0.arg + r1.arg) % U64 ∧ end_cnt s.live = 2 ∧
        lookup s.live r0.ptr = some (ent_of r0) ∧ lookup s.live r1.ptr = some (ent_of r1) ∧
        ∀ k, k ≠ r0.ptr → k ≠ r1.ptr → lookup s.live k = none) := by
  have hU : U64 = 18446744073709551616 := by decide
  have hk0 : (ent_of r0).key_ptr = r0.ptr := rfl
  have hk1 : (ent_of r1).key_ptr = r1.ptr := rfl
  obtain ⟨t1, s1, -, hs1, -, c1, -, -⟩ := step_alloc T init r0 wf_init h0 (Or.inr init_room)
  have hr1 : replay T [r0] = some s1 := replay_snoc_of T [] init s1 r0 rfl hs1
  have hcur0 : init.cur_live = 0 := rfl
  rw [hcur0, Nat.zero_add] at c1
  obtain ⟨w1, cap1⟩ := reach_wf T _ _ hr1
  obtain ⟨l1, n1, -⟩ := replay_refines T _ _ hr1
  have ops1 : trace_ops [r0] = [MapOp.put r0] := by
    simp only [trace_ops, row_ops_alloc r0 h0, List.append_nil]
  have ref1 : ref_run [MapOp.put r0] = [ent_of r0] := rfl
  rw [ops1, ref1] at l1 n1
  have room1 : count_used s1.live.a s1.live.cap < s1.live.cap := by
    rw [n1, cap1]; show (1 : Nat) < 2 ^ 20; decide
  obtain ⟨t, t2, s2, hrem, -, hs2, -, c2⟩ := step_realloc T s1 r1 w1 h1 room1
  have hr2 : replay T [r0, r1] = some s2 := replay_snoc_of T [r0] s1 s2 r1 hr1 hs2
  obtain ⟨l2, n2, -⟩ := replay_refines T _ _ hr2
  have ops2 : trace_ops [r0, r1] = [MapOp.put r0, MapOp.del r1.ptr, MapOp.put r1] := by
    simp only [trace_ops, row_ops_alloc r0 h0, row_ops_realloc r1 h1, List.append_nil,
      List.singleton_append]
  have ref2 : ref_run [MapOp.put r0, MapOp.del r1.ptr, MapOp.put r1] =
      ent_of r1 :: ref_del (ref_del [ent_of r0] r1.ptr) r1.ptr := rfl
  rw [ops2, ref2] at l2 n2
  obtain ⟨q1, q2⟩ := remove_old_cur (push_series s1 r1) t r1 w1 hrem
  have hps : (push_series s1 r1).live = s1.live := rfl
  have hpc : (push_series s1 r1).cur_live = s1.cur_live := rfl
  rw [hps, hpc] at q1 q2
  refine ⟨s2, hr2, ?_, ?_⟩
  · intro hp
    have hd : ref_del [ent_of r0] r1.ptr = [] := by
      rw [ref_del_cons_eq (ent_of r0) [] r1.ptr (by rw [hk0, hp]), ref_del_nil]
    rw [hd, ref_del_nil] at l2 n2
    have hlook : lookup s1.live r1.ptr = some (ent_of r0) := by
      rw [l1, ref_get_cons, if_pos (by rw [hk0, hp])]
    have hq := q2 _ hlook
    have hsz : (ent_of r0).size = r0.arg := rfl
    rw [hsz] at hq
    refine ⟨?_, n2, ?_, ?_⟩
    · rw [c2, hq, c1, hU]
      rw [hU] at ht
      omega
    · rw [l2, ref_get_cons, if_pos (by rw [hk1, hp])]
    · intro k hk
      rw [l2, ref_get_cons, if_neg (by rw [hk1, hp]; exact fun e => hk e.symm)]
      rfl
  · intro hp
    have hd : ref_del [ent_of r0] r1.ptr = [ent_of r0] := by
      rw [ref_del_cons_ne (ent_of r0) [] r1.ptr (by rw [hk0]; exact fun e => hp e.symm),
        ref_del_nil]
    rw [hd, hd] at l2 n2
    have hlook : lookup s1.live r1.ptr = none := by
      rw [l1, ref_get_cons, if_neg (by rw [hk0]; exact fun e => hp e.symm)]
      rfl
    have hq := q1 hlook
    refine ⟨?_, n2, ?_, ?_, ?_⟩
    · rw [c2, hq, c1, hU]
      omega
    · rw [l2, ref_get_cons, if_neg (by rw [hk1]; exact hp), ref_get_cons, if_pos hk0]
    · rw [l2, ref_get_cons, if_pos hk1]
    · intro k hk0' hk1'
      rw [l2, ref_get_cons, if_neg (by rw [hk1]; exact fun e => hk1' e.symm), ref_get_cons,
        if_neg (by rw [hk0]; exact fun e => hk0' e.symm)]
      rfl

/-- C3 at concrete inputs: `malloc 0xA 100` followed by `realloc` of `0xA` to size 60. -/
theorem realloc_single_address_witness :
    ∃ s, replay 0 [mk_row 0 "malloc" 0xA 100 1 7, mk_row 1 "realloc" 0xA 60 1 7] = some s ∧
      ((mk_row 1 "realloc" 0xA 60 1 7).ptr = (mk_row 0 "malloc" 0xA 100 1 7).ptr →
        s.cur_live = (mk_row 1 "realloc" 0xA 60 1 7).arg ∧ end_cnt s.live = 1 ∧
        lookup s.live (mk_row 0 "malloc" 0xA 100 1 7).ptr =
          some (ent_of (mk_row 1 "realloc" 0xA 60 1 7)) ∧
        ∀ k, k ≠ (mk_row 0 "malloc" 0xA 100 1 7).ptr → lookup s.live k = none) ∧
      ((mk_row 1 "realloc" 0xA 60 1 7).ptr ≠ (mk_row 0 "malloc" 0xA 100 1 7).ptr →
        s.cur_live = ((mk_row 0 "malloc" 0xA 100 1 7).arg +
          (mk_row 1 "realloc" 0xA 60 1 7).arg) % U64 ∧ end_cnt s.live = 2 ∧
        lookup s.live (mk_row 0 "malloc" 0xA 100 1 7).ptr =
          some (ent_of (mk_row 0 "malloc" 0xA 100 1 7)) ∧
        lookup s.live (mk_row 1 "realloc" 0xA 60 1 7).ptr =
          some (ent_of (mk_row 1 "realloc" 0xA 60 1 7)) ∧
        ∀ k, k ≠ (mk_row 0 "malloc" 0xA 100 1 7).ptr →
          k ≠ (mk_row 1 "realloc" 0xA 60 1 7).ptr → lookup s.live k = none) :=
  realloc_single_address 0 _ _ (Or.inl rfl) rfl (by decide)

/-- C3 fails as stated: a `realloc` row has one address column.  With the row
naming the new address `0xB`, the block at `0xA` stays live with its 100
bytes and `cur_live` is 160; with the row naming `0xA`, address `0xA` is
still live (with 60 bytes).  In neither reading is `0xA` absent afterwards. -/
theorem realloc_keeps_address :
    (∃ s, replay 0 [mk_row 0 "malloc" 0xA 100 1 7, mk_row 1 "realloc" 0xB 60 1 7] = some s ∧
      (lookup s.live 0xA).map LiveEnt.size = some 100 ∧ s.cur_live = 160) ∧
    (∃ s, replay 0 [mk_row 0 "malloc" 0xA 100 1 7, mk_row 1 "realloc" 0xA 60 1 7] = some s ∧
      (lookup s.live 0xA).map LiveEnt.size = some 60 ∧ s.cur_live = 60) :=
  ⟨⟨Option.get (replay 0 [mk_row 0 "malloc" 0xA 100 1 7, mk_row 1 "realloc" 0xB 60 1 7])
      (by decide), (Option.some_get _).symm, by decide, by decide⟩,
   ⟨Option.get (replay 0 [mk_row 0 "malloc" 0xA 100 1 7, mk_row 1 "realloc" 0xA 60 1 7])
      (by decide), (Option.some_get _).symm, by decide, by decide⟩⟩

end Analyze


namespace Analyze

/-- What a completed loop body says about the branch chain. -/
theorem step_inv (T : Nat) (s s' : Replay) (r : Row) (h : step T s r = some s') :
    ∃ s1, apply_op (push_series s r) r = some s1 ∧ s'.live = s1.live ∧
      s'.cur_live = s1.cur_live := by
  unfold step at h
  cases hop : apply_op (push_series s r) r with
  | none => rw [hop] at h; simp at h
  | some s1 =>
    rw [hop] at h
    simp only [Option.some.injEq] at h
    refine ⟨s1, rfl, ?_, ?_⟩
    · rw [← h]; exact (post_fields T s1 r).2.2.2.2.1
    · rw [← h]; exact (post_fields T s1 r).1

/-- The removal block keeps `cur_live` equal to the byte sum of the table. -/
theorem remove_old_sum (s t : Replay) (r : Row) (hw : WF s.live)
    (hinv : s.cur_live = sum_used s.live.a s.live.cap) (h : remove_old s r = some t) :
    t.cur_live = sum_used t.live.a t.live.cap ∧ WF t.live ∧ lookup t.live r.ptr = none ∧
    t.live.cap = s.live.cap := by
  obtain ⟨w1, cap1, ln, -, e1, e2⟩ := remove_old_spec s t r hw h
  obtain ⟨q1, q2⟩ := remove_old_cur s t r hw h
  refine ⟨?_, w1, ln, cap1⟩
  rw [cap1]
  cases hl : lookup s.live r.ptr with
  | none => rw [e1 hl]; exact hinv
  | some old =>
    have := (e2 old hl).2.1
    rw [q2 old hl, hinv]
    omega

/-- The insertion block for an address that is not live keeps `cur_live`
equal to the byte sum of the table as long as that sum fits 64 bits. -/
theorem add_new_sum (s t : Replay) (r : Row) (hw : WF s.live)
    (hinv : s.cur_live = sum_used s.live.a s.live.cap) (hnl : lookup s.live r.ptr = none)
    (h : add_new s r = some t) (hlt : sum_used t.live.a t.live.cap < U64) :
    t.cur_live = sum_used t.live.a t.live.cap := by
  obtain ⟨-, cap1, -, -, -, e2⟩ := add_new_spec s t r hw h
  have hcur : t.cur_live = (s.cur_live + r.arg) % U64 :=
    (add_new_frame s t r h).2.2.2.2.2.2.2.2.2.2.2.2.1
  have hs := (e2 hnl).1
  rw [cap1] at hlt ⊢
  rw [hcur, hinv, ← hs]
  exact Nat.mod_eq_of_lt hlt

/-- One row keeps `cur_live` equal to the byte sum of the table when the row
does not allocate an address that is live and the new sum fits 64 bits. -/
theorem step_cur_sum (T : Nat) (s s' : Replay) (r : Row) (hw : WF s.live)
    (hinv : s.cur_live = sum_used s.live.a s.live.cap) (hstep : step T s r = some s')
    (hfresh : (r.op = "malloc" ∨ r.op = "calloc") → lookup s.live r.ptr = none)
    (hlt : sum_used s'.live.a s'.live.cap < U64) :
    s'.cur_live = sum_used s'.live.a s'.live.cap := by
  obtain ⟨s1, hop, hl, hc⟩ := step_inv T s s' r hstep
  rw [hl] at hlt ⊢
  rw [hc]
  have hw0 : WF (push_series s r).live := hw
  have hinv0 : (push_series s r).cur_live =
      sum_used (push_series s r).live.a (push_series s r).live.cap := hinv
  unfold apply_op at hop
  split_ifs at hop with h1 h2 h3
  · exact add_new_sum _ s1 r hw0 hinv0 (hfresh h1) hop hlt
  · cases hrem : remove_old (push_series s r) r with
    | none => rw [hrem] at hop; simp at hop
    | some t =>
      rw [hrem] at hop
      obtain ⟨a1, a2, a3, -⟩ := remove_old_sum _ t r hw0 hinv0 hrem
      exact add_new_sum t s1 r a2 a1 a3 hop hlt
  · exact (remove_old_sum _ s1 r hw0 hinv0 hop).1
  · simp only [Option.some.injEq] at hop
    rw [← hop]
    exact hinv

end Analyze


namespace Analyze

theorem take_succ_getD (rows : List Row) (d : Row) (n : Nat) (hn : n < rows.length) :
    rows.take (n + 1) = rows.take n ++ [rows.getD n d] := by
  rw [List.take_succ]
  congr 1
  simp [List.getD, List.getElem?_eq_getElem hn]

/-- C1 (as the code has it): along a trace in which no `malloc`/`calloc` row
names an address that is live at that point and the byte sum of the live
blocks stays below `2 ^ 64`, `cur_live` after every prefix equals the sum of
the `size` fields of the used slots of the live table.  (Both conditions are
stated on the reference map of the rows, which the live table follows.) -/
theorem cur_live_is_sum (T : Nat) (rows : List Row)
    (hfresh : ∀ n, n < rows.length →
      ((rows.getD n (mk_row 0 "" 0 0 0 0)).op = "malloc" ∨
        (rows.getD n (mk_row 0 "" 0 0 0 0)).op = "calloc") →
      ref_get (ref_run (trace_ops (rows.take n))) (rows.getD n (mk_row 0 "" 0 0 0 0)).ptr = none)
    (hsum : ∀ n, n ≤ rows.length →
      ((ref_run (trace_ops (rows.take n))).map LiveEnt.size).sum < U64) :
    ∀ n s, replay T (rows.take n) = some s → s.cur_live = sum_used s.live.a s.live.cap := by
  intro n
  induction n with
  | zero =>
    intro s h
    have e : replay T (rows.take 0) = some init := rfl
    rw [e] at h
    rw [← Option.some.inj h]
    exact (sum_used_zero _ (fun _ => rfl) _).symm
  | succ n ih =>
    intro s h
    by_cases hn : n < rows.length
    · rw [take_succ_getD rows (mk_row 0 "" 0 0 0 0) n hn, replay_append] at h
      cases h0 : replay T (rows.take n) with
      | none => rw [h0] at h; simp at h
      | some s0 =>
        rw [h0] at h
        dsimp only at h
        obtain ⟨w0, -⟩ := reach_wf T _ _ h0
        obtain ⟨l0, -, -⟩ := replay_refines T _ _ h0
        have hreach : replay T (rows.take (n + 1)) = some s := by
          rw [take_succ_getD rows (mk_row 0 "" 0 0 0 0) n hn, replay_append, h0]
          exact h
        obtain ⟨-, -, m1⟩ := replay_refines T _ _ hreach
        apply step_cur_sum T s0 s _ w0 (ih s0 h0) h
        · intro hop
          rw [l0]
          exact hfresh n hn hop
        · rw [m1]
          exact hsum (n + 1) hn
    · have e : rows.take (n + 1) = rows.take n := by
        rw [List.take_of_length_le (by omega), List.take_of_length_le (by omega)]
      rw [e] at h
      exact ih s h

/-- C1 on the trace `malloc 16 (100)`, `malloc 32 (50)`, `free 16`. -/
theorem cur_live_is_sum_witness :
    (Option.get (replay 0 [mk_row 0 "malloc" 16 100 1 7, mk_row 1 "malloc" 32 50 1 7,
        mk_row 2 "free" 16 0 1 7]) (by decide)).cur_live =
      sum_used (Option.get (replay 0 [mk_row 0 "malloc" 16 100 1 7, mk_row 1 "malloc" 32 50 1 7,
        mk_row 2 "free" 16 0 1 7]) (by decide)).live.a
        (Option.get (replay 0 [mk_row 0 "malloc" 16 100 1 7, mk_row 1 "malloc" 32 50 1 7,
        mk_row 2 "free" 16 0 1 7]) (by decide)).live.cap :=
  cur_live_is_sum 0 [mk_row 0 "malloc" 16 100 1 7, mk_row 1 "malloc" 32 50 1 7,
    mk_row 2 "free" 16 0 1 7] (by decide) (by decide) 3 _ (Option.some_get _).symm

/-- C1 fails as stated.  A second `malloc` of a live address overwrites the
entry but adds to `cur_live` (150 against 50 bytes in the table); and when the
sum passes `2 ^ 64` the counter wraps and the next removal clamps it to 0
(0 against 2 bytes in the table). -/
theorem cur_live_not_sum :
    (∃ s, replay 0 [mk_row 0 "malloc" 16 100 1 7, mk_row 1 "malloc" 16 50 1 7] = some s ∧
      s.cur_live = 150 ∧ sum_used s.live.a s.live.cap = 50) ∧
    (∃ s, replay 0 [mk_row 0 "malloc" 16 18446744073709551615 1 7, mk_row 1 "malloc" 32 2 1 7,
        mk_row 2 "free" 16 0 1 7] = some s ∧
      s.cur_live = 0 ∧ sum_used s.live.a s.live.cap = 2) := by
  refine ⟨⟨Option.get (replay 0 [mk_row 0 "malloc" 16 100 1 7, mk_row 1 "malloc" 16 50 1 7])
      (by decide), (Option.some_get _).symm, by decide, ?_⟩,
    ⟨Option.get (replay 0 [mk_row 0 "malloc" 16 18446744073709551615 1 7,
      mk_row 1 "malloc" 32 2 1 7, mk_row 2 "free" 16 0 1 7])
      (by decide), (Option.some_get _).symm, by decide, ?_⟩⟩
  · rw [(replay_refines 0 _ _ (Option.some_get _).symm).2.2]
    decide
  · rw [(replay_refines 0 _ _ (Option.some_get _).symm).2.2]
    decide

end Analyze


namespace Analyze

/-- Routine `live_erase` returns for the address the insertion block has just
stored as a new entry: the slot it took lies on no other entry's probe path. -/
theorem erase_after_add (s t : Replay) (r : Row) (hw : WF s.live)
    (hnl : lookup s.live r.ptr = none) (hadd : add_new s r = some t) :
    ∃ res, live_erase t.live r.ptr = some res := by
  obtain ⟨p, hp, ha, hcap, hcase⟩ := add_new_live s t r hw hadd
  obtain ⟨wt, -⟩ := add_new_spec s t r hw hadd
  have hfn : live_find s.live r.ptr = none := (lookup_none_iff _ _).1 hnl
  rcases hcase with ⟨hf, -, -⟩ | ⟨-, hpu, -⟩
  · rw [hfn] at hf; exact absurd hf (by simp)
  · have hslot : t.live.a p = ent_of r := by rw [ha, set_slot_same]
    have hfind : live_find t.live r.ptr = some p := by
      have := find_of_used t.live wt p (by rw [hcap]; exact hp) (by rw [hslot]; rfl)
      rw [hslot] at this
      exact this
    apply erase_total_avoids t.live wt r.ptr p p hfind
    rw [hcap]
    refine ⟨hp, by rw [set_slot_same]; rfl, ?_⟩
    intro x hx hxu d hd e0 d' hd'
    have hxp : x ≠ p := by
      intro e
      rw [e, set_slot_same] at hxu
      exact absurd hxu (by simp [clear_ent])
    have hx1 : set_slot t.live.a p (clear_ent (t.live.a p)) x = s.live.a x := by
      rw [set_slot_ne _ _ _ _ hxp, ha, set_slot_ne _ _ _ _ hxp]
    rw [hx1] at hxu e0 ⊢
    obtain ⟨dF, hdF, eF, kF⟩ := hw.2 x hx hxu
    have hN := cap_pos _ hw.1
    have hh : hmix (s.live.a x).key_ptr % s.live.cap < s.live.cap := Nat.mod_lt _ hN
    have hdd : d = dF := probe_inj s.live.cap _ d dF hh hd hdF (e0.trans eF.symm)
    rw [hdd] at hd'
    intro e
    have := (kF d' hd').1
    rw [e, hpu] at this
    exact absurd this (by simp)

/-- The pair allocation row, `free` row of the same address on a well-formed
table with an unused slot, when the address is not live and the counter does
not wrap: both rows return, every lookup, `cur_live` and the number of used
slots are as before. -/
theorem pair_restores (T : Nat) (s : Replay) (r1 r2 : Row) (hw : WF s.live)
    (h1 : r1.op = "malloc" ∨ r1.op = "calloc") (h2 : r2.op = "free") (hp : r2.ptr = r1.ptr)
    (hnl : lookup s.live r1.ptr = none) (hov : s.cur_live + r1.arg < U64)
    (hroom : count_used s.live.a s.live.cap < s.live.cap) :
    ∃ s1 s2, step T s r1 = some s1 ∧ step T s1 r2 = some s2 ∧
      (∀ k, lookup s2.live k = lookup s.live k) ∧ s2.cur_live = s.cur_live ∧
      count_used s2.live.a s2.live.cap = count_used s.live.a s.live.cap := by
  have hU : U64 = 18446744073709551616 := by decide
  obtain ⟨t1, s1, ht1, hs1, hl1, c1, -, -⟩ := step_alloc T s r1 hw h1 (Or.inr hroom)
  have hw0 : WF (push_series s r1).live := hw
  have hnl0 : lookup (push_series s r1).live r1.ptr = none := hnl
  obtain ⟨wt, capt, lt1, lt2, -, lt4⟩ := add_new_spec _ t1 r1 hw0 ht1
  obtain ⟨res, hres⟩ := erase_after_add _ t1 r1 hw0 hnl0 ht1
  have hps : (push_series s1 r2).live = t1.live := hl1
  have hrem : ∃ t2, remove_old (push_series s1 r2) r2 = some t2 := by
    unfold remove_old
    rw [hps, hp, hres]
    obtain ⟨m, out⟩ := res
    cases out with
    | none => exact ⟨_, rfl⟩
    | some old => exact ⟨_, rfl⟩
  obtain ⟨t2, ht2⟩ := hrem
  have hw1 : WF (push_series s1 r2).live := by rw [hps]; exact wt
  obtain ⟨s2, hs2, hl2, c2, -, -⟩ := step_free T s1 t2 r2 h2 ht2
  obtain ⟨-, cap2, ln2, lo2, -, e2⟩ := remove_old_spec _ t2 r2 hw1 ht2
  have hlook : lookup (push_series s1 r2).live r2.ptr = some (ent_of r1) := by
    rw [hps, hp]; exact lt1
  obtain ⟨-, q2⟩ := remove_old_cur _ t2 r2 hw1 ht2
  have hq := q2 _ hlook
  have hpc : (push_series s1 r2).cur_live = s1.cur_live := rfl
  have hsz : (ent_of r1).size = r1.arg := rfl
  rw [hpc, hsz] at hq
  refine ⟨s1, s2, hs1, hs2, ?_, ?_, ?_⟩
  · intro k
    rw [hl2]
    by_cases hk : k = r1.ptr
    · rw [hk, ← hp, ln2, hp, hnl]
    · rw [lo2 k (by rw [hp]; exact hk), hps, lt2 k hk]
      rfl
  · rw [c2, hq, c1, hU]
    rw [hU] at hov
    omega
  · have hc2 := (e2 _ hlook).2.2
    have hc1 : count_used t1.live.a s.live.cap = count_used s.live.a s.live.cap + 1 :=
      (lt4 hnl0).2
    have capt' : t1.live.cap = s.live.cap := capt
    rw [hps] at hc2 cap2
    rw [hl2, cap2, capt']
    rw [capt'] at hc2
    omega

end Analyze


namespace Analyze

theorem replay_two (T : Nat) (rows : List Row) (s s1 s2 : Replay) (r1 r2 : Row)
    (h : replay T rows = some s) (h1 : step T s r1 = some s1) (h2 : step T s1 r2 = some s2) :
    replay T (rows ++ [r1, r2]) = some s2 := by
  have e : rows ++ [r1, r2] = (rows ++ [r1]) ++ [r2] := by simp
  rw [e]
  exact replay_snoc_of T _ s1 s2 r2 (replay_snoc_of T rows s s1 r1 h h1) h2

/-- C4 (as the code has it): from a reached state whose table has an unused
slot, in which `p` is not live and `cur_live + s` does not pass `2 ^ 64`, the
pair Allocate(p, s); Free(p) is replayed to the end and leaves every lookup
of the live table, `cur_live` and the number of live blocks as they were; from
the empty state this is the empty live set and `cur_live = 0`. -/
theorem alloc_free_restores (T : Nat) (rows : List Row) (s : Replay) (r1 r2 : Row)
    (hreach : replay T rows = some s)
    (h1 : r1.op = "malloc" ∨ r1.op = "calloc") (h2 : r2.op = "free") (hp : r2.ptr = r1.ptr)
    (hnl : lookup s.live r1.ptr = none) (hov : s.cur_live + r1.arg < U64)
    (hroom : count_used s.live.a s.live.cap < s.live.cap) :
    ∃ s2, replay T (rows ++ [r1, r2]) = some s2 ∧
      (∀ k, lookup s2.live k = lookup s.live k) ∧ s2.cur_live = s.cur_live ∧
      end_cnt s2.live = end_cnt s.live := by
  obtain ⟨s1, s2, a1, a2, a3, a4, a5⟩ :=
    pair_restores T s r1 r2 (reach_wf T rows s hreach).1 h1 h2 hp hnl hov hroom
  exact ⟨s2, replay_two T rows s s1 s2 r1 r2 hreach a1 a2, a3, a4, a5⟩

/-- C4 at the input of the claim, from the empty state: `p = 0x1`, `s = 100`. -/
theorem alloc_free_restores_witness :
    ∃ s2, replay 0 ([] ++ [mk_row 0 "malloc" 1 100 1 7, mk_row 1 "free" 1 0 1 7]) = some s2 ∧
      (∀ k, lookup s2.live k = lookup init.live k) ∧ s2.cur_live = init.cur_live ∧
      end_cnt s2.live = end_cnt init.live :=
  alloc_free_restores 0 [] init _ _ rfl (Or.inl rfl) rfl rfl (by decide) (by decide) init_room

theorem fill_rows_succ (n : Nat) :
    fill_rows (n + 1) = fill_rows n ++ [mk_row (Int.ofNat n) "malloc" (n + 1) 1 1 7] := by
  unfold fill_rows
  rw [List.range_succ, List.map_append]
  rfl

/-- The replay of `n ≤ 2 ^ 20` allocations at distinct addresses returns, with
`n` used slots. -/
theorem fill_reach (T : Nat) : ∀ n, n ≤ 2 ^ 20 →
    ∃ s, replay T (fill_rows n) = some s ∧ count_used s.live.a s.live.cap = n ∧
      s.cur_live = n ∧ ∀ k, n < k → lookup s.live k = none := by
  intro n
  induction n with
  | zero =>
    intro _
    refine ⟨init, rfl, count_used_zero _ (fun _ => rfl) _, rfl, ?_⟩
    intro k _
    have hf := (find_none_iff live_init wf_init k).2 (fun s _ hu => by
      simp [live_init, zero_ent] at hu)
    exact (lookup_none_iff _ _).2 hf
  | succ n ih =>
    intro hn
    obtain ⟨s, hs, hcnt, hcur, hlk⟩ := ih (by omega)
    obtain ⟨hw, hcap⟩ := reach_wf T _ _ hs
    have hroom : count_used s.live.a s.live.cap < s.live.cap := by
      rw [hcnt, hcap]; omega
    obtain ⟨t1, s1, ht1, hs1, hl1, c1, -, -⟩ :=
      step_alloc T s (mk_row (Int.ofNat n) "malloc" (n + 1) 1 1 7) hw (Or.inl rfl)
        (Or.inr hroom)
    have hw0 : WF (push_series s (mk_row (Int.ofNat n) "malloc" (n + 1) 1 1 7)).live := hw
    obtain ⟨-, capt, -, lt2, -, lt4⟩ := add_new_spec _ t1 _ hw0 ht1
    have hnl : lookup s.live (n + 1) = none := hlk (n + 1) (by omega)
    have hc1 : count_used t1.live.a s.live.cap = count_used s.live.a s.live.cap + 1 :=
      (lt4 hnl).2
    have capt' : t1.live.cap = s.live.cap := capt
    refine ⟨s1, ?_, ?_, ?_, ?_⟩
    · rw [fill_rows_succ]
      exact replay_snoc_of T _ s s1 _ hs hs1
    · rw [hl1, capt', hc1, hcnt]
    · rw [c1, hcur]
      have hU : U64 = 18446744073709551616 := by decide
      have harg : (mk_row (Int.ofNat n) "malloc" (n + 1) 1 1 7).arg = 1 := rfl
      rw [harg, hU]
      omega
    · intro k hk
      rw [hl1]
      have hne : k ≠ (mk_row (Int.ofNat n) "malloc" (n + 1) 1 1 7).ptr := by
        show k ≠ n + 1
        omega
      rw [lt2 k hne]
      exact hlk k (by omega)

/-- C4 fails as stated: after `2 ^ 20` allocations at distinct addresses the
state is reached, address `2 ^ 20 + 1` is not live and `cur_live + 1` does not
overflow, yet the table is full: the allocation row dereferences the `NULL`
result of `live_upsert`, so the pair Allocate; Free restores nothing. -/
theorem full_table_alloc_fails :
    ∃ s, replay 0 (fill_rows (2 ^ 20)) = some s ∧
      lookup s.live (2 ^ 20 + 1) = none ∧ s.cur_live + 1 < U64 ∧
      step 0 s (mk_row 1048576 "malloc" (2 ^ 20 + 1) 1 1 7) = none ∧
      replay 0 (fill_rows (2 ^ 20) ++
        [mk_row 1048576 "malloc" (2 ^ 20 + 1) 1 1 7, mk_row 1048577 "free" (2 ^ 20 + 1) 0 1 7])
        = none := by
  obtain ⟨s, hs, hcnt, hcur, hlk⟩ := fill_reach 0 (2 ^ 20) (Nat.le_refl _)
  obtain ⟨hw, hcap⟩ := reach_wf 0 _ _ hs
  have hnl : lookup s.live (2 ^ 20 + 1) = none := hlk _ (by omega)
  have hstep : step 0 s (mk_row 1048576 "malloc" (2 ^ 20 + 1) 1 1 7) = none := by
    unfold step
    have hfull : add_new (push_series s (mk_row 1048576 "malloc" (2 ^ 20 + 1) 1 1 7))
        (mk_row 1048576 "malloc" (2 ^ 20 + 1) 1 1 7) = none :=
      add_new_full (push_series s (mk_row 1048576 "malloc" (2 ^ 20 + 1) 1 1 7))
        (mk_row 1048576 "malloc" (2 ^ 20 + 1) 1 1 7) hw hnl
        (by show count_used s.live.a s.live.cap = s.live.cap; rw [hcnt, hcap])
    rw [apply_op_alloc _ _ (Or.inl rfl), hfull]
  refine ⟨s, hs, hnl, ?_, hstep, ?_⟩
  · rw [hcur]
    have hU : U64 = 18446744073709551616 := by decide
    rw [hU]
    omega
  · have e : fill_rows (2 ^ 20) ++
        [mk_row 1048576 "malloc" (2 ^ 20 + 1) 1 1 7, mk_row 1048577 "free" (2 ^ 20 + 1) 0 1 7] =
        (fill_rows (2 ^ 20) ++ [mk_row 1048576 "malloc" (2 ^ 20 + 1) 1 1 7]) ++
          [mk_row 1048577 "free" (2 ^ 20 + 1) 0 1 7] := by simp
    rw [e, replay_append, replay_append, hs]
    dsimp only
    rw [hstep]

end Analyze


namespace Analyze

/-- One accepted row appends exactly one point to the time series: the row's
index and times with the value of `cur_live` before the row's event. -/
theorem step_series (T : Nat) (s s' : Replay) (r : Row) (h : step T s r = some s') :
    s'.series = s.series ++
      [{ idx := (r.idx % (U64 : Int)).toNat, ts_ns := r.ts_ns, wall_time := r.wall_time,
         value := s.cur_live }] := by
  unfold step at h
  cases hop : apply_op (push_series s r) r with
  | none => rw [hop] at h; simp at h
  | some s1 =>
    rw [hop] at h
    simp only [Option.some.injEq] at h
    have hs : s'.series = s1.series := by
      rw [← h]; exact (post_fields T s1 r).2.2.2.2.2.1
    rw [hs]
    have hadd : ∀ t t', add_new t r = some t' → t'.series = t.series :=
      fun t t' ht => (add_new_frame t t' r ht).2.2.2.2.2.2.2.2.2.2.2.1
    have hrem : ∀ t t', remove_old t r = some t' → t'.series = t.series :=
      fun t t' ht => (remove_old_frame t t' r ht).2.2.2.2.2.2.2.2.2.2.2.1
    have hbase : (push_series s r).series = s.series ++
        [{ idx := (r.idx % (U64 : Int)).toNat, ts_ns := r.ts_ns, wall_time := r.wall_time,
           value := s.cur_live }] := rfl
    rw [← hbase]
    unfold apply_op at hop
    split_ifs at hop
    · exact hadd _ _ hop
    · cases h1 : remove_old (push_series s r) r with
      | none => rw [h1] at hop; simp at hop
      | some t =>
        rw [h1] at hop
        rw [hadd _ _ hop, hrem _ _ h1]
    · exact hrem _ _ hop
    · simp only [Option.some.injEq] at hop
      rw [← hop]

/-- The time series of a reached state, point by point. -/
theorem series_points (T : Nat) : ∀ rows s, replay T rows = some s →
    s.series.length = rows.length ∧
    ∀ i, i < rows.length → ∃ si, replay T (rows.take i) = some si ∧
      s.series[i]? = some
        { idx := ((rows.getD i (mk_row 0 "" 0 0 0 0)).idx % (U64 : Int)).toNat,
          ts_ns := (rows.getD i (mk_row 0 "" 0 0 0 0)).ts_ns,
          wall_time := (rows.getD i (mk_row 0 "" 0 0 0 0)).wall_time,
          value := si.cur_live } := by
  apply replay_induction
  · exact ⟨rfl, fun i hi => absurd hi (Nat.not_lt_zero _)⟩
  · intro l s r s' hl ih hstep
    obtain ⟨ilen, ipts⟩ := ih
    have hser := step_series T s s' r hstep
    refine ⟨by rw [hser, List.length_append, List.length_append, ilen]; rfl, ?_⟩
    intro i hi
    rw [List.length_append, List.length_singleton] at hi
    by_cases hlt : i < l.length
    · obtain ⟨si, h1, h2⟩ := ipts i hlt
      refine ⟨si, ?_, ?_⟩
      · rw [List.take_append_of_le_length (Nat.le_of_lt hlt)]; exact h1
      · rw [hser, List.getElem?_append_left (by rw [ilen]; exact hlt),
          List.getD_append _ _ _ _ hlt]
        exact h2
    · have hi' : i = l.length := by omega
      subst hi'
      refine ⟨s, ?_, ?_⟩
      · rw [List.take_left']
        · exact hl
        · rfl
      · rw [hser, List.getElem?_append_right (by rw [ilen]),
          List.getD_append_right _ _ _ _ (Nat.le_refl _), ilen]
        simp

end Analyze


namespace Analyze

/-- C31: in a reached state the time series holds one point per accepted row,
and the point at position `i` stores `cur_live` as it was before row `i` was
applied, that is after the first `i` rows: the first value is 0, the value at
position `i + 1` is `cur_live` after event `i`, and there is no point for the
state after the last event. -/
theorem series_before_event (T : Nat) (rows : List Row) (s : Replay)
    (hreach : replay T rows = some s) :
    s.series.length = rows.length ∧
    (∀ i, i < rows.length → ∃ si p, replay T (rows.take i) = some si ∧
      s.series[i]? = some p ∧ p.value = si.cur_live) ∧
    (rows ≠ [] → ∃ p, s.series[0]? = some p ∧ p.value = 0) ∧
    (∀ i, i + 1 < rows.length → ∃ si p, replay T (rows.take (i + 1)) = some si ∧
      s.series[i + 1]? = some p ∧ p.value = si.cur_live) ∧
    s.series[rows.length]? = none := by
  obtain ⟨hlen, hpts⟩ := series_points T rows s hreach
  have hall : ∀ i, i < rows.length → ∃ si p, replay T (rows.take i) = some si ∧
      s.series[i]? = some p ∧ p.value = si.cur_live := by
    intro i hi
    obtain ⟨si, h1, h2⟩ := hpts i hi
    exact ⟨si, _, h1, h2, rfl⟩
  refine ⟨hlen, hall, ?_, fun i hi => hall (i + 1) hi, ?_⟩
  · intro hne
    have hpos : 0 < rows.length := List.length_pos.2 hne
    obtain ⟨si, p, h1, h2, h3⟩ := hall 0 hpos
    have e : replay T (rows.take 0) = some init := rfl
    rw [e] at h1
    rw [← Option.some.inj h1] at h3
    exact ⟨p, h2, h3⟩
  · rw [List.getElem?_eq_none_iff, hlen]

/-- C31 on the trace `malloc 16 (100)`, `malloc 32 (50)`, `free 16`: the stored
values are 0, 100, 150 and the final 50 is not stored. -/
theorem series_before_event_witness :
    ((Option.get (replay 0 [mk_row 0 "malloc" 16 100 1 7, mk_row 1 "malloc" 32 50 1 7,
        mk_row 2 "free" 16 0 1 7]) (by decide)).series.map TsPoint.value = [0, 100, 150] ∧
      (Option.get (replay 0 [mk_row 0 "malloc" 16 100 1 7, mk_row 1 "malloc" 32 50 1 7,
        mk_row 2 "free" 16 0 1 7]) (by decide)).cur_live = 50) ∧
    (Option.get (replay 0 [mk_row 0 "malloc" 16 100 1 7, mk_row 1 "malloc" 32 50 1 7,
        mk_row 2 "free" 16 0 1 7]) (by decide)).series.length =
      [mk_row 0 "malloc" 16 100 1 7, mk_row 1 "malloc" 32 50 1 7,
        mk_row 2 "free" 16 0 1 7].length :=
  ⟨⟨by decide, by decide⟩,
    (series_before_event 0 [mk_row 0 "malloc" 16 100 1 7, mk_row 1 "malloc" 32 50 1 7,
      mk_row 2 "free" 16 0 1 7] _ (Option.some_get _).symm).1⟩

end Analyze


namespace Analyze

/-- The loop body returns on every row when the table is well-formed and has
an unused slot. -/
theorem step_total (T : Nat) (s : Replay) (r : Row) (hw : WF s.live)
    (hroom : count_used s.live.a s.live.cap < s.live.cap) : ∃ s', step T s r = some s' := by
  by_cases h1 : r.op = "malloc" ∨ r.op = "calloc"
  · obtain ⟨_, s', _, hs, _⟩ := step_alloc T s r hw h1 (Or.inr hroom)
    exact ⟨s', hs⟩
  · by_cases h2 : r.op = "realloc"
    · obtain ⟨_, _, s', _, _, hs, _⟩ := step_realloc T s r hw h2 hroom
      exact ⟨s', hs⟩
    · by_cases h3 : r.op = "free"
      · obtain ⟨t, ht⟩ := remove_old_total (push_series s r) r hw hroom
        obtain ⟨s', hs, _⟩ := step_free T s t r h3 ht
        exact ⟨s', hs⟩
      · have hop : apply_op (push_series s r) r = some (push_series s r) := by
          unfold apply_op
          rw [if_neg h1, if_neg h2, if_neg h3]
        obtain ⟨s', hs, _⟩ := step_of_apply T s _ r hop
        exact ⟨s', hs⟩

/-- The row loop runs to its end on a trace during which the live table holds
fewer than `2 ^ 20` blocks before every row. -/
theorem replay_total (T : Nat) (rows : List Row) :
    (∀ n, n < rows.length → (ref_run (trace_ops (rows.take n))).length < 2 ^ 20) →
    ∃ s, replay T rows = some s := by
  induction rows using List.reverseRecOn with
  | nil => intro _; exact ⟨init, rfl⟩
  | append_singleton l r ih =>
    intro hroom
    have hl : ∀ n, n < l.length → (ref_run (trace_ops (l.take n))).length < 2 ^ 20 := by
      intro n hn
      have := hroom n (by rw [List.length_append]; omega)
      rw [List.take_append_of_le_length (Nat.le_of_lt hn)] at this
      exact this
    obtain ⟨s, hs⟩ := ih hl
    obtain ⟨hw, hcap⟩ := reach_wf T l s hs
    obtain ⟨-, hcnt, -⟩ := replay_refines T l s hs
    have hlast := hroom l.length (by rw [List.length_append, List.length_singleton]; omega)
    rw [List.take_left' rfl] at hlast
    obtain ⟨s', hs'⟩ := step_total T s r hw (by rw [hcnt, hcap]; exact hlast)
    exact ⟨s', replay_snoc_of T l s s' r hs hs'⟩

theorem replay_total_prefix (T : Nat) (rows : List Row)
    (hroom : ∀ n, n < rows.length → (ref_run (trace_ops (rows.take n))).length < 2 ^ 20)
    (n : Nat) : ∃ sn, replay T (rows.take n) = some sn := by
  apply replay_total
  intro m hm
  rw [List.length_take] at hm
  rw [List.take_take, Nat.min_eq_left (by omega)]
  exact hroom m (by omega)

end Analyze


namespace Analyze

/-- C6 (as the code has it): for a threshold `T > 0` and a trace during which
the live table holds fewer than `2 ^ 20` blocks before every row, the run
reaches its end after every prefix, and the overview reports a crossing iff
some row leaves `cur_live ≥ T` once applied; the reported index is the `idx` of
the earliest such row and the reported bytes are `cur_live` right after it. -/
theorem crossing_first (T : Nat) (rows : List Row) (top : Int) (hT : 0 < T)
    (hroom : ∀ n, n < rows.length → (ref_run (trace_ops (rows.take n))).length < 2 ^ 20) :
    ∃ s rep, replay T rows = some s ∧ analyze T top rows = some rep ∧
      rep.overview.approx_cross =
        (if s.have_cross then some (s.cross_idx, s.cross_tsns, s.cross_wt, s.cross_bytes)
         else none) ∧
      (∀ n, ∃ sn, replay T (rows.take n) = some sn) ∧
      (s.have_cross = true ↔ ∃ n sn, n < rows.length ∧
        replay T (rows.take (n + 1)) = some sn ∧ T ≤ sn.cur_live) ∧
      (s.have_cross = true → ∃ n sn row, rows[n]? = some row ∧
        replay T (rows.take (n + 1)) = some sn ∧ T ≤ sn.cur_live ∧
        (∀ m sm, m < n → replay T (rows.take (m + 1)) = some sm → sm.cur_live < T) ∧
        s.cross_idx = row.idx ∧ s.cross_bytes = sn.cur_live) := by
  obtain ⟨s, h⟩ := replay_total T rows hroom
  obtain ⟨a, b⟩ := cross_inv T (by omega) rows s h
  have hrep : analyze T top rows = some
      { overview := overview s, top_tids := write_top_tids s.tstats top,
        top_sites := write_top_sites s.rstats top, live_blocks := write_live_blocks s.live } := by
    unfold analyze
    rw [h]
  refine ⟨s, _, h, hrep, rfl, replay_total_prefix T rows hroom,
    ⟨fun hc => ?_, fun hex => ?_⟩, b⟩
  · obtain ⟨n, sn, row, e1, e2, e3, -⟩ := b hc
    refine ⟨n, sn, ?_, e2, e3⟩
    rcases Nat.lt_or_ge n rows.length with h | h
    · exact h
    · rw [List.getElem?_eq_none h] at e1; exact absurd e1 (by simp)
  · obtain ⟨n, sn, hn, e2, e3⟩ := hex
    cases hcs : s.have_cross with
    | true => rfl
    | false => have := a hcs n sn hn e2; omega

/-- C6 on the sample log with threshold 120: the crossing is reported at
index 1 with 150 bytes. -/
theorem crossing_first_witness :
    ((Option.get (analyze 120 50 [mk_row 0 "malloc" 1 100 1 7, mk_row 1 "malloc" 2 50 1 7,
        mk_row 2 "free" 2 0 1 7]) (by decide)).overview.approx_cross =
        some (1, 0, "", 150)) ∧
    ∃ s rep, replay 120 [mk_row 0 "malloc" 1 100 1 7, mk_row 1 "malloc" 2 50 1 7,
        mk_row 2 "free" 2 0 1 7] = some s ∧
      analyze 120 50 [mk_row 0 "malloc" 1 100 1 7, mk_row 1 "malloc" 2 50 1 7,
        mk_row 2 "free" 2 0 1 7] = some rep ∧
      rep.overview.approx_cross =
        (if s.have_cross then some (s.cross_idx, s.cross_tsns, s.cross_wt, s.cross_bytes)
         else none) ∧
      (∀ n, ∃ sn, replay 120 ([mk_row 0 "malloc" 1 100 1 7, mk_row 1 "malloc" 2 50 1 7,
        mk_row 2 "free" 2 0 1 7].take n) = some sn) ∧
      (s.have_cross = true ↔ ∃ n sn, n < [mk_row 0 "malloc" 1 100 1 7,
          mk_row 1 "malloc" 2 50 1 7, mk_row 2 "free" 2 0 1 7].length ∧
        replay 120 ([mk_row 0 "malloc" 1 100 1 7, mk_row 1 "malloc" 2 50 1 7,
          mk_row 2 "free" 2 0 1 7].take (n + 1)) = some sn ∧ 120 ≤ sn.cur_live) ∧
      (s.have_cross = true → ∃ n sn row, [mk_row 0 "malloc" 1 100 1 7,
          mk_row 1 "malloc" 2 50 1 7, mk_row 2 "free" 2 0 1 7][n]? = some row ∧
        replay 120 ([mk_row 0 "malloc" 1 100 1 7, mk_row 1 "malloc" 2 50 1 7,
          mk_row 2 "free" 2 0 1 7].take (n + 1)) = some sn ∧ 120 ≤ sn.cur_live ∧
        (∀ m sm, m < n → replay 120 ([mk_row 0 "malloc" 1 100 1 7,
          mk_row 1 "malloc" 2 50 1 7, mk_row 2 "free" 2 0 1 7].take (m + 1)) = some sm →
          sm.cur_live < 120) ∧
        s.cross_idx = row.idx ∧ s.cross_bytes = sn.cur_live) :=
  ⟨by decide,
   crossing_first 120 [mk_row 0 "malloc" 1 100 1 7, mk_row 1 "malloc" 2 50 1 7,
      mk_row 2 "free" 2 0 1 7] 50 (by decide) (by decide)⟩

theorem fill_rows_take_one (n : Nat) (l : List Row) :
    (fill_rows (n + 1) ++ l).take 1 = [mk_row 0 "malloc" 1 1 1 7] := by
  unfold fill_rows
  rw [List.range_succ_eq_map, List.map_cons, List.cons_append]
  rfl

theorem analyze_none (T : Nat) (top : Int) (rows : List Row) (h : replay T rows = none) :
    analyze T top rows = none := by
  unfold analyze
  rw [h]

theorem fill_full_take_one (l : List Row) :
    (fill_rows (2 ^ 20) ++ l).take 1 = [mk_row 0 "malloc" 1 1 1 7] := by
  have e0 : (2 : Nat) ^ 20 = 1048575 + 1 := by decide
  have e : fill_rows (2 ^ 20) = fill_rows (1048575 + 1) := congrArg fill_rows e0
  rw [e, fill_rows_take_one]

/-- After `2 ^ 20` allocations at distinct addresses, one more allocation at a
new address dereferences the `NULL` result of `live_upsert`, for every threshold. -/
theorem fill_then_alloc (T : Nat) :
    replay T (fill_rows (2 ^ 20) ++ [mk_row 1048576 "malloc" (2 ^ 20 + 1) 1 1 7]) = none := by
  obtain ⟨s, hs, hcnt, -, hlk⟩ := fill_reach T (2 ^ 20) (Nat.le_refl _)
  obtain ⟨hw, hcap⟩ := reach_wf T _ _ hs
  have hnl : lookup s.live (2 ^ 20 + 1) = none := hlk _ (by omega)
  have hfull : add_new (push_series s (mk_row 1048576 "malloc" (2 ^ 20 + 1) 1 1 7))
      (mk_row 1048576 "malloc" (2 ^ 20 + 1) 1 1 7) = none :=
    add_new_full (push_series s (mk_row 1048576 "malloc" (2 ^ 20 + 1) 1 1 7))
      (mk_row 1048576 "malloc" (2 ^ 20 + 1) 1 1 7) hw hnl
      (by show count_used s.live.a s.live.cap = s.live.cap; rw [hcnt, hcap])
  rw [replay_append, hs]
  dsimp only
  unfold step
  rw [apply_op_alloc _ _ (Or.inl rfl), hfull]

/-- C6 fails as stated: with threshold 1 on the trace of `2 ^ 20` one-byte
allocations at distinct addresses followed by one more at a new address, the
first row leaves `cur_live = 1 ≥ T`, yet the row loop never reaches its end
(the last row dereferences `NULL`), so no crossing is reported. -/
theorem crossing_unreported :
    (∃ s1, replay 1 ((fill_rows (2 ^ 20) ++
        [mk_row 1048576 "malloc" (2 ^ 20 + 1) 1 1 7]).take 1) = some s1 ∧ 1 ≤ s1.cur_live) ∧
    replay 1 (fill_rows (2 ^ 20) ++ [mk_row 1048576 "malloc" (2 ^ 20 + 1) 1 1 7]) = none ∧
    ∀ top, analyze 1 top (fill_rows (2 ^ 20) ++
      [mk_row 1048576 "malloc" (2 ^ 20 + 1) 1 1 7]) = none := by
  refine ⟨⟨Option.get (replay 1 [mk_row 0 "malloc" 1 1 1 7]) (by decide), ?_, by decide⟩,
    fill_then_alloc 1, ?_⟩
  · rw [fill_full_take_one]
    exact (Option.some_get _).symm
  · intro top
    exact analyze_none 1 top _ (fill_then_alloc 1)

end Analyze
